import Mathlib

/-!
Verification development for the lua-memcached module (src/memcached.c and
src/memcached.h).  The C sources are shallowly embedded: machine integers are
modelled as `Nat`/`Int` with explicit wrap-around where the code relies on it,
buffers are records of a byte list plus `pos`/`len`/`capacity`, Lua values are
an inductive type and Lua tables a heap (list of entry lists) addressed by
reference, so that shared and cyclic table graphs are expressible.  Fallible C
paths (luaL_error) are modelled with `Except String`.  Unbounded C recursion is
modelled with an explicit fuel parameter; a fuel-exhaustion result is an
artifact of the embedding, not a behaviour of the C code.
-/

namespace LuaMemcached

/-! ### Constants from memcached.c -/

/-- SIZE_MAX for the 64-bit size_t used by the module. -/
def SIZE_MAX : Nat := 2 ^ 64 - 1

/-- UINT64_MAX. -/
def UINT64_MAX : Nat := 2 ^ 64 - 1

/-- MEMCACHED_BUFFER_SIZE: initial buffer allocation. -/
def MEMCACHED_BUFFER_SIZE : Nat := 1024

/-- MEMCACHED_BUFFER_MAX: the 256 MiB buffer ceiling. -/
def MEMCACHED_BUFFER_MAX : Nat := 256 * 1024 * 1024

/-- LUA_MAXINTEGER = INT64_MAX. -/
def LUA_MAXINTEGER : Nat := 2 ^ 63 - 1

/-- Lua type tag LUA_TBOOLEAN (doubles as the wire tag for false). -/
def LUA_TBOOLEAN : Nat := 1

/-- Lua type tag LUA_TNUMBER (doubles as the wire tag for floats). -/
def LUA_TNUMBER : Nat := 3

/-- Lua type tag LUA_TSTRING (doubles as the wire tag for long strings). -/
def LUA_TSTRING : Nat := 4

/-- Lua type tag LUA_TTABLE. -/
def LUA_TTABLE : Nat := 5

/-- MEMCACHED_TYPE_BOOLEANTRRUE = LUA_TBOOLEAN + 64 (sic, name as in the source). -/
def MEMCACHED_TYPE_BOOLEANTRRUE : Nat := LUA_TBOOLEAN + 64

/-- MEMCACHED_TYPE_INTEGER = LUA_TNUMBER + 64. -/
def MEMCACHED_TYPE_INTEGER : Nat := LUA_TNUMBER + 64

/-- MEMCACHED_TYPE_STRINGSHORT = LUA_TSTRING + 64. -/
def MEMCACHED_TYPE_STRINGSHORT : Nat := LUA_TSTRING + 64

/-- MEMCACHED_TYPE_TABLE8 = LUA_TTABLE. -/
def MEMCACHED_TYPE_TABLE8 : Nat := LUA_TTABLE

/-- MEMCACHED_TYPE_TABLE16 = LUA_TTABLE + 16. -/
def MEMCACHED_TYPE_TABLE16 : Nat := LUA_TTABLE + 16

/-- MEMCACHED_TYPE_TABLE32 = LUA_TTABLE + 32. -/
def MEMCACHED_TYPE_TABLE32 : Nat := LUA_TTABLE + 32

/-- MEMCACHED_TYPE_TABLE64 = LUA_TTABLE + 32 + 16. -/
def MEMCACHED_TYPE_TABLE64 : Nat := LUA_TTABLE + 32 + 16

/-- MEMCACHED_TYPE_TABLEREF = LUA_TTABLE + 64. -/
def MEMCACHED_TYPE_TABLEREF : Nat := LUA_TTABLE + 64

/-- MEMCACHED_CODEC_VERSION "LM\xf6\x02" as bytes. -/
def MEMCACHED_CODEC_VERSION : List Nat := [0x4C, 0x4D, 0xF6, 0x02]

/-! ### The growable buffer (memcached_buffer_t, memcached.h lines 19-24)

The C buffer is a heap region `b` with `pos`, `len`, `capacity`.  We model the
region's initialized prefix as a byte list `data`; bytes the C code has
allocated but not yet written are junk and are never read before being
overwritten, so they are not represented. -/

structure MBuffer where
  data : List Nat
  pos : Nat
  len : Nat
  capacity : Nat
deriving Repr, DecidableEq

/-- One step of buffer_require's hybrid growth loop body (memcached.c 152-168):
double below 64 KiB, grow by 50% at or above, clamping to the exact
requirement when the multiplication would overflow size_t. -/
def growStep (required capacity : Nat) : Nat :=
  if capacity < 64 * 1024 then
    if capacity ≤ SIZE_MAX / 2 then capacity * 2 else required
  else
    if capacity ≤ SIZE_MAX / 3 * 2 then capacity + capacity / 2 else required

/-- The `while (capacity < required)` loop of buffer_require.  The C loop
terminates because capacity strictly increases (the callers always start it
with capacity ≥ 1); the fuel parameter only makes the model total, and
`buffer_require` passes fuel `required`, which is always sufficient. -/
def growLoop (required : Nat) : Nat → Nat → Nat
  | fuel, capacity =>
    if capacity < required then
      match fuel with
      | 0 => capacity
      | fuel' + 1 => growLoop required fuel' (growStep required capacity)
    else capacity

/-- buffer_require (memcached.c 135-179).  `realloc` failure (luaL_error
"out of memory") is a host resource condition and is not modelled: the
reallocation is taken to succeed. -/
def buffer_require (b : MBuffer) (cnt : Nat) : Except String MBuffer :=
  if cnt > SIZE_MAX - b.pos ∨ b.pos + cnt > MEMCACHED_BUFFER_MAX then
    .error "buffer overflow"
  else if b.capacity ≥ b.pos + cnt then .ok b
  else
    .ok { b with
          capacity := growLoop (b.pos + cnt) (b.pos + cnt)
            (if b.capacity = 0 then MEMCACHED_BUFFER_SIZE else b.capacity) }

/-- buffer_avail (memcached.c 181-186). -/
def buffer_avail (b : MBuffer) (cnt : Nat) : Except String Unit :=
  if cnt > SIZE_MAX - b.pos ∨ b.pos + cnt > b.len then
    .error "buffer underflow"
  else .ok ()

/-! ### Byte-level helpers -/

/-- Overwrite bytes of `d` starting at index `i` with `bs`, extending `d` if
the write runs past its end (the C code writes into allocated-but-junk space;
only writes with `i ≤ d.length` occur). -/
def writeAt (d : List Nat) (i : Nat) (bs : List Nat) : List Nat :=
  d.take i ++ bs ++ d.drop (i + bs.length)

/-- Write `bs` at the buffer position and advance `pos` (the C idiom
`memcpy(&b->b[b->pos], ...); b->pos += n`). -/
def writeBytes (b : MBuffer) (bs : List Nat) : MBuffer :=
  { b with data := writeAt b.data b.pos bs, pos := b.pos + bs.length }

/-- Read `n` bytes of `d` starting at index `i`. -/
def seg (d : List Nat) (i n : Nat) : List Nat :=
  (d.drop i).take n

/-- Big-endian bytes of `n`, `w` bytes wide (htobe16/htobe32/htobe64 plus
memcpy into the buffer). -/
def beBytes : Nat → Nat → List Nat
  | 0, _ => []
  | w + 1, n => (n / 256 ^ w) % 256 :: beBytes w n

/-- Value of a big-endian byte string (memcpy out of the buffer plus
be16toh/be32toh/be64toh). -/
def beVal : List Nat → Nat
  | [] => 0
  | byte :: bs => byte * 256 ^ bs.length + beVal bs

/-- Little-endian bytes, used for the 8 host-order bytes of a double
(the module memcpys the raw binary64 layout; the host is little-endian). -/
def leBytes : Nat → Nat → List Nat
  | 0, _ => []
  | w + 1, n => n % 256 :: leBytes w (n / 256)

/-- Value of a little-endian byte string. -/
def leVal : List Nat → Nat
  | [] => 0
  | byte :: bs => byte + 256 * leVal bs

/-- Reinterpret an int64 (lua_Integer) as a uint64, as htobe64 of the
two's-complement representation does. -/
def int64ToUInt64 (i : Int) : Nat :=
  (i % (2 ^ 64 : Int)).toNat

/-- Reinterpret a uint64 as an int64 (the effect of lua_pushinteger on the
64-bit pattern produced by be64toh). -/
def uint64ToInt64 (n : Nat) : Int :=
  if n < 2 ^ 63 then (n : Int) else (n : Int) - 2 ^ 64

/-- buffer_avail followed by reading one byte at pos (the C idiom
`b->b[b->pos++]`). -/
def readByte (b : MBuffer) : Except String (Nat × MBuffer) :=
  match buffer_avail b 1 with
  | .error e => .error e
  | .ok _ => .ok (b.data.getD b.pos 0, { b with pos := b.pos + 1 })

/-- buffer_avail followed by reading `n` bytes at pos. -/
def readBytes (b : MBuffer) (n : Nat) : Except String (List Nat × MBuffer) :=
  match buffer_avail b n with
  | .error e => .error e
  | .ok _ => .ok (seg b.data b.pos n, { b with pos := b.pos + n })

/-! ### The Lua value model

Lua values as the codec sees them through the Lua C API.  Tables are modelled
by reference into a heap so that shared and cyclic table graphs exist; the
heap entry for a table is its key/value pair list in lua_next traversal
order (array part first, then the hash part in the interpreter's order;
a real Lua table never repeats a key and never holds nil keys or values). -/

inductive LValue where
  | lnil
  | boolean (b : Bool)
  | integer (i : Int)
  | number (bits : Nat)
  | str (s : List Nat)
  | table (r : Nat)
  | other (id : Nat)
deriving Repr, DecidableEq

/-- A table's contents: its entries in lua_next order. -/
abbrev TableData := List (LValue × LValue)

/-- The table heap: table reference `r` denotes entry `r` of the heap. -/
abbrev Heap := List TableData

/-- supported (memcached.c 216-227): booleans, numbers, strings and tables
are in the codec's universe; everything else (nil, functions, userdata,
threads) is not. -/
def supported : LValue → Bool
  | .boolean _ => true
  | .integer _ => true
  | .number _ => true
  | .str _ => true
  | .table _ => true
  | _ => false

/-- lua_tointeger as used on the key at encode's array/record classification
(memcached.c 316).  Non-integers yield 0.  (Lua's coercion of numeric strings
and of floats with integral value is not modelled; integral-valued float keys
cannot occur because Lua normalizes them to integer keys, and a string key
that coerces would only shift an entry between the narr and nrec counts, not
change the emitted pairs.) -/
def luaToInteger : LValue → Int
  | .integer i => i
  | _ => 0

/-! ### The encoder (memcached.c 229-373, 509-543) -/

/-- The encode-side back-reference table (backref_t plus the Lua table at
br->index): a map from table reference to 1-based ordinal, plus the count. -/
structure Backrefs where
  assoc : List (Nat × Nat)
  cnt : Nat
deriving Repr, DecidableEq

/-- Look a table reference up in the back-reference table
(lua_pushvalue; lua_rawget(L, br->index), memcached.c 285-286). -/
def brLookup (br : Backrefs) (r : Nat) : Option Nat :=
  (br.assoc.find? (fun p => p.1 = r)).map (fun p => p.2)

/-- The closing size patch of encode's table case (memcached.c 332-365):
after the pairs are written, either write the two uint8 counts into the
reserved bytes, or rewrite the tag, widen the header in place by moving the
pair payload right (the memmove), and write the wider big-endian counts.
`size_pos` is the index of the first reserved size byte. -/
def finishTable (b : MBuffer) (size_pos narr nrec : Nat) : Except String MBuffer :=
  if narr ≤ 255 ∧ nrec ≤ 255 then
    .ok { b with data := writeAt (writeAt b.data size_pos [narr]) (size_pos + 1) [nrec] }
  else if narr ≤ 65535 ∧ nrec ≤ 65535 then
    match buffer_require
        { b with data := writeAt b.data (size_pos - 1) [MEMCACHED_TYPE_TABLE16] }
        (4 - 2) with
    | .error e => .error e
    | .ok b =>
      .ok { b with
            data := writeAt (writeAt
                (writeAt b.data (size_pos + 4) (seg b.data (size_pos + 2) (b.pos - size_pos - 2)))
                size_pos (beBytes 2 narr))
              (size_pos + 2) (beBytes 2 nrec),
            pos := b.pos + (4 - 2) }
  else if narr ≤ 4294967295 ∧ nrec ≤ 4294967295 then
    match buffer_require
        { b with data := writeAt b.data (size_pos - 1) [MEMCACHED_TYPE_TABLE32] }
        (8 - 2) with
    | .error e => .error e
    | .ok b =>
      .ok { b with
            data := writeAt (writeAt
                (writeAt b.data (size_pos + 8) (seg b.data (size_pos + 2) (b.pos - size_pos - 2)))
                size_pos (beBytes 4 narr))
              (size_pos + 4) (beBytes 4 nrec),
            pos := b.pos + (8 - 2) }
  else
    match buffer_require
        { b with data := writeAt b.data (size_pos - 1) [MEMCACHED_TYPE_TABLE64] }
        (16 - 2) with
    | .error e => .error e
    | .ok b =>
      .ok { b with
            data := writeAt (writeAt
                (writeAt b.data (size_pos + 16) (seg b.data (size_pos + 2) (b.pos - size_pos - 2)))
                size_pos (beBytes 8 narr))
              (size_pos + 8) (beBytes 8 nrec),
            pos := b.pos + (16 - 2) }

/-- The wire tag the size patch leaves on a table: the smallest size class
whose unsigned maximum accommodates both counts (memcached.c 332-356). -/
def tagFor (narr nrec : Nat) : Nat :=
  if narr ≤ 255 ∧ nrec ≤ 255 then MEMCACHED_TYPE_TABLE8
  else if narr ≤ 65535 ∧ nrec ≤ 65535 then MEMCACHED_TYPE_TABLE16
  else if narr ≤ 4294967295 ∧ nrec ≤ 4294967295 then MEMCACHED_TYPE_TABLE32
  else MEMCACHED_TYPE_TABLE64

/-- The size-field bytes the patch writes for the chosen size class. -/
def sizeBytes (narr nrec : Nat) : List Nat :=
  if narr ≤ 255 ∧ nrec ≤ 255 then [narr, nrec]
  else if narr ≤ 65535 ∧ nrec ≤ 65535 then beBytes 2 narr ++ beBytes 2 nrec
  else if narr ≤ 4294967295 ∧ nrec ≤ 4294967295 then beBytes 4 narr ++ beBytes 4 nrec
  else beBytes 8 narr ++ beBytes 8 nrec

/-- The lua_next iteration of encode's table case (memcached.c 313-331),
parameterized by the encoder for nested values (encode at the enclosing
recursion depth): entries whose key or value is unsupported are skipped; a
supported entry is classified into the array count (while nrec is still 0
and the key is the integer narr + 1) or the record count, and its key then
value are encoded. -/
def encodePairsGo (encV : MBuffer → Backrefs → LValue → Except String (MBuffer × Backrefs)) :
    MBuffer → Backrefs → TableData → Nat → Nat →
    Except String (MBuffer × Backrefs × Nat × Nat)
  | b, br, [], narr, nrec => .ok (b, br, narr, nrec)
  | b, br, (k, v) :: rest, narr, nrec =>
    if supported k ∧ supported v then
      if nrec = 0 ∧ luaToInteger k = (narr : Int) + 1 then
        if narr = LUA_MAXINTEGER then .error "too many array elements"
        else
          match encV b br k with
          | .error e => .error e
          | .ok (b, br) =>
            match encV b br v with
            | .error e => .error e
            | .ok (b, br) => encodePairsGo encV b br rest (narr + 1) nrec
      else
        if nrec = LUA_MAXINTEGER then .error "too many record elements"
        else
          match encV b br k with
          | .error e => .error e
          | .ok (b, br) =>
            match encV b br v with
            | .error e => .error e
            | .ok (b, br) => encodePairsGo encV b br rest narr (nrec + 1)
    else
      encodePairsGo encV b br rest narr nrec

/-- One level of encode (memcached.c 229-373), parameterized by the encoder
for nested values.  The two placeholder bytes reserved at size_pos are
written as zeros here (in C they are uninitialized junk); finishTable always
overwrites them. -/
def encodeValGo (H : Heap)
    (encV : MBuffer → Backrefs → LValue → Except String (MBuffer × Backrefs))
    (b : MBuffer) (br : Backrefs) (v : LValue) : Except String (MBuffer × Backrefs) :=
  match v with
  | .boolean bo =>
    match buffer_require b 1 with
    | .error e => .error e
    | .ok b =>
      .ok (writeBytes b [if bo then MEMCACHED_TYPE_BOOLEANTRRUE else LUA_TBOOLEAN], br)
  | .integer i =>
    match buffer_require b (1 + 8) with
    | .error e => .error e
    | .ok b =>
      .ok (writeBytes b (MEMCACHED_TYPE_INTEGER :: beBytes 8 (int64ToUInt64 i)), br)
  | .number bits =>
    match buffer_require b (1 + 8) with
    | .error e => .error e
    | .ok b =>
      .ok (writeBytes b (LUA_TNUMBER :: leBytes 8 bits), br)
  | .str s =>
    if s.length > UINT64_MAX - (1 + 8) then .error "string too long"
    else if s.length ≤ 255 then
      match buffer_require b (1 + 1 + s.length) with
      | .error e => .error e
      | .ok b =>
        .ok (writeBytes b (MEMCACHED_TYPE_STRINGSHORT :: s.length :: s), br)
    else
      match buffer_require b (1 + 8 + s.length) with
      | .error e => .error e
      | .ok b =>
        .ok (writeBytes b (LUA_TSTRING :: (beBytes 8 s.length ++ s)), br)
  | .table r =>
    match brLookup br r with
    | some t =>
      match buffer_require b (1 + 8) with
      | .error e => .error e
      | .ok b =>
        .ok (writeBytes b (MEMCACHED_TYPE_TABLEREF :: beBytes 8 t), br)
    | none =>
      if br.cnt = LUA_MAXINTEGER then .error "too many tables"
      else
        match buffer_require b (1 + 2) with
        | .error e => .error e
        | .ok b =>
          match encodePairsGo encV (writeBytes b [MEMCACHED_TYPE_TABLE8, 0, 0])
              { assoc := (r, br.cnt + 1) :: br.assoc, cnt := br.cnt + 1 }
              (H.getD r []) 0 0 with
          | .error e => .error e
          | .ok (b2, br2, narr, nrec) =>
            match finishTable b2 (b.pos + 1) narr nrec with
            | .error e => .error e
            | .ok b3 => .ok (b3, br2)
  | .lnil => .error "unsupported type"
  | .other _ => .error "unsupported type"

/-- encode (memcached.c 229-373).  The fuel bounds the C stack recursion
depth; with sufficient fuel this is encode itself.  Structural recursion on
the fuel keeps the definition kernel-reducible. -/
def encodeVal (H : Heap) : Nat → MBuffer → Backrefs → LValue →
    Except String (MBuffer × Backrefs)
  | 0, _, _, _ => .error "insufficient fuel"
  | fuel + 1, b, br, v => encodeValGo H (encodeVal H fuel) b br v

/-- encode's table-entry loop at a given recursion depth. -/
def encodePairs (H : Heap) (fuel : Nat) : MBuffer → Backrefs → TableData → Nat → Nat →
    Except String (MBuffer × Backrefs × Nat × Nat) :=
  encodePairsGo (encodeVal H fuel)

/-! ### The decoder (memcached.c 375-507, 545-577) -/

/-- The decode-side back-reference table (the Lua table at br->index) and the
tables decode has created: `dbr` lists, in creation order, the references of
the decoded tables (entry `i` is ordinal `i + 1`), and `dheap` is the decoded
table heap those references point into. -/
structure DecSt where
  dheap : List TableData
  dbr : List Nat
deriving Repr, DecidableEq

/-- lua_rawset on a decoded table (memcached.c 499, 504): replace the value
of an existing key, otherwise append the entry.  (rawset's nil cases cannot
arise: decode never produces a nil key or value.) -/
def rawset (t : TableData) (k v : LValue) : TableData :=
  if t.any (fun kv => kv.1 = k) then
    t.map (fun kv => if kv.1 = k then (k, v) else kv)
  else t ++ [(k, v)]

/-- One of the two key/value decoding loops of decodetable (memcached.c
496-505), parameterized by the decoder for nested values: decode a key,
decode a value, lua_rawset them into the table. -/
def decodePairsGo (decV : MBuffer → DecSt → Except String (LValue × MBuffer × DecSt)) :
    MBuffer → DecSt → Nat → Nat → Except String (MBuffer × DecSt)
  | b, st, _, 0 => .ok (b, st)
  | b, st, ref, n + 1 =>
    match decV b st with
    | .error e => .error e
    | .ok (k, b, st) =>
      match decV b st with
      | .error e => .error e
      | .ok (v, b, st) =>
        decodePairsGo decV b
          { st with dheap := st.dheap.set ref (rawset (st.dheap.getD ref []) k v) }
          ref n

/-- decodetable (memcached.c 486-507), parameterized by the decoder for
nested values: create the table, record it in the back-reference table
before decoding its contents, then decode narr array pairs followed by nrec
record pairs. -/
def decodetableGo (decV : MBuffer → DecSt → Except String (LValue × MBuffer × DecSt))
    (b : MBuffer) (st : DecSt) (narr nrec : Nat) :
    Except String (LValue × MBuffer × DecSt) :=
  match decodePairsGo decV b
      { dheap := st.dheap ++ [[]], dbr := st.dbr ++ [st.dheap.length] }
      st.dheap.length narr with
  | .error e => .error e
  | .ok (b, st1) =>
    match decodePairsGo decV b st1 st.dheap.length nrec with
    | .error e => .error e
    | .ok (b, st2) => .ok (.table st.dheap.length, b, st2)

/-- One level of decode (memcached.c 375-484), dispatching on the tag byte,
parameterized by the decoder for nested values. -/
def decodeValGo (decV : MBuffer → DecSt → Except String (LValue × MBuffer × DecSt))
    (b : MBuffer) (st : DecSt) : Except String (LValue × MBuffer × DecSt) :=
  match readByte b with
  | .error e => .error e
  | .ok (tag, b) =>
    if tag = LUA_TBOOLEAN then .ok (.boolean false, b, st)
    else if tag = MEMCACHED_TYPE_BOOLEANTRRUE then .ok (.boolean true, b, st)
    else if tag = LUA_TNUMBER then
      match readBytes b 8 with
      | .error e => .error e
      | .ok (bs, b) => .ok (.number (leVal bs), b, st)
    else if tag = MEMCACHED_TYPE_INTEGER then
      match readBytes b 8 with
      | .error e => .error e
      | .ok (bs, b) => .ok (.integer (uint64ToInt64 (beVal bs)), b, st)
    else if tag = LUA_TSTRING then
      match readBytes b 8 with
      | .error e => .error e
      | .ok (lb, b) =>
        match readBytes b (beVal lb) with
        | .error e => .error e
        | .ok (s, b) => .ok (.str s, b, st)
    else if tag = MEMCACHED_TYPE_STRINGSHORT then
      match readByte b with
      | .error e => .error e
      | .ok (l, b) =>
        match readBytes b l with
        | .error e => .error e
        | .ok (s, b) => .ok (.str s, b, st)
    else if tag = MEMCACHED_TYPE_TABLE8 then
      match buffer_avail b (1 + 1) with
      | .error e => .error e
      | .ok _ =>
        match readByte b with
        | .error e => .error e
        | .ok (narr, b) =>
          match readByte b with
          | .error e => .error e
          | .ok (nrec, b) => decodetableGo decV b st narr nrec
    else if tag = MEMCACHED_TYPE_TABLE16 then
      match buffer_avail b (2 + 2) with
      | .error e => .error e
      | .ok _ =>
        match readBytes b 2 with
        | .error e => .error e
        | .ok (na, b) =>
          match readBytes b 2 with
          | .error e => .error e
          | .ok (nr, b) => decodetableGo decV b st (beVal na) (beVal nr)
    else if tag = MEMCACHED_TYPE_TABLE32 then
      match buffer_avail b (4 + 4) with
      | .error e => .error e
      | .ok _ =>
        match readBytes b 4 with
        | .error e => .error e
        | .ok (na, b) =>
          match readBytes b 4 with
          | .error e => .error e
          | .ok (nr, b) => decodetableGo decV b st (beVal na) (beVal nr)
    else if tag = MEMCACHED_TYPE_TABLE64 then
      match buffer_avail b (8 + 8) with
      | .error e => .error e
      | .ok _ =>
        match readBytes b 8 with
        | .error e => .error e
        | .ok (na, b) =>
          match readBytes b 8 with
          | .error e => .error e
          | .ok (nr, b) =>
            if uint64ToInt64 (beVal na) < 0 ∨ uint64ToInt64 (beVal nr) < 0 then
              .error "bad table size"
            else
              decodetableGo decV b st (uint64ToInt64 (beVal na)).toNat
                (uint64ToInt64 (beVal nr)).toNat
    else if tag = MEMCACHED_TYPE_TABLEREF then
      match readBytes b 8 with
      | .error e => .error e
      | .ok (tb, b) =>
        if 1 ≤ uint64ToInt64 (beVal tb) ∧
            uint64ToInt64 (beVal tb) ≤ (st.dbr.length : Int) then
          match st.dbr.get? ((uint64ToInt64 (beVal tb)).toNat - 1) with
          | some d => .ok (.table d, b, st)
          | none => .error "bad backref"
        else .error "bad backref"
    else .error "unsupported type"

/-- decode (memcached.c 375-484).  The fuel bounds the C stack recursion
depth, mirroring the encoder's fuel; structural recursion on the fuel keeps
the definition kernel-reducible. -/
def decodeVal : Nat → MBuffer → DecSt → Except String (LValue × MBuffer × DecSt)
  | 0, _, _ => .error "insufficient fuel"
  | fuel + 1, b, st => decodeValGo (decodeVal fuel) b st

/-- decodetable at a given recursion depth. -/
def decodetable (fuel : Nat) : MBuffer → DecSt → Nat → Nat →
    Except String (LValue × MBuffer × DecSt) :=
  decodetableGo (decodeVal fuel)

/-- decodetable's pair loop at a given recursion depth. -/
def decodePairs (fuel : Nat) : MBuffer → DecSt → Nat → Nat →
    Except String (MBuffer × DecSt) :=
  decodePairsGo (decodeVal fuel)

/-- mdecode (memcached.c 545-577): reset pos, check the codec version, decode
one value, and require the input to be fully consumed.  A raw byte-string
argument is the buffer with data = the string, len = capacity = its length. -/
def mdecodeModel (fuel : Nat) (b0 : MBuffer) : Except String (LValue × MBuffer × DecSt) :=
  match buffer_avail { b0 with pos := 0 } MEMCACHED_CODEC_VERSION.length with
  | .error e => .error e
  | .ok _ =>
    if seg b0.data 0 MEMCACHED_CODEC_VERSION.length ≠ MEMCACHED_CODEC_VERSION then
      .error "bad codec version"
    else
      match decodeVal fuel { b0 with pos := MEMCACHED_CODEC_VERSION.length }
          { dheap := [], dbr := [] } with
      | .error e => .error e
      | .ok (v, b, st) =>
        if b.pos < b.len then .error "extra data in buffer"
        else .ok (v, b, st)

/-- mencode (memcached.c 509-543): allocate a fresh buffer, write the codec
version, encode the value, and set len to the bytes produced. -/
def mencodeModel (H : Heap) (fuel : Nat) (v : LValue) : Except String MBuffer :=
  match buffer_require { data := [], pos := 0, len := 0, capacity := MEMCACHED_BUFFER_SIZE }
      MEMCACHED_CODEC_VERSION.length with
  | .error e => .error e
  | .ok b =>
    match encodeVal H fuel (writeBytes b MEMCACHED_CODEC_VERSION)
        { assoc := [], cnt := 0 } v with
    | .error e => .error e
    | .ok (b, _) => .ok { b with len := b.pos }

/-! ### The client (memcached.c 66-75, 584-599, 873-899, 994-1357)

The network is abstracted at the system-call boundary: an operation is
modelled up to the request it sends (`sendmsgnosig`), since everything the
claims speak about — argument validation, the closed-state check in
getsocket, and request construction — happens before any bytes move. -/

/-- Binary-protocol opcodes (memcached/protocol_binary.h). -/
def PROTOCOL_BINARY_CMD_GET : Nat := 0x00
def PROTOCOL_BINARY_CMD_SET : Nat := 0x01
def PROTOCOL_BINARY_CMD_ADD : Nat := 0x02
def PROTOCOL_BINARY_CMD_REPLACE : Nat := 0x03
def PROTOCOL_BINARY_CMD_DELETE : Nat := 0x04
def PROTOCOL_BINARY_CMD_INCREMENT : Nat := 0x05
def PROTOCOL_BINARY_CMD_DECREMENT : Nat := 0x06
def PROTOCOL_BINARY_CMD_FLUSH : Nat := 0x08
def PROTOCOL_BINARY_CMD_STAT : Nat := 0x10
def PROTOCOL_BINARY_RESPONSE_SUCCESS : Nat := 0x00

/-- The request a client operation sends, by opcode family, with the header
and extras fields the module fills in. -/
inductive Request where
  | getReq (key : List Nat)
  | storeReq (opcode : Nat) (key : List Nat) (value : List Nat) (expiration : Nat) (cas : Nat)
  | deleteReq (key : List Nat) (cas : Nat)
  | incrReq (opcode : Nat) (key : List Nat) (delta initial expiration : Nat)
  | flushReq (expiration : Nat)
  | statReq (key : Option (List Nat))
deriving Repr, DecidableEq

/-- The connection-lifecycle fields of memcached_t (memcached.c 66-75): the
socket (fd ≥ 0 modelled as some fd) and the closed flag. -/
structure MClient where
  closed : Bool
  fd : Option Nat
deriving Repr, DecidableEq

/-- mopen (memcached.c 873-899): a fresh client holds no socket and is not
closed (configuration registry references are not modelled). -/
def mopenModel : MClient := { closed := false, fd := none }

/-- The state token of __tostring (memcached.c 1359-1373). -/
def tostringState (m : MClient) : String :=
  if m.closed then "closed" else if m.fd = none then "disconnected" else "connected"

/-- getsocket (memcached.c 584-711): error on a closed client, keep an
existing socket, otherwise lazily connect.  DNS and TCP are external; a
successful connect is modelled (failures raise and leave the state
disconnected, which no claim depends on). -/
def getsocketModel (m : MClient) : Except String MClient :=
  if m.closed then .error "closed"
  else if m.fd.isSome then .ok m
  else .ok { m with fd := some 0 }

/-- mclose (memcached.c 1322-1357): set closed, best-effort quit, close the
socket.  The quit datagram is fire-and-forget and its errors are swallowed. -/
def mcloseModel (_m : MClient) : MClient := { closed := true, fd := none }

/-- get (memcached.c 994-1047) up to its sendmsg. -/
def getOp (m : MClient) (key : List Nat) : Except String (MClient × Request) :=
  if ¬(key.length > 0 ∧ key.length ≤ 65535) then .error "bad key length"
  else
    match getsocketModel m with
    | .error e => .error e
    | .ok m => .ok (m, .getReq key)

/-- set/add/replace (memcached.c 1049-1131) up to its sendmsg.  The three
methods are one C function closed over the opcode upvalue.  A missing third
argument is `none`; an explicit nil is `some .lnil` (luaL_checkany accepts
nil, luaL_argcheck(!lua_isnoneornil) does not).  `enc` is the configured
encoder (m->encode_index), returning the value payload bytes. -/
def setOp (opcode : Nat) (enc : LValue → Except String (List Nat)) (m : MClient)
    (key : List Nat) (value : Option LValue) (expiration cas : Option Int) :
    Except String (MClient × Request) :=
  if ¬(key.length > 0 ∧ key.length ≤ 65535) then .error "bad key length"
  else if opcode = PROTOCOL_BINARY_CMD_SET ∧ value = none then .error "value expected"
  else if ¬(opcode = PROTOCOL_BINARY_CMD_SET) ∧ (value = none ∨ value = some .lnil) then
    .error "value required"
  else if ¬(expiration.getD 0 ≥ 0 ∧ expiration.getD 0 ≤ 4294967295) then
    .error "bad expiration"
  else
    match value with
    | none => .error "value expected"
    | some v =>
      if v ≠ .lnil then
        match enc v with
        | .error e => .error e
        | .ok bytes =>
          if bytes.length > 4294967295 - (8 + key.length) then
            .error "encoded value too long"
          else
            match getsocketModel m with
            | .error e => .error e
            | .ok m =>
              .ok (m, .storeReq opcode key bytes (expiration.getD 0).toNat
                (int64ToUInt64 (cas.getD 0)))
      else
        match getsocketModel m with
        | .error e => .error e
        | .ok m => .ok (m, .deleteReq key (int64ToUInt64 (cas.getD 0)))

/-- incr (memcached.c 1151-1211, shared by inc and dec) up to its sendmsg. -/
def incrOp (opcode : Nat) (m : MClient) (key : List Nat)
    (delta initial expiration : Option Int) : Except String (MClient × Request) :=
  if ¬(key.length > 0 ∧ key.length ≤ 65535) then .error "bad key length"
  else if ¬(delta.getD 1 ≥ 0 ∧ delta.getD 1 ≤ (LUA_MAXINTEGER : Int)) then
    .error "bad delta"
  else if ¬(initial.getD 1 ≥ 0 ∧ initial.getD 1 ≤ (LUA_MAXINTEGER : Int)) then
    .error "bad initial value"
  else if ¬(expiration.getD 0 ≥ 0 ∧ expiration.getD 0 ≤ 4294967295) then
    .error "bad expiration"
  else
    match getsocketModel m with
    | .error e => .error e
    | .ok m =>
      .ok (m, .incrReq opcode key (delta.getD 1).toNat (initial.getD 1).toNat
        (expiration.getD 0).toNat)

/-- flush (memcached.c 1213-1245) up to its send. -/
def flushOp (m : MClient) (expiration : Option Int) : Except String (MClient × Request) :=
  if ¬(expiration.getD 0 ≥ 0 ∧ expiration.getD 0 ≤ 4294967295) then .error "bad expiration"
  else
    match getsocketModel m with
    | .error e => .error e
    | .ok m => .ok (m, .flushReq (expiration.getD 0).toNat)

/-- stats (memcached.c 1247-1302) up to its sendmsg. -/
def statsOp (m : MClient) (key : Option (List Nat)) : Except String (MClient × Request) :=
  if ¬(∀ k ∈ key, k.length > 0 ∧ k.length ≤ 65535) then .error "bad key length"
  else
    match getsocketModel m with
    | .error e => .error e
    | .ok m => .ok (m, .statReq key)

/-! ### The stats response loop (memcached.c 1247-1302 with recvresponse
901-992)

A response frame carries a status, extras, key, and value segment (the value
segment is bodylen − extlen − keylen bytes, possibly empty).  With the
MEMCACHED_KEY | MEMCACHED_VALUE flags stats passes, recvresponse pops the
extras, pushes the key only when its length is nonzero, and always pushes a
value (the received bytes, or the empty string when the body holds none), so
it returns 2 results for a frame with a key and 1 for a frame without. -/

structure Frame where
  status : Nat
  extras : List Nat
  key : List Nat
  value : List Nat
deriving Repr, DecidableEq

/-- The number of results recvresponse returns to stats for a frame
(flags = MEMCACHED_KEY | MEMCACHED_VALUE). -/
def recvKVCount (fr : Frame) : Nat :=
  (if fr.key.length > 0 then 1 else 0) + 1

/-- lua_rawset into the stats result table: string keys, overwrite on
repetition. -/
def tblset (acc : List (List Nat × List Nat)) (k v : List Nat) :
    List (List Nat × List Nat) :=
  if acc.any (fun kv => kv.1 = k) then
    acc.map (fun kv => if kv.1 = k then (k, v) else kv)
  else acc ++ [(k, v)]

/-- The while(1) receive loop of stats (memcached.c 1279-1301) over the
stream of response frames the server sends.  An exhausted stream stands for
a dead peer, where recv fails (checkresult: "socket closed"). -/
def statsLoop : List Frame → List (List Nat × List Nat) →
    Except String (List (List Nat × List Nat))
  | [], _ => .error "socket closed"
  | fr :: rest, acc =>
    if fr.status = PROTOCOL_BINARY_RESPONSE_SUCCESS then
      match recvKVCount fr with
      | 1 => .ok acc
      | 2 => statsLoop rest (tblset acc fr.key fr.value)
      | _ => .error "protocol error"
    else .error "memcached error"

/-! ### The codec round-trip correspondence

Relations tying the encoder's walk of the source heap to the decoder's
reconstruction: `filtSup` is the entry list the encoder actually emits
(entries with an unsupported key or value are skipped), `RelVal` relates a
source value to its decoded image through the two back-reference tables,
and `Inv` is the simulation invariant between the encode-side and
decode-side states, relative to the stack of tables whose pair loops are
still in progress. -/

/-- The supported entries of a table, in order: encode skips an entry when
its key or value is unsupported (memcached.c 315-318), so these are the
entries that reach the wire. -/
def filtSup (t : TableData) : TableData :=
  t.filter (fun kv => supported kv.1 && supported kv.2)

/-- Scalar well-formedness: the numeric payloads fit the 64-bit wire slots,
as lua_Integer and the binary64 bit pattern do in C. -/
def WFVal : LValue → Prop
  | .integer i => -(2 ^ 63) ≤ i ∧ i < 2 ^ 63
  | .number bits => bits < 2 ^ 64
  | _ => True

/-- Heap well-formedness: in every table, the supported entries carry
well-formed keys and values, and their keys are pairwise distinct (a Lua
table never repeats a key). -/
def WFHeap (H : Heap) : Prop :=
  ∀ td ∈ H, (∀ kv ∈ filtSup td, WFVal kv.1 ∧ WFVal kv.2) ∧
    ((filtSup td).map Prod.fst).Nodup

/-- A source value and its decoded image: scalars decode to themselves; a
source table decodes to the decode-side table created when the encoder
emitted it — wire ordinal t, entry t − 1 of the decoder's back-reference
list. -/
def RelVal (br : Backrefs) (dbr : List Nat) : LValue → LValue → Prop
  | .boolean a, .boolean b => a = b
  | .integer a, .integer b => a = b
  | .number a, .number b => a = b
  | .str a, .str b => a = b
  | .table r, .table d => ∃ t, brLookup br r = some t ∧ dbr.get? (t - 1) = some d
  | _, _ => False

/-- Entry lists in pointwise correspondence. -/
def EntriesRel (br : Backrefs) (dbr : List Nat) (s d : TableData) : Prop :=
  List.Forall₂ (fun p q => RelVal br dbr p.1 q.1 ∧ RelVal br dbr p.2 q.2) s d

/-- The entries of source table `r` the encoder has walked so far: its
entry in the pending stack while its pair loop runs, its full heap entry
once the loop has finished. -/
def srcEntries (H : Heap) (pend : List (Nat × TableData)) (r : Nat) : TableData :=
  match (pend.find? (fun p => p.1 = r)).map Prod.snd with
  | some done => done
  | none => H.getD r []

/-- The encode-side back-reference table stays monotone: established
ordinals never change and the count never decreases. -/
def BrExt (br br2 : Backrefs) : Prop :=
  (∀ r t, brLookup br r = some t → brLookup br2 r = some t) ∧ br.cnt ≤ br2.cnt

/-- The simulation invariant between the encoder's back-reference state
`br` and the decoder's state `st`, relative to the stack `pend` of source
tables whose pair loops are in progress: the decoder has created exactly
`br.cnt` tables, in creation order (so its back-reference list is
0, 1, …, cnt−1); the encoder's ordinals are 1..cnt, at most one per source
table and injective; every pending table is registered; and the
decode-side table with ordinal t holds exactly the decoded image of the
supported entries the encoder has walked of the source table with
ordinal t. -/
def Inv (H : Heap) (br : Backrefs) (st : DecSt) (pend : List (Nat × TableData)) : Prop :=
  st.dbr = List.range st.dheap.length ∧
  st.dheap.length = br.cnt ∧
  br.cnt ≤ LUA_MAXINTEGER ∧
  (br.assoc.map Prod.fst).Nodup ∧
  (∀ r t, brLookup br r = some t → 1 ≤ t ∧ t ≤ br.cnt) ∧
  (∀ r1 r2 t, brLookup br r1 = some t → brLookup br r2 = some t → r1 = r2) ∧
  (∀ p ∈ pend, ∃ t, brLookup br p.1 = some t) ∧
  (∀ r t, brLookup br r = some t →
    ∃ D, st.dheap.get? (t - 1) = some D ∧
      EntriesRel br st.dbr (filtSup (srcEntries H pend r)) D)

/-- A pair of values, one over each heap, in structural correspondence
through a table map `m`. -/
def MVal (m : List (Nat × Nat)) : LValue → LValue → Prop
  | .boolean a, .boolean b => a = b
  | .integer a, .integer b => a = b
  | .number a, .number b => a = b
  | .str a, .str b => a = b
  | .table r, .table d => (r, d) ∈ m
  | _, _ => False

/-- Entry lists in pointwise structural correspondence through `m`. -/
def MEntries (m : List (Nat × Nat)) (s d : TableData) : Prop :=
  List.Forall₂ (fun p q => MVal m p.1 q.1 ∧ MVal m p.2 q.2) s d

/-- Structural equality with the same sharing between value `v` over heap
`H` and value `w` over heap `G`: a correspondence between tables that is
functional (two paths reaching one source table reach one decoded table)
and injective, matches the two values, and matches the entry lists of
corresponding tables pointwise. -/
def HeapEquiv (H : Heap) (v : LValue) (G : Heap) (w : LValue) : Prop :=
  ∃ m : List (Nat × Nat),
    (∀ p ∈ m, ∀ q ∈ m, (p.1 = q.1 ↔ p.2 = q.2)) ∧
    MVal m v w ∧
    (∀ p ∈ m, MEntries m (H.getD p.1 []) (G.getD p.2 []))

/-- Like HeapEquiv, except that a source table contributes only its
supported entries: the decoded table holds their images, in order, and
nothing else. -/
def FiltEquiv (H : Heap) (v : LValue) (G : Heap) (w : LValue) : Prop :=
  ∃ m : List (Nat × Nat),
    (∀ p ∈ m, ∀ q ∈ m, (p.1 = q.1 ↔ p.2 = q.2)) ∧
    MVal m v w ∧
    (∀ p ∈ m, MEntries m (filtSup (H.getD p.1 [])) (G.getD p.2 []))

/-! ### Basic byte-level lemmas -/

theorem beBytes_length (w n : Nat) : (beBytes w n).length = w := by
  induction w generalizing n with
  | zero => rfl
  | succ w ih => simp [beBytes, ih]

theorem leBytes_length (w n : Nat) : (leBytes w n).length = w := by
  induction w generalizing n with
  | zero => rfl
  | succ w ih => simp [leBytes, ih]

theorem beVal_beBytes (w n : Nat) : beVal (beBytes w n) = n % 256 ^ w := by
  induction w generalizing n with
  | zero => simp [beBytes, beVal, Nat.mod_one]
  | succ w ih =>
    have key : n % 256 ^ (w + 1) = (n / 256 ^ w) % 256 * 256 ^ w + n % 256 ^ w := by
      rw [show (256 : Nat) ^ (w + 1) = 256 ^ w * 256 from by ring, Nat.mod_mul]
      ring
    simp [beBytes, beVal, beBytes_length, ih, key]

theorem leVal_leBytes (w n : Nat) : leVal (leBytes w n) = n % 256 ^ w := by
  induction w generalizing n with
  | zero => simp [leBytes, leVal, Nat.mod_one]
  | succ w ih =>
    have key : n % 256 ^ (w + 1) = n % 256 + 256 * (n / 256 % 256 ^ w) := by
      rw [show (256 : Nat) ^ (w + 1) = 256 * 256 ^ w from by ring, Nat.mod_mul]
    simp [leBytes, leVal, ih, key]

theorem int64_roundtrip (i : Int) (h1 : -(2 ^ 63) ≤ i) (h2 : i < 2 ^ 63) :
    uint64ToInt64 (int64ToUInt64 i) = i := by
  unfold uint64ToInt64 int64ToUInt64
  split <;> omega

theorem int64ToUInt64_lt (i : Int) : int64ToUInt64 i < 2 ^ 64 := by
  unfold int64ToUInt64
  omega

/-! ### writeAt / seg lemmas -/

theorem writeAt_at_length (d bs : List Nat) : writeAt d d.length bs = d ++ bs := by
  unfold writeAt
  rw [List.take_length, List.drop_eq_nil_of_le (by omega)]
  simp

theorem writeAt_length (d bs : List Nat) (i : Nat) (h : i ≤ d.length) :
    (writeAt d i bs).length = max d.length (i + bs.length) := by
  unfold writeAt
  simp [List.length_take, List.length_drop]
  omega

theorem writeBytes_of_append (b : MBuffer) (bs : List Nat) (h : b.pos = b.data.length) :
    writeBytes b bs =
      { b with data := b.data ++ bs, pos := b.pos + bs.length } := by
  unfold writeBytes
  rw [h, writeAt_at_length]

theorem seg_concat (P W S : List Nat) (i n : Nat) (h : i + n ≤ W.length) :
    seg (P ++ W ++ S) (P.length + i) n = seg W i n := by
  unfold seg
  rw [List.append_assoc, List.drop_append_eq_append_drop]
  have h1 : List.drop (P.length + i) P = [] := List.drop_eq_nil_of_le (by omega)
  have h2 : P.length + i - P.length = i := by omega
  rw [h1, h2, List.nil_append, List.drop_append_eq_append_drop,
    List.take_append_of_le_length (by simp [List.length_drop]; omega)]

theorem getD_concat (P W S : List Nat) (i : Nat) (h : i < W.length) :
    (P ++ W ++ S).getD (P.length + i) 0 = W.getD i 0 := by
  have h1 : (P ++ W ++ S)[P.length + i]? = W[i]? := by
    rw [List.append_assoc, List.getElem?_append_right (by omega)]
    have : P.length + i - P.length = i := by omega
    rw [this, List.getElem?_append_left h]
  simp only [List.getD, List.get?_eq_getElem?, h1]

theorem seg_prefix_eq (d : List Nat) (n : Nat) (h : n ≤ d.length) :
    seg d 0 n = d.take n := by
  unfold seg
  simp

/-! ### buffer_require / buffer_avail lemmas -/

theorem growLoop_ge (req : Nat) :
    ∀ fuel cap, 0 < cap → req ≤ cap + fuel → req ≤ growLoop req fuel cap := by
  intro fuel
  induction fuel with
  | zero =>
    intro cap hpos hle
    rw [growLoop]
    split
    · omega
    · omega
  | succ f ih =>
    intro cap hpos hle
    rw [growLoop]
    split
    · rename_i hlt
      apply ih
      · unfold growStep
        split <;> split <;> omega
      · unfold growStep
        split <;> split <;> omega
    · omega

theorem buffer_require_ok (b b' : MBuffer) (cnt : Nat)
    (h : buffer_require b cnt = .ok b') :
    b'.data = b.data ∧ b'.pos = b.pos ∧ b'.len = b.len ∧
      b.pos + cnt ≤ MEMCACHED_BUFFER_MAX ∧ b.pos + cnt ≤ b'.capacity := by
  unfold buffer_require at h
  split at h
  · exact absurd h (by simp)
  · rename_i hno
    split at h
    · cases h
      refine ⟨rfl, rfl, rfl, by omega, by omega⟩
    · cases h
      refine ⟨rfl, rfl, rfl, by omega, ?_⟩
      apply growLoop_ge
      · split
        · norm_num [MEMCACHED_BUFFER_SIZE]
        · omega
      · exact Nat.le_add_left _ _

theorem buffer_require_error (b : MBuffer) (cnt : Nat)
    (h : b.pos + cnt > MEMCACHED_BUFFER_MAX) :
    buffer_require b cnt = .error "buffer overflow" := by
  unfold buffer_require
  rw [if_pos (Or.inr h)]

theorem buffer_require_of_le (b : MBuffer) (cnt : Nat)
    (h : b.pos + cnt ≤ MEMCACHED_BUFFER_MAX) :
    ∃ b', buffer_require b cnt = .ok b' := by
  unfold buffer_require
  rw [if_neg]
  · split
    · exact ⟨b, rfl⟩
    · exact ⟨_, rfl⟩
  · simp only [not_or, not_lt]
    constructor
    · simp only [SIZE_MAX, MEMCACHED_BUFFER_MAX] at *
      omega
    · omega

theorem buffer_avail_ok (b : MBuffer) (cnt : Nat) (hlen : b.len ≤ SIZE_MAX) :
    buffer_avail b cnt = .ok () ↔ b.pos + cnt ≤ b.len := by
  unfold buffer_avail
  split
  · rename_i hc
    constructor
    · intro hcontra
      exact absurd hcontra (by simp)
    · intro hle
      omega
  · rename_i hc
    simp only [not_or, not_lt] at hc
    constructor
    · intro _
      omega
    · intro _
      rfl

theorem buffer_avail_of_le (b : MBuffer) (cnt : Nat) (h : b.pos + cnt ≤ b.len)
    (hlen : b.len ≤ SIZE_MAX) : buffer_avail b cnt = .ok () := by
  unfold buffer_avail
  rw [if_neg]
  simp only [not_or, not_lt]
  omega

theorem buffer_avail_error (b : MBuffer) (cnt : Nat) (h : b.pos + cnt > b.len) :
    buffer_avail b cnt = .error "buffer underflow" := by
  unfold buffer_avail
  split
  · rfl
  · rename_i hc
    simp only [not_or, not_lt] at hc
    omega

/-! ### Reads only advance pos: decode buffer preservation -/

theorem readByte_ok (b : MBuffer) (x : Nat) (b' : MBuffer)
    (h : readByte b = .ok (x, b')) :
    b' = { b with pos := b.pos + 1 } ∧ x = b.data.getD b.pos 0 ∧ b.pos + 1 ≤ b.len := by
  unfold readByte at h
  split at h
  · exact absurd h (by simp)
  · rename_i heq
    simp only [Except.ok.injEq, Prod.mk.injEq] at h
    refine ⟨h.2.symm, h.1.symm, ?_⟩
    unfold buffer_avail at heq
    split at heq
    · exact absurd heq (by simp)
    · rename_i hc
      simp only [not_or, not_lt] at hc
      omega

theorem readBytes_ok (b : MBuffer) (n : Nat) (x : List Nat) (b' : MBuffer)
    (h : readBytes b n = .ok (x, b')) :
    b' = { b with pos := b.pos + n } ∧ x = seg b.data b.pos n ∧ b.pos + n ≤ b.len := by
  unfold readBytes at h
  split at h
  · exact absurd h (by simp)
  · rename_i heq
    simp only [Except.ok.injEq, Prod.mk.injEq] at h
    refine ⟨h.2.symm, h.1.symm, ?_⟩
    unfold buffer_avail at heq
    split at heq
    · exact absurd heq (by simp)
    · rename_i hc
      simp only [not_or, not_lt] at hc
      omega

/-- The buffer relation decoding maintains: only pos moves, and forward, and
a position within len stays within len (reads are avail-guarded). -/
def DecBuf (b b' : MBuffer) : Prop :=
  b'.data = b.data ∧ b'.len = b.len ∧ b'.capacity = b.capacity ∧ b.pos ≤ b'.pos ∧
    (b.pos ≤ b.len → b'.pos ≤ b'.len)

theorem DecBuf.refl (b : MBuffer) : DecBuf b b :=
  ⟨Eq.refl _, Eq.refl _, Eq.refl _, Nat.le_refl _, fun h => h⟩

theorem DecBuf.trans {a b c : MBuffer} (h1 : DecBuf a b) (h2 : DecBuf b c) : DecBuf a c := by
  obtain ⟨x1, x2, x3, x4, x5⟩ := h1
  obtain ⟨y1, y2, y3, y4, y5⟩ := h2
  exact ⟨y1.trans x1, y2.trans x2, y3.trans x3, x4.trans y4, fun h => y5 (x5 h)⟩

theorem DecBuf.read (b : MBuffer) (n : Nat) (h : b.pos + n ≤ b.len) :
    DecBuf b { b with pos := b.pos + n } :=
  ⟨Eq.refl _, Eq.refl _, Eq.refl _, Nat.le_add_right _ _, fun _ => h⟩

/-- Preservation statement for decodeVal at a given fuel. -/
def DecodeValPres (fuel : Nat) : Prop :=
  ∀ b st v b' st', decodeVal fuel b st = .ok (v, b', st') → DecBuf b b'

/-- Preservation statement for decodePairs at a given fuel. -/
def DecodePairsPres (fuel : Nat) : Prop :=
  ∀ n b st ref b' st', decodePairs fuel b st ref n = .ok (b', st') → DecBuf b b'

/-- Preservation statement for decodetable at a given fuel. -/
def DecodeTablePres (fuel : Nat) : Prop :=
  ∀ b st narr nrec v b' st', decodetable fuel b st narr nrec = .ok (v, b', st') → DecBuf b b'

theorem decodePairs_pres (fuel : Nat) (ihVal : DecodeValPres fuel) :
    DecodePairsPres fuel := by
  intro n
  induction n with
  | zero =>
    intro b st ref b' st' h
    unfold decodePairs decodePairsGo at h
    simp only [Except.ok.injEq, Prod.mk.injEq] at h
    rw [← h.1]
    exact DecBuf.refl b
  | succ n ih =>
    intro b st ref b' st' h
    unfold decodePairs decodePairsGo at h
    split at h
    · exact absurd h (by simp)
    · rename_i k b1 st1 heq1
      split at h
      · exact absurd h (by simp)
      · rename_i v1 b2 st2 heq2
        exact ((ihVal _ _ _ _ _ heq1).trans (ihVal _ _ _ _ _ heq2)).trans (ih _ _ _ _ _ h)

theorem decodetable_pres (fuel : Nat) (ihVal : DecodeValPres fuel) :
    DecodeTablePres fuel := by
  intro b st narr nrec v b' st' h
  have ihPairs := decodePairs_pres fuel ihVal
  unfold decodetable decodetableGo at h
  split at h
  · exact absurd h (by simp)
  · rename_i b1 st1 heq1
    split at h
    · exact absurd h (by simp)
    · rename_i b2 st2 heq2
      simp only [Except.ok.injEq, Prod.mk.injEq] at h
      rw [← h.2.1]
      exact (ihPairs _ _ _ _ _ _ heq1).trans (ihPairs _ _ _ _ _ _ heq2)

theorem decodeVal_pres : ∀ fuel, DecodeValPres fuel := by
  intro fuel
  induction fuel with
  | zero =>
    intro b st v b' st' h
    exact absurd h (by simp [decodeVal])
  | succ f ihVal =>
    have ihTable := decodetable_pres f ihVal
    intro b st v b' st' h
    unfold decodeVal decodeValGo at h
    split at h
    · exact absurd h (by simp)
    · rename_i tag b1 heq1
      obtain ⟨hb1, -, hav1⟩ := readByte_ok _ _ _ heq1
      subst hb1
      have base : DecBuf b { b with pos := b.pos + 1 } := DecBuf.read b 1 hav1
      by_cases h1 : tag = LUA_TBOOLEAN
      · rw [if_pos h1] at h
        simp only [Except.ok.injEq, Prod.mk.injEq] at h
        rw [← h.2.1]; exact base
      rw [if_neg h1] at h
      by_cases h2 : tag = MEMCACHED_TYPE_BOOLEANTRRUE
      · rw [if_pos h2] at h
        simp only [Except.ok.injEq, Prod.mk.injEq] at h
        rw [← h.2.1]; exact base
      rw [if_neg h2] at h
      by_cases h3 : tag = LUA_TNUMBER
      · rw [if_pos h3] at h
        split at h
        · exact absurd h (by simp)
        · rename_i bs b2 heq2
          obtain ⟨hb2, -, hav2⟩ := readBytes_ok _ _ _ _ heq2
          simp only [Except.ok.injEq, Prod.mk.injEq] at h
          rw [← h.2.1, hb2]
          exact base.trans (DecBuf.read _ 8 hav2)
      rw [if_neg h3] at h
      by_cases h4 : tag = MEMCACHED_TYPE_INTEGER
      · rw [if_pos h4] at h
        split at h
        · exact absurd h (by simp)
        · rename_i bs b2 heq2
          obtain ⟨hb2, -, hav2⟩ := readBytes_ok _ _ _ _ heq2
          simp only [Except.ok.injEq, Prod.mk.injEq] at h
          rw [← h.2.1, hb2]
          exact base.trans (DecBuf.read _ 8 hav2)
      rw [if_neg h4] at h
      by_cases h5 : tag = LUA_TSTRING
      · rw [if_pos h5] at h
        split at h
        · exact absurd h (by simp)
        · rename_i lb b2 heq2
          obtain ⟨hb2, -, hav2⟩ := readBytes_ok _ _ _ _ heq2
          split at h
          · exact absurd h (by simp)
          · rename_i s b3 heq3
            obtain ⟨hb3, -, hav3⟩ := readBytes_ok _ _ _ _ heq3
            simp only [Except.ok.injEq, Prod.mk.injEq] at h
            rw [← h.2.1, hb3, hb2]
            rw [hb2] at hav3
            exact (base.trans (DecBuf.read _ 8 hav2)).trans (DecBuf.read _ _ hav3)
      rw [if_neg h5] at h
      by_cases h6 : tag = MEMCACHED_TYPE_STRINGSHORT
      · rw [if_pos h6] at h
        split at h
        · exact absurd h (by simp)
        · rename_i l b2 heq2
          obtain ⟨hb2, -, hav2⟩ := readByte_ok _ _ _ heq2
          split at h
          · exact absurd h (by simp)
          · rename_i s b3 heq3
            obtain ⟨hb3, -, hav3⟩ := readBytes_ok _ _ _ _ heq3
            simp only [Except.ok.injEq, Prod.mk.injEq] at h
            rw [← h.2.1, hb3, hb2]
            rw [hb2] at hav3
            exact (base.trans (DecBuf.read _ 1 hav2)).trans (DecBuf.read _ _ hav3)
      rw [if_neg h6] at h
      by_cases h7 : tag = MEMCACHED_TYPE_TABLE8
      · rw [if_pos h7] at h
        split at h
        · exact absurd h (by simp)
        · split at h
          · exact absurd h (by simp)
          · rename_i narr b2 heq2
            obtain ⟨hb2, -, hav2⟩ := readByte_ok _ _ _ heq2
            split at h
            · exact absurd h (by simp)
            · rename_i nrec b3 heq3
              obtain ⟨hb3, -, hav3⟩ := readByte_ok _ _ _ heq3
              have hrec := ihTable _ _ _ _ _ _ _ h
              subst hb3; subst hb2
              exact ((base.trans (DecBuf.read _ 1 hav2)).trans (DecBuf.read _ 1 hav3)).trans hrec
      rw [if_neg h7] at h
      by_cases h8 : tag = MEMCACHED_TYPE_TABLE16
      · rw [if_pos h8] at h
        split at h
        · exact absurd h (by simp)
        · split at h
          · exact absurd h (by simp)
          · rename_i na b2 heq2
            obtain ⟨hb2, -, hav2⟩ := readBytes_ok _ _ _ _ heq2
            split at h
            · exact absurd h (by simp)
            · rename_i nr b3 heq3
              obtain ⟨hb3, -, hav3⟩ := readBytes_ok _ _ _ _ heq3
              have hrec := ihTable _ _ _ _ _ _ _ h
              subst hb3; subst hb2
              exact ((base.trans (DecBuf.read _ 2 hav2)).trans (DecBuf.read _ 2 hav3)).trans hrec
      rw [if_neg h8] at h
      by_cases h9 : tag = MEMCACHED_TYPE_TABLE32
      · rw [if_pos h9] at h
        split at h
        · exact absurd h (by simp)
        · split at h
          · exact absurd h (by simp)
          · rename_i na b2 heq2
            obtain ⟨hb2, -, hav2⟩ := readBytes_ok _ _ _ _ heq2
            split at h
            · exact absurd h (by simp)
            · rename_i nr b3 heq3
              obtain ⟨hb3, -, hav3⟩ := readBytes_ok _ _ _ _ heq3
              have hrec := ihTable _ _ _ _ _ _ _ h
              subst hb3; subst hb2
              exact ((base.trans (DecBuf.read _ 4 hav2)).trans (DecBuf.read _ 4 hav3)).trans hrec
      rw [if_neg h9] at h
      by_cases h10 : tag = MEMCACHED_TYPE_TABLE64
      · rw [if_pos h10] at h
        split at h
        · exact absurd h (by simp)
        · split at h
          · exact absurd h (by simp)
          · rename_i na b2 heq2
            obtain ⟨hb2, -, hav2⟩ := readBytes_ok _ _ _ _ heq2
            split at h
            · exact absurd h (by simp)
            · rename_i nr b3 heq3
              obtain ⟨hb3, -, hav3⟩ := readBytes_ok _ _ _ _ heq3
              split at h
              · exact absurd h (by simp)
              · have hrec := ihTable _ _ _ _ _ _ _ h
                subst hb3; subst hb2
                exact ((base.trans (DecBuf.read _ 8 hav2)).trans (DecBuf.read _ 8 hav3)).trans hrec
      rw [if_neg h10] at h
      by_cases h11 : tag = MEMCACHED_TYPE_TABLEREF
      · rw [if_pos h11] at h
        split at h
        · exact absurd h (by simp)
        · rename_i tb b2 heq2
          obtain ⟨hb2, -, hav2⟩ := readBytes_ok _ _ _ _ heq2
          split at h
          · split at h
            · simp only [Except.ok.injEq, Prod.mk.injEq] at h
              rw [← h.2.1, hb2]
              exact base.trans (DecBuf.read _ 8 hav2)
            · exact absurd h (by simp)
          · exact absurd h (by simp)
      rw [if_neg h11] at h
      exact absurd h (by simp)

/-! ### The table size patch: finishTable characterization -/

theorem drop_append_len (P Q : List Nat) (i : Nat) :
    (P ++ Q).drop (P.length + i) = Q.drop i := by
  rw [List.drop_append_eq_append_drop]
  simp

theorem seg_append_len (P Q : List Nat) (n : Nat) : seg (P ++ Q) P.length n = Q.take n := by
  unfold seg
  rw [List.drop_left]

theorem writeAt_append_mid (P Q bs : List Nat) :
    writeAt (P ++ Q) P.length bs = P ++ bs ++ Q.drop bs.length := by
  unfold writeAt
  rw [List.take_left, drop_append_len]

theorem patch_data (D0 W na nb : List Nat) (t w : Nat)
    (hna : na.length = w) (hnb : nb.length = w) (h2 : 2 ≤ w) (hW : 2 * w - 2 ≤ W.length) :
    writeAt (writeAt (writeAt (D0 ++ t :: 0 :: 0 :: W) (D0.length + 1 + 2 * w)
        (seg (D0 ++ t :: 0 :: 0 :: W) (D0.length + 3) W.length))
      (D0.length + 1) na) (D0.length + 1 + w) nb = D0 ++ t :: (na ++ nb ++ W) := by
  have hWt : (W.take (2 * w - 2)).length = 2 * w - 2 := by
    simp only [List.length_take]
    omega
  have hgen : ∀ L : List Nat, (0 :: 0 :: L).drop w = L.drop (w - 2) := by
    intro L
    have hx : (0 :: 0 :: L).drop w = (0 :: 0 :: L).drop (2 + (w - 2)) := by
      congr 1
      omega
    rw [hx, ← List.drop_drop]
    rfl
  have e2 : seg (D0 ++ t :: 0 :: 0 :: W) (D0.length + 3) W.length = W := by
    have hsh : D0 ++ t :: 0 :: 0 :: W = (D0 ++ [t, 0, 0]) ++ W := by simp
    have hl : (D0 ++ [t, 0, 0]).length = D0.length + 3 := by simp
    rw [hsh, ← hl, seg_append_len, List.take_length]
  rw [e2]
  have e1 : D0 ++ t :: 0 :: 0 :: W
      = (D0 ++ t :: 0 :: 0 :: W.take (2 * w - 2)) ++ W.drop (2 * w - 2) := by
    conv_lhs => rw [← List.take_append_drop (2 * w - 2) W]
    simp
  have e3 : writeAt (D0 ++ t :: 0 :: 0 :: W) (D0.length + 1 + 2 * w) W
      = D0 ++ t :: 0 :: 0 :: (W.take (2 * w - 2) ++ W) := by
    rw [e1]
    have hl : (D0 ++ t :: 0 :: 0 :: W.take (2 * w - 2)).length = D0.length + 1 + 2 * w := by
      simp only [List.length_append, List.length_cons, hWt]
      omega
    rw [← hl, writeAt_append_mid,
      List.drop_eq_nil_of_le (by simp only [List.length_drop]; omega), List.append_nil]
    simp
  rw [e3]
  have hsplit2 : (W.take (2 * w - 2) ++ W).drop (w - 2)
      = (W.take (2 * w - 2)).drop (w - 2) ++ W := by
    rw [List.drop_append_eq_append_drop,
      show w - 2 - (W.take (2 * w - 2)).length = 0 from by rw [hWt]; omega, List.drop_zero]
  have e4 : writeAt (D0 ++ t :: 0 :: 0 :: (W.take (2 * w - 2) ++ W)) (D0.length + 1) na
      = D0 ++ t :: (na ++ ((W.take (2 * w - 2)).drop (w - 2) ++ W)) := by
    have hsh : D0 ++ t :: 0 :: 0 :: (W.take (2 * w - 2) ++ W)
        = (D0 ++ [t]) ++ (0 :: 0 :: (W.take (2 * w - 2) ++ W)) := by simp
    have hl : (D0 ++ [t]).length = D0.length + 1 := by simp
    rw [hsh, ← hl, writeAt_append_mid, hna, hgen, hsplit2]
    simp
  rw [e4]
  have hlen2 : ((W.take (2 * w - 2)).drop (w - 2)).length = w := by
    simp only [List.length_drop, hWt]
    omega
  have e5 : writeAt (D0 ++ t :: (na ++ ((W.take (2 * w - 2)).drop (w - 2) ++ W)))
      (D0.length + 1 + w) nb = D0 ++ t :: (na ++ nb ++ W) := by
    have hsh : D0 ++ t :: (na ++ ((W.take (2 * w - 2)).drop (w - 2) ++ W))
        = (D0 ++ t :: na) ++ ((W.take (2 * w - 2)).drop (w - 2) ++ W) := by simp
    have hl : (D0 ++ t :: na).length = D0.length + 1 + w := by
      simp only [List.length_append, List.length_cons, hna]
      omega
    have hdropX : ((W.take (2 * w - 2)).drop (w - 2) ++ W).drop w = W := by
      rw [List.drop_append_eq_append_drop, List.drop_eq_nil_of_le (le_of_eq hlen2),
        show w - ((W.take (2 * w - 2)).drop (w - 2)).length = 0 from by rw [hlen2]; omega,
        List.drop_zero, List.nil_append]
    rw [hsh, ← hl, writeAt_append_mid, hnb, hdropX]
    simp
  exact e5

theorem finishTable_spec (D0 W : List Nat) (blen bcap narr nrec : Nat) (b' : MBuffer)
    (hW : ¬(narr ≤ 255 ∧ nrec ≤ 255) → 14 ≤ W.length)
    (h : finishTable
        { data := D0 ++ MEMCACHED_TYPE_TABLE8 :: 0 :: 0 :: W,
          pos := D0.length + 3 + W.length, len := blen, capacity := bcap }
        (D0.length + 1) narr nrec = .ok b') :
    b'.data = D0 ++ tagFor narr nrec :: (sizeBytes narr nrec ++ W) ∧
    b'.pos = D0.length + 1 + (sizeBytes narr nrec).length + W.length ∧
    b'.len = blen ∧
    (D0.length + 3 + W.length ≤ bcap → b'.pos ≤ b'.capacity) ∧
    (D0.length + 3 + W.length ≤ MEMCACHED_BUFFER_MAX →
      b'.pos ≤ MEMCACHED_BUFFER_MAX) := by
  unfold finishTable at h
  by_cases c8 : narr ≤ 255 ∧ nrec ≤ 255
  · rw [if_pos c8] at h
    simp only [Except.ok.injEq] at h
    subst h
    unfold tagFor sizeBytes
    rw [if_pos c8, if_pos c8]
    refine ⟨?_, by simp <;> omega, rfl, by intro hc; dsimp only; omega,
      by intro hc; dsimp only; omega⟩
    dsimp only
    have step1 : writeAt (D0 ++ MEMCACHED_TYPE_TABLE8 :: 0 :: 0 :: W) (D0.length + 1) [narr]
        = (D0 ++ [MEMCACHED_TYPE_TABLE8, narr]) ++ 0 :: W := by
      have hsh : D0 ++ MEMCACHED_TYPE_TABLE8 :: 0 :: 0 :: W
          = (D0 ++ [MEMCACHED_TYPE_TABLE8]) ++ (0 :: 0 :: W) := by simp
      have hl : (D0 ++ [MEMCACHED_TYPE_TABLE8]).length = D0.length + 1 := by simp
      rw [hsh, ← hl, writeAt_append_mid]
      simp
    have step2 : writeAt ((D0 ++ [MEMCACHED_TYPE_TABLE8, narr]) ++ 0 :: W)
        (D0.length + 1 + 1) [nrec]
        = D0 ++ MEMCACHED_TYPE_TABLE8 :: ([narr, nrec] ++ W) := by
      have hl2 : (D0 ++ [MEMCACHED_TYPE_TABLE8, narr]).length = D0.length + 1 + 1 := by
        simp
      rw [← hl2, writeAt_append_mid]
      simp
    rw [step1, step2]
  · rw [if_neg c8] at h
    have hW14 := hW c8
    by_cases c16 : narr ≤ 65535 ∧ nrec ≤ 65535
    · rw [if_pos c16] at h
      split at h
      · exact absurd h (by simp)
      · rename_i b1 hreq
        obtain ⟨hdata, hpos, hlen, hmax, hcap⟩ := buffer_require_ok _ _ _ hreq
        have e0 : writeAt (D0 ++ MEMCACHED_TYPE_TABLE8 :: 0 :: 0 :: W)
            (D0.length + 1 - 1) [MEMCACHED_TYPE_TABLE16]
            = D0 ++ MEMCACHED_TYPE_TABLE16 :: 0 :: 0 :: W := by
          rw [show D0.length + 1 - 1 = D0.length from by omega, writeAt_append_mid]
          simp
        rw [e0] at hdata
        simp only [Except.ok.injEq] at h
        subst h
        unfold tagFor sizeBytes
        rw [if_neg c8, if_pos c16, if_neg c8, if_pos c16]
        refine ⟨?_, ?_, hlen, ?_, ?_⟩
        · dsimp only
          rw [hdata, hpos,
            show D0.length + 3 + W.length - (D0.length + 1) - 2 = W.length from by omega,
            show D0.length + 1 + 4 = D0.length + 1 + 2 * 2 from by norm_num,
            show D0.length + 1 + 2 = D0.length + 3 from by norm_num]
          rw [patch_data D0 W (beBytes 2 narr) (beBytes 2 nrec) MEMCACHED_TYPE_TABLE16 2
            (beBytes_length _ _) (beBytes_length _ _) (by norm_num) (by omega)]
        · dsimp only
          rw [hpos]
          simp only [List.length_append, beBytes_length]
          omega
        · intro hc
          dsimp only
          dsimp only at hcap hpos
          omega
        · intro hc
          dsimp only
          dsimp only at hmax hpos
          omega
    · rw [if_neg c16] at h
      by_cases c32 : narr ≤ 4294967295 ∧ nrec ≤ 4294967295
      · rw [if_pos c32] at h
        split at h
        · exact absurd h (by simp)
        · rename_i b1 hreq
          obtain ⟨hdata, hpos, hlen, hmax, hcap⟩ := buffer_require_ok _ _ _ hreq
          have e0 : writeAt (D0 ++ MEMCACHED_TYPE_TABLE8 :: 0 :: 0 :: W)
              (D0.length + 1 - 1) [MEMCACHED_TYPE_TABLE32]
              = D0 ++ MEMCACHED_TYPE_TABLE32 :: 0 :: 0 :: W := by
            rw [show D0.length + 1 - 1 = D0.length from by omega, writeAt_append_mid]
            simp
          rw [e0] at hdata
          simp only [Except.ok.injEq] at h
          subst h
          unfold tagFor sizeBytes
          rw [if_neg c8, if_neg c16, if_pos c32, if_neg c8, if_neg c16, if_pos c32]
          refine ⟨?_, ?_, hlen, ?_, ?_⟩
          · dsimp only
            rw [hdata, hpos,
              show D0.length + 3 + W.length - (D0.length + 1) - 2 = W.length from by omega,
              show D0.length + 1 + 8 = D0.length + 1 + 2 * 4 from by norm_num,
              show D0.length + 1 + 2 = D0.length + 3 from by norm_num]
            rw [patch_data D0 W (beBytes 4 narr) (beBytes 4 nrec) MEMCACHED_TYPE_TABLE32 4
              (beBytes_length _ _) (beBytes_length _ _) (by norm_num) (by omega)]
          · dsimp only
            rw [hpos]
            simp only [List.length_append, beBytes_length]
            omega
          · intro hc
            dsimp only
            dsimp only at hcap hpos
            omega
          · intro hc
            dsimp only
            dsimp only at hmax hpos
            omega
      · rw [if_neg c32] at h
        split at h
        · exact absurd h (by simp)
        · rename_i b1 hreq
          obtain ⟨hdata, hpos, hlen, hmax, hcap⟩ := buffer_require_ok _ _ _ hreq
          have e0 : writeAt (D0 ++ MEMCACHED_TYPE_TABLE8 :: 0 :: 0 :: W)
              (D0.length + 1 - 1) [MEMCACHED_TYPE_TABLE64]
              = D0 ++ MEMCACHED_TYPE_TABLE64 :: 0 :: 0 :: W := by
            rw [show D0.length + 1 - 1 = D0.length from by omega, writeAt_append_mid]
            simp
          rw [e0] at hdata
          simp only [Except.ok.injEq] at h
          subst h
          unfold tagFor sizeBytes
          rw [if_neg c8, if_neg c16, if_neg c32, if_neg c8, if_neg c16, if_neg c32]
          refine ⟨?_, ?_, hlen, ?_, ?_⟩
          · dsimp only
            rw [hdata, hpos,
              show D0.length + 3 + W.length - (D0.length + 1) - 2 = W.length from by omega,
              show D0.length + 1 + 16 = D0.length + 1 + 2 * 8 from by norm_num,
              show D0.length + 1 + 2 = D0.length + 3 from by norm_num]
            rw [patch_data D0 W (beBytes 8 narr) (beBytes 8 nrec) MEMCACHED_TYPE_TABLE64 8
              (beBytes_length _ _) (beBytes_length _ _) (by norm_num) (by omega)]
          · dsimp only
            rw [hpos]
            simp only [List.length_append, beBytes_length]
            omega
          · intro hc
            dsimp only
            dsimp only at hcap hpos
            omega
          · intro hc
            dsimp only
            dsimp only at hmax hpos
            omega

/-! ### The encoder appends: extension and length invariants -/

/-- Extension statement for encodeVal at a given fuel: under the invariant
that data is exactly the written bytes, encoding writes at least one byte,
only appends, and leaves len untouched. -/
def EncValExt (fuel : Nat) : Prop :=
  ∀ H b br v b' br', encodeVal H fuel b br v = .ok (b', br') →
    b.data.length = b.pos →
    b'.data.length = b'.pos ∧ b'.len = b.len ∧ b.pos + 1 ≤ b'.pos ∧
    b'.pos ≤ b'.capacity ∧ b'.pos ≤ MEMCACHED_BUFFER_MAX ∧
    ∃ W, b'.data = b.data ++ W

/-- Extension statement for encodePairs at a given fuel: each counted pair
writes at least two bytes. -/
def EncPairsExt (fuel : Nat) : Prop :=
  ∀ H b br l narr nrec b' br' narr' nrec',
    encodePairs H fuel b br l narr nrec = .ok (b', br', narr', nrec') →
    b.data.length = b.pos →
    b'.data.length = b'.pos ∧ b'.len = b.len ∧ narr ≤ narr' ∧ nrec ≤ nrec' ∧
    b.pos + 2 * ((narr' + nrec') - (narr + nrec)) ≤ b'.pos ∧
    (b.pos ≤ b.capacity → b'.pos ≤ b'.capacity) ∧
    (b.pos ≤ MEMCACHED_BUFFER_MAX → b'.pos ≤ MEMCACHED_BUFFER_MAX) ∧
    ∃ W, b'.data = b.data ++ W

theorem encodePairs_ext (fuel : Nat) (ihVal : EncValExt fuel) : EncPairsExt fuel := by
  intro H b br l
  induction l generalizing b br with
  | nil =>
    intro narr nrec b' br' narr' nrec' h hinv
    unfold encodePairs encodePairsGo at h
    simp only [Except.ok.injEq, Prod.mk.injEq] at h
    obtain ⟨hb, hbr, hnarr, hnrec⟩ := h
    subst hb; subst hnarr; subst hnrec
    exact ⟨hinv, Eq.refl _, Nat.le_refl _, Nat.le_refl _, by omega, fun hc => hc,
      fun hm => hm, [], by simp⟩
  | cons kv rest ih =>
    intro narr nrec b' br' narr' nrec' h hinv
    obtain ⟨k, v⟩ := kv
    unfold encodePairs encodePairsGo at h
    split at h
    · split at h
      · -- array entry
        split at h
        · exact absurd h (by simp)
        · split at h
          · exact absurd h (by simp)
          · rename_i bk brk heqk
            split at h
            · exact absurd h (by simp)
            · rename_i bv brv heqv
              obtain ⟨hk1, hk2, hk3, hkc, hkm, Wk, hk4⟩ := ihVal _ _ _ _ _ _ heqk hinv
              obtain ⟨hv1, hv2, hv3, hvc, hvm, Wv, hv4⟩ := ihVal _ _ _ _ _ _ heqv hk1
              obtain ⟨hr1, hr2, hr3, hr4, hr5, hrc, hrm, Wr, hr6⟩ := ih _ _ _ _ _ _ _ _ h hv1
              refine ⟨hr1, hr2.trans (hv2.trans hk2), by omega, by omega, by omega,
                fun hc => hrc hvc, fun hm => hrm hvm, Wk ++ Wv ++ Wr, ?_⟩
              rw [hr6, hv4, hk4]
              simp
      · -- record entry
        split at h
        · exact absurd h (by simp)
        · split at h
          · exact absurd h (by simp)
          · rename_i bk brk heqk
            split at h
            · exact absurd h (by simp)
            · rename_i bv brv heqv
              obtain ⟨hk1, hk2, hk3, hkc, hkm, Wk, hk4⟩ := ihVal _ _ _ _ _ _ heqk hinv
              obtain ⟨hv1, hv2, hv3, hvc, hvm, Wv, hv4⟩ := ihVal _ _ _ _ _ _ heqv hk1
              obtain ⟨hr1, hr2, hr3, hr4, hr5, hrc, hrm, Wr, hr6⟩ := ih _ _ _ _ _ _ _ _ h hv1
              refine ⟨hr1, hr2.trans (hv2.trans hk2), by omega, by omega, by omega,
                fun hc => hrc hvc, fun hm => hrm hvm, Wk ++ Wv ++ Wr, ?_⟩
              rw [hr6, hv4, hk4]
              simp
    · -- unsupported entry: skipped
      exact ih _ _ _ _ _ _ _ _ h hinv

theorem encodeVal_ext : ∀ fuel, EncValExt fuel := by
  intro fuel
  induction fuel with
  | zero =>
    intro H b br v b' br' h hinv
    exact absurd h (by simp [encodeVal])
  | succ f ihVal =>
    have ihPairs := encodePairs_ext f ihVal
    intro H b br v b' br' h hinv
    cases v with
    | lnil => exact absurd h (by simp [encodeVal, encodeValGo])
    | other id => exact absurd h (by simp [encodeVal, encodeValGo])
    | boolean bo =>
      unfold encodeVal encodeValGo at h
      dsimp only at h
      split at h
      · exact absurd h (by simp)
      · rename_i b1 hreq
        obtain ⟨hd, hp, hl, hmax, hcap⟩ := buffer_require_ok _ _ _ hreq
        simp only [Except.ok.injEq, Prod.mk.injEq] at h
        obtain ⟨hb', -⟩ := h
        rw [← hb', writeBytes_of_append _ _ (by rw [hd, hp, ← hinv])]
        refine ⟨?_, hl, ?_, ?_, ?_, _, by rw [hd]⟩
        · simp [hd, hp, hinv]
        · simp [hp]
        · dsimp only
          simp only [List.length_cons, List.length_nil]
          omega
        · dsimp only
          simp only [List.length_cons, List.length_nil]
          omega
    | integer i =>
      unfold encodeVal encodeValGo at h
      dsimp only at h
      split at h
      · exact absurd h (by simp)
      · rename_i b1 hreq
        obtain ⟨hd, hp, hl, hmax, hcap⟩ := buffer_require_ok _ _ _ hreq
        simp only [Except.ok.injEq, Prod.mk.injEq] at h
        obtain ⟨hb', -⟩ := h
        rw [← hb', writeBytes_of_append _ _ (by rw [hd, hp, ← hinv])]
        refine ⟨?_, hl, ?_, ?_, ?_, _, by rw [hd]⟩
        · simp [hd, hp, hinv, beBytes_length]
        · simp [hp]
        · dsimp only
          simp only [List.length_cons, beBytes_length]
          omega
        · dsimp only
          simp only [List.length_cons, beBytes_length]
          omega
    | number bits =>
      unfold encodeVal encodeValGo at h
      dsimp only at h
      split at h
      · exact absurd h (by simp)
      · rename_i b1 hreq
        obtain ⟨hd, hp, hl, hmax, hcap⟩ := buffer_require_ok _ _ _ hreq
        simp only [Except.ok.injEq, Prod.mk.injEq] at h
        obtain ⟨hb', -⟩ := h
        rw [← hb', writeBytes_of_append _ _ (by rw [hd, hp, ← hinv])]
        refine ⟨?_, hl, ?_, ?_, ?_, _, by rw [hd]⟩
        · simp [hd, hp, hinv, leBytes_length]
        · simp [hp]
        · dsimp only
          simp only [List.length_cons, leBytes_length]
          omega
        · dsimp only
          simp only [List.length_cons, leBytes_length]
          omega
    | str st =>
      unfold encodeVal encodeValGo at h
      dsimp only at h
      split at h
      · exact absurd h (by simp)
      · split at h
        · -- short string
          split at h
          · exact absurd h (by simp)
          · rename_i b1 hreq
            obtain ⟨hd, hp, hl, hmax, hcap⟩ := buffer_require_ok _ _ _ hreq
            simp only [Except.ok.injEq, Prod.mk.injEq] at h
            obtain ⟨hb', -⟩ := h
            rw [← hb', writeBytes_of_append _ _ (by rw [hd, hp, ← hinv])]
            refine ⟨?_, hl, ?_, ?_, ?_, _, by rw [hd]⟩
            · simp [hd, hp, hinv]
            · simp [hp]
            · dsimp only
              simp only [List.length_cons]
              omega
            · dsimp only
              simp only [List.length_cons]
              omega
        · -- long string
          split at h
          · exact absurd h (by simp)
          · rename_i b1 hreq
            obtain ⟨hd, hp, hl, hmax, hcap⟩ := buffer_require_ok _ _ _ hreq
            simp only [Except.ok.injEq, Prod.mk.injEq] at h
            obtain ⟨hb', -⟩ := h
            rw [← hb', writeBytes_of_append _ _ (by rw [hd, hp, ← hinv])]
            refine ⟨?_, hl, ?_, ?_, ?_, _, by rw [hd]⟩
            · simp [hd, hp, hinv, beBytes_length]
            · simp [hp]
            · dsimp only
              simp only [List.length_append, List.length_cons, beBytes_length]
              omega
            · dsimp only
              simp only [List.length_append, List.length_cons, beBytes_length]
              omega
    | table r =>
      unfold encodeVal encodeValGo at h
      dsimp only at h
      split at h
      · -- back-reference hit
        rename_i t hbr
        split at h
        · exact absurd h (by simp)
        · rename_i b1 hreq
          obtain ⟨hd, hp, hl, hmax, hcap⟩ := buffer_require_ok _ _ _ hreq
          simp only [Except.ok.injEq, Prod.mk.injEq] at h
          obtain ⟨hb', -⟩ := h
          rw [← hb', writeBytes_of_append _ _ (by rw [hd, hp, ← hinv])]
          refine ⟨?_, hl, ?_, ?_, ?_, _, by rw [hd]⟩
          · simp [hd, hp, hinv, beBytes_length]
          · simp [hp]
          · dsimp only
            simp only [List.length_cons, beBytes_length]
            omega
          · dsimp only
            simp only [List.length_cons, beBytes_length]
            omega
      · -- fresh table
        split at h
        · exact absurd h (by simp)
        · split at h
          · exact absurd h (by simp)
          · rename_i b1 hreq
            obtain ⟨hd, hp, hl, hmax, hcap⟩ := buffer_require_ok _ _ _ hreq
            split at h
            · exact absurd h (by simp)
            · rename_i b2 br2 narr nrec heqp
              have hinv1 : (writeBytes b1 [MEMCACHED_TYPE_TABLE8, 0, 0]).data.length
                  = (writeBytes b1 [MEMCACHED_TYPE_TABLE8, 0, 0]).pos := by
                rw [writeBytes_of_append _ _ (by rw [hd, hp, ← hinv])]
                simp [hd, hp, hinv]
              obtain ⟨hp1, hp2, -, -, hp5, hpc, hpm, Wp, hp6⟩ :=
                ihPairs _ _ _ _ _ _ _ _ _ _ heqp hinv1
              have hcap2 := hpc (by simp [writeBytes]; omega)
              have hmax2 := hpm (by simp [writeBytes]; omega)
              rw [writeBytes_of_append _ _ (by rw [hd, hp, ← hinv])] at hp2 hp5 hp6
              split at h
              · exact absurd h (by simp)
              · rename_i b3 heqf
                simp only [Except.ok.injEq, Prod.mk.injEq] at h
                obtain ⟨hb', -⟩ := h
                obtain ⟨d2, p2, l2, c2⟩ := b2
                dsimp only at hp1 hp2 hp5 hp6 hcap2 hmax2 heqf
                have hd2 : d2 = b1.data ++ MEMCACHED_TYPE_TABLE8 :: 0 :: 0 :: Wp := by
                  rw [hp6]
                  simp
                have hpp : p2 = b1.data.length + 3 + Wp.length := by
                  rw [← hp1, hd2]
                  simp only [List.length_append, List.length_cons]
                  omega
                rw [hd2, hpp,
                  show b1.pos + 1 = b1.data.length + 1 from by rw [hd, hp, ← hinv]] at heqf
                have hW14 : ¬(narr ≤ 255 ∧ nrec ≤ 255) → 14 ≤ Wp.length := by
                  intro hc
                  have hbl : b1.data.length = b1.pos := by rw [hd, hp, ← hinv]
                  simp only [List.length_cons, List.length_nil] at hp5
                  omega
                obtain ⟨hf1, hf2, hf3, hf4, hf5⟩ := finishTable_spec _ _ _ _ _ _ _ hW14 heqf
                rw [← hb']
                have hbl : b1.data.length = b.pos := by rw [hd, hinv]
                refine ⟨?_, ?_, ?_, hf4 (by omega), hf5 (by omega), ?_⟩
                · rw [hf1, hf2]
                  simp only [List.length_append, List.length_cons]
                  omega
                · rw [hf3]
                  exact hp2.trans hl
                · rw [hf2, hbl]
                  omega
                · refine ⟨tagFor narr nrec :: (sizeBytes narr nrec ++ Wp), ?_⟩
                  rw [hf1, hd]

/-! ### Simulation helper lemmas: back-references, reads, small steps -/

theorem brLookup_cons (A : List (Nat × Nat)) (c c' r0 t0 r : Nat) :
    brLookup ⟨(r0, t0) :: A, c⟩ r
      = if r0 = r then some t0 else brLookup ⟨A, c'⟩ r := by
  unfold brLookup
  dsimp only
  by_cases h : r0 = r
  · rw [List.find?_cons_of_pos _ (by simp [h]), if_pos h]
    rfl
  · rw [List.find?_cons_of_neg _ (by simp [h]), if_neg h]

theorem brLookup_mem {br : Backrefs} {r t : Nat} (h : brLookup br r = some t) :
    (r, t) ∈ br.assoc := by
  unfold brLookup at h
  cases hf : br.assoc.find? (fun p => p.1 = r) with
  | none => rw [hf] at h; simp at h
  | some q =>
    rw [hf] at h
    simp only [Option.map_some'] at h
    have hm := List.mem_of_find?_eq_some hf
    have hp := List.find?_some hf
    obtain ⟨q1, q2⟩ := q
    simp only [decide_eq_true_eq] at hp
    simp only [Option.some.injEq] at h
    subst hp
    subst h
    exact hm

theorem brLookup_none {br : Backrefs} {r : Nat} (h : brLookup br r = none) :
    ∀ t, (r, t) ∉ br.assoc := by
  unfold brLookup at h
  intro t hmem
  cases hf : br.assoc.find? (fun p => p.1 = r) with
  | none =>
    have := List.find?_eq_none.mp hf (r, t) hmem
    simp at this
  | some q => rw [hf] at h; simp at h

theorem brLookup_of_mem : ∀ (A : List (Nat × Nat)) (c : Nat),
    (A.map Prod.fst).Nodup → ∀ r t, (r, t) ∈ A → brLookup ⟨A, c⟩ r = some t := by
  intro A
  induction A with
  | nil =>
    intro c _ r t h
    simp at h
  | cons q A ih =>
    intro c hnd r t h
    obtain ⟨q1, q2⟩ := q
    simp only [List.map_cons, List.nodup_cons] at hnd
    rcases List.mem_cons.mp h with heq | hmem
    · obtain ⟨e1, e2⟩ := Prod.mk.injEq .. ▸ heq
      rw [brLookup_cons A c c, if_pos e1.symm, e2]
    · have hne : q1 ≠ r := by
        intro he
        subst he
        exact hnd.1 (List.mem_map.mpr ⟨(q1, t), hmem, rfl⟩)
      rw [brLookup_cons A c c, if_neg hne]
      exact ih c hnd.2 r t hmem

theorem range_get?_eq {n i d : Nat} (h : (List.range n).get? i = some d) :
    d = i ∧ i < n := by
  by_cases hi : i < n
  · rw [List.get?_range hi] at h
    simp only [Option.some.injEq] at h
    exact ⟨h.symm, hi⟩
  · rw [List.get?_eq_none.mpr (by simpa using hi)] at h
    simp at h

theorem range_get?_of_lt {n i : Nat} (h : i < n) : (List.range n).get? i = some i :=
  List.get?_range h

theorem RelVal_mono {br br2 : Backrefs} {dbr dbr2 : List Nat}
    (hbr : ∀ r t, brLookup br r = some t → brLookup br2 r = some t)
    (hdbr : ∀ i d, dbr.get? i = some d → dbr2.get? i = some d) :
    ∀ {v w}, RelVal br dbr v w → RelVal br2 dbr2 v w := by
  intro v w h
  cases v <;> cases w <;> simp only [RelVal] at h ⊢ <;> try exact h
  obtain ⟨t, h1, h2⟩ := h
  exact ⟨t, hbr _ _ h1, hdbr _ _ h2⟩

theorem EntriesRel_mono {br br2 : Backrefs} {dbr dbr2 : List Nat}
    (hbr : ∀ r t, brLookup br r = some t → brLookup br2 r = some t)
    (hdbr : ∀ i d, dbr.get? i = some d → dbr2.get? i = some d)
    {s d : TableData} (h : EntriesRel br dbr s d) : EntriesRel br2 dbr2 s d :=
  List.Forall₂.imp
    (fun _ _ hp => ⟨RelVal_mono hbr hdbr hp.1, RelVal_mono hbr hdbr hp.2⟩) h

theorem rawset_append (t : TableData) (k v : LValue) (h : ∀ kv ∈ t, kv.1 ≠ k) :
    rawset t k v = t ++ [(k, v)] := by
  unfold rawset
  rw [if_neg]
  intro hc
  rw [List.any_eq_true] at hc
  obtain ⟨kv, hkv, he⟩ := hc
  exact h kv hkv (by simpa using he)

theorem filtSup_append (s t : TableData) :
    filtSup (s ++ t) = filtSup s ++ filtSup t := by
  simp [filtSup]

theorem filtSup_cons_sup {k v : LValue} (t : TableData)
    (hk : supported k) (hv : supported v) :
    filtSup ((k, v) :: t) = (k, v) :: filtSup t := by
  simp [filtSup, List.filter_cons, hk, hv]

theorem filtSup_cons_unsup {k v : LValue} (t : TableData)
    (h : ¬(supported k ∧ supported v)) :
    filtSup ((k, v) :: t) = filtSup t := by
  unfold filtSup
  rw [List.filter_cons]
  rw [if_neg]
  simp only [Bool.and_eq_true]
  exact fun hc => h ⟨hc.1, hc.2⟩

theorem RelVal_inj {br : Backrefs} {n : Nat}
    (hinj : ∀ r1 r2 t, brLookup br r1 = some t → brLookup br r2 = some t → r1 = r2)
    (hge : ∀ r t, brLookup br r = some t → 1 ≤ t) :
    ∀ {k1 k2 k1' : LValue}, RelVal br (List.range n) k1 k1' →
      RelVal br (List.range n) k2 k1' → k1 = k2 := by
  intro k1 k2 k1' h1 h2
  cases k1' with
  | lnil => cases k1 <;> simp [RelVal] at h1
  | other i => cases k1 <;> simp [RelVal] at h1
  | boolean a =>
    cases k1 <;> simp only [RelVal] at h1
    cases k2 <;> simp only [RelVal] at h2
    rw [h1, h2]
  | integer a =>
    cases k1 <;> simp only [RelVal] at h1
    cases k2 <;> simp only [RelVal] at h2
    rw [h1, h2]
  | number a =>
    cases k1 <;> simp only [RelVal] at h1
    cases k2 <;> simp only [RelVal] at h2
    rw [h1, h2]
  | str a =>
    cases k1 <;> simp only [RelVal] at h1
    cases k2 <;> simp only [RelVal] at h2
    rw [h1, h2]
  | table d =>
    cases k1 <;> simp only [RelVal] at h1
    cases k2 <;> simp only [RelVal] at h2
    rename_i r1 r2
    obtain ⟨t1, hl1, hg1⟩ := h1
    obtain ⟨t2, hl2, hg2⟩ := h2
    obtain ⟨he1, -⟩ := range_get?_eq hg1
    obtain ⟨he2, -⟩ := range_get?_eq hg2
    have h1ge := hge _ _ hl1
    have h2ge := hge _ _ hl2
    have : t1 = t2 := by omega
    subst this
    rw [hinj _ _ _ hl1 hl2]

theorem decodePairsGo_add
    (DV : MBuffer → DecSt → Except String (LValue × MBuffer × DecSt)) (ref : Nat) :
    ∀ (m n : Nat) (b : MBuffer) (st : DecSt),
    decodePairsGo DV b st ref (m + n)
      = match decodePairsGo DV b st ref m with
        | .error e => .error e
        | .ok (b1, st1) => decodePairsGo DV b1 st1 ref n := by
  intro m
  induction m with
  | zero =>
    intro n b st
    simp [decodePairsGo]
  | succ m ih =>
    intro n b st
    rw [show m + 1 + n = (m + n) + 1 from by omega]
    cases h1 : DV b st with
    | error e => simp only [decodePairsGo, h1]
    | ok kbs =>
      obtain ⟨k, b1, st1⟩ := kbs
      cases h2 : DV b1 st1 with
      | error e => simp only [decodePairsGo, h1, h2]
      | ok vbs =>
        obtain ⟨v, b2, st2⟩ := vbs
        simp only [decodePairsGo, h1, h2]
        exact ih n _ _

theorem readByte_front (P : List Nat) (x : Nat) (R : List Nat) (L C : Nat)
    (h1 : P.length + 1 ≤ L) (h2 : L ≤ SIZE_MAX) :
    readByte { data := P ++ x :: R, pos := P.length, len := L, capacity := C }
      = .ok (x, { data := P ++ x :: R, pos := P.length + 1, len := L, capacity := C }) := by
  unfold readByte buffer_avail
  rw [if_neg]
  · dsimp only
    have hx : (P ++ x :: R).getD P.length 0 = x := by
      have := getD_concat P (x :: R) [] 0 (by simp)
      simpa using this
    rw [hx]
  · dsimp only
    simp only [not_or, not_lt]
    constructor
    · unfold SIZE_MAX at h2 ⊢
      omega
    · omega

theorem readBytes_front (P bs R : List Nat) (L C : Nat)
    (h1 : P.length + bs.length ≤ L) (h2 : L ≤ SIZE_MAX) :
    readBytes { data := P ++ bs ++ R, pos := P.length, len := L, capacity := C } bs.length
      = .ok (bs,
          { data := P ++ bs ++ R, pos := P.length + bs.length, len := L, capacity := C }) := by
  unfold readBytes buffer_avail
  rw [if_neg]
  · dsimp only
    have hx : seg (P ++ bs ++ R) P.length bs.length = bs := by
      have := seg_concat P bs R 0 bs.length (by omega)
      simpa [seg] using this
    rw [hx]
  · dsimp only
    simp only [not_or, not_lt]
    constructor
    · unfold SIZE_MAX at h2 ⊢
      omega
    · omega

theorem beVal_beBytes_of_lt {w n : Nat} (h : n < 256 ^ w) :
    beVal (beBytes w n) = n := by
  rw [beVal_beBytes]
  exact Nat.mod_eq_of_lt h

theorem uint64_ord_roundtrip {t : Nat} (h : t < 2 ^ 63) :
    uint64ToInt64 (beVal (beBytes 8 t)) = (t : Int) := by
  rw [beVal_beBytes_of_lt (by norm_num; omega)]
  unfold uint64ToInt64
  rw [if_pos h]

theorem get?_set_ne {α : Type} (l : List α) (i j : Nat) (a : α) (h : i ≠ j) :
    (l.set i a).get? j = l.get? j := by
  simp only [List.get?_eq_getElem?]
  rw [List.getElem?_set_ne h]

theorem get?_set_self {α : Type} (l : List α) (i : Nat) (a : α) (h : i < l.length) :
    (l.set i a).get? i = some a := by
  simp only [List.get?_eq_getElem?]
  rw [List.getElem?_set_self]
  exact h

theorem get?_append_left {α : Type} {l r : List α} {i : Nat} (h : i < l.length) :
    (l ++ r).get? i = l.get? i := by
  simp only [List.get?_eq_getElem?]
  rw [List.getElem?_append_left h]

theorem heap_getD_mem (H : Heap) (r : Nat) (h : H.getD r [] ≠ []) :
    H.getD r [] ∈ H := by
  by_cases hr : r < H.length
  · rw [List.getD_eq_getElem _ _ hr]
    exact List.getElem_mem _
  · rw [List.getD_eq_default _ _ (by omega)] at h
    exact absurd rfl h

theorem srcEntries_head (H : Heap) (pend : List (Nat × TableData)) (r : Nat)
    (done : TableData) : srcEntries H ((r, done) :: pend) r = done := by
  unfold srcEntries
  rw [List.find?_cons_of_pos _ (by simp)]
  rfl

theorem srcEntries_tail (H : Heap) (pend : List (Nat × TableData)) (r r2 : Nat)
    (done : TableData) (h : r ≠ r2) :
    srcEntries H ((r, done) :: pend) r2 = srcEntries H pend r2 := by
  unfold srcEntries
  rw [List.find?_cons_of_neg _ (by simp [h])]

theorem BrExt_refl (br : Backrefs) : BrExt br br :=
  ⟨fun _ _ h => h, Nat.le_refl _⟩

theorem BrExt_trans {a b c : Backrefs} (h1 : BrExt a b) (h2 : BrExt b c) : BrExt a c :=
  ⟨fun r t h => h2.1 r t (h1.1 r t h), h1.2.trans h2.2⟩

theorem forall₂_mem_right {α β : Type} {R : α → β → Prop} :
    ∀ {s : List α} {d : List β}, List.Forall₂ R s d → ∀ q ∈ d, ∃ p ∈ s, R p q := by
  intro s d h
  induction h with
  | nil =>
    intro q hq
    simp at hq
  | cons hR hrest ihh =>
    rename_i a b as bs
    intro q hq
    rcases List.mem_cons.mp hq with he | hm
    · exact ⟨a, List.mem_cons_self a as, he ▸ hR⟩
    · obtain ⟨p, hp, hr⟩ := ihh q hm
      exact ⟨p, List.mem_cons_of_mem _ hp, hr⟩

theorem get?_some_lt {α : Type} {l : List α} {i : Nat} {x : α}
    (h : l.get? i = some x) : i < l.length := by
  by_contra hc
  rw [List.get?_eq_none.mpr (by omega)] at h
  simp at h

theorem getD_of_get? {l : List TableData} {i : Nat} {x : TableData}
    (h : l.get? i = some x) : l.getD i [] = x := by
  have hx : l[i]? = some x := by
    rw [← List.get?_eq_getElem?]
    exact h
  simp [List.getD, hx]

theorem nat_get?_some_lt {l : List Nat} {i : Nat} {x : Nat}
    (h : l.get? i = some x) : i < l.length := by
  by_contra hc
  rw [List.get?_eq_none.mpr (by omega)] at h
  simp at h

/-- The statement of the value-level simulation at a given recursion depth:
whatever the encoder emits for `v`, the decoder at the same depth, run over
any byte list holding the emitted bytes at the encoder's position, consumes
exactly those bytes and produces the decoded image of `v`, carrying the
invariant along. -/
def SimVal (fuel : Nat) : Prop :=
  ∀ H b br v b2 br2 st pend,
    WFHeap H → WFVal v →
    encodeVal H fuel b br v = .ok (b2, br2) →
    Inv H br st pend →
    b.data.length = b.pos →
    ∀ P D S L C, P = D ++ b2.data.drop b.pos ++ S →
      D.length + (b2.data.length - b.pos) ≤ L → L ≤ SIZE_MAX →
      ∃ v' st',
        decodeVal fuel { data := P, pos := D.length, len := L, capacity := C } st
          = .ok (v', { data := P, pos := D.length + (b2.data.length - b.pos),
                       len := L, capacity := C }, st') ∧
        RelVal br2 st'.dbr v v' ∧ Inv H br2 st' pend ∧ BrExt br br2 ∧
        st.dheap.length ≤ st'.dheap.length

/-- The statement of the pair-loop simulation at a given recursion depth:
while the encoder walks the remaining entries of the table with ordinal t
(having already walked `done`), the decoder's pair loop over the counted
number of pairs consumes exactly the emitted bytes and fills the
decode-side table with their images. -/
def SimPairs (fuel : Nat) : Prop :=
  ∀ H entries b br narr nrec b2 br2 narr2 nrec2 st pend r t done,
    WFHeap H →
    encodePairs H fuel b br entries narr nrec = .ok (b2, br2, narr2, nrec2) →
    Inv H br st ((r, done) :: pend) →
    brLookup br r = some t →
    H.getD r [] = done ++ entries →
    b.data.length = b.pos →
    ∀ P D S L C, P = D ++ b2.data.drop b.pos ++ S →
      D.length + (b2.data.length - b.pos) ≤ L → L ≤ SIZE_MAX →
      ∃ st',
        decodePairs fuel { data := P, pos := D.length, len := L, capacity := C } st
            (t - 1) ((narr2 + nrec2) - (narr + nrec))
          = .ok ({ data := P, pos := D.length + (b2.data.length - b.pos),
                   len := L, capacity := C }, st') ∧
        Inv H br2 st' ((r, done ++ entries) :: pend) ∧ BrExt br br2 ∧
        st.dheap.length ≤ st'.dheap.length ∧ narr ≤ narr2 ∧ nrec ≤ nrec2

theorem dbr_mono {st st2 : DecSt} (h1 : st.dbr = List.range st.dheap.length)
    (h2 : st2.dbr = List.range st2.dheap.length)
    (hle : st.dheap.length ≤ st2.dheap.length) :
    ∀ i d, st.dbr.get? i = some d → st2.dbr.get? i = some d := by
  intro i d hd
  rw [h1] at hd
  obtain ⟨he, hlt⟩ := range_get?_eq hd
  subst he
  rw [h2]
  exact range_get?_of_lt (by omega)

theorem readBytes_front_n (P bs R : List Nat) (n L C : Nat) (hn : bs.length = n)
    (h1 : P.length + n ≤ L) (h2 : L ≤ SIZE_MAX) :
    readBytes { data := P ++ bs ++ R, pos := P.length, len := L, capacity := C } n
      = .ok (bs,
          { data := P ++ bs ++ R, pos := P.length + n, len := L, capacity := C }) := by
  subst hn
  exact readBytes_front P bs R L C h1 h2

theorem buffer_avail_ok_of (b : MBuffer) (n : Nat) (h1 : b.pos + n ≤ b.len)
    (h2 : b.len ≤ SIZE_MAX) : buffer_avail b n = .ok () := by
  unfold buffer_avail
  rw [if_neg]
  simp only [not_or, not_lt]
  omega

theorem encodePairs_le_max (H : Heap) (fuel : Nat) :
    ∀ (l : TableData) b br narr nrec b2 br2 narr2 nrec2,
    encodePairs H fuel b br l narr nrec = .ok (b2, br2, narr2, nrec2) →
    narr ≤ LUA_MAXINTEGER → nrec ≤ LUA_MAXINTEGER →
    narr2 ≤ LUA_MAXINTEGER ∧ nrec2 ≤ LUA_MAXINTEGER := by
  intro l
  induction l with
  | nil =>
    intro b br narr nrec b2 br2 narr2 nrec2 h h1 h2
    unfold encodePairs encodePairsGo at h
    simp only [Except.ok.injEq, Prod.mk.injEq] at h
    obtain ⟨-, -, hna, hnr⟩ := h
    omega
  | cons kv rest ih =>
    intro b br narr nrec b2 br2 narr2 nrec2 h h1 h2
    obtain ⟨k, v⟩ := kv
    unfold encodePairs encodePairsGo at h
    split at h
    · split at h
      · split at h
        · exact absurd h (by simp)
        · rename_i hg
          split at h
          · exact absurd h (by simp)
          · split at h
            · exact absurd h (by simp)
            · exact ih _ _ _ _ _ _ _ _ h (by unfold LUA_MAXINTEGER at *; omega) h2
      · split at h
        · exact absurd h (by simp)
        · rename_i hg
          split at h
          · exact absurd h (by simp)
          · split at h
            · exact absurd h (by simp)
            · exact ih _ _ _ _ _ _ _ _ h h1 (by unfold LUA_MAXINTEGER at *; omega)
    · exact ih _ _ _ _ _ _ _ _ h h1 h2

theorem simPairs_of (fuel : Nat) (ihVal : SimVal fuel) : SimPairs fuel := by
  intro H entries
  induction entries with
  | nil =>
    intro b br narr nrec b2 br2 narr2 nrec2 st pend r t done
    intro hWF h hInv hlk hsplit hbinv P D S L C hP hL hLS
    unfold encodePairs encodePairsGo at h
    simp only [Except.ok.injEq, Prod.mk.injEq] at h
    obtain ⟨hb, hbr, hna, hnr⟩ := h
    subst hb
    subst hbr
    subst hna
    subst hnr
    refine ⟨st, ?_, by simpa using hInv, BrExt_refl br, Nat.le_refl _,
      Nat.le_refl _, Nat.le_refl _⟩
    rw [show (narr + nrec) - (narr + nrec) = 0 from by omega,
      show b.data.length - b.pos = 0 from by omega]
    rfl
  | cons kv rest ih =>
    intro b br narr nrec b2 br2 narr2 nrec2 st pend r t done
    intro hWF h hInv hlk hsplit hbinv P D S L C hP hL hLS
    obtain ⟨k, v⟩ := kv
    have main : ∀ (c1 c2 : Nat) (bk bv : MBuffer) (brk brv : Backrefs),
        supported k = true → supported v = true →
        encodeVal H fuel b br k = .ok (bk, brk) →
        encodeVal H fuel bk brk v = .ok (bv, brv) →
        encodePairsGo (encodeVal H fuel) bv brv rest c1 c2
          = .ok (b2, br2, narr2, nrec2) →
        narr + nrec + 1 = c1 + c2 → narr ≤ c1 → nrec ≤ c2 →
        ∃ st',
          decodePairs fuel { data := P, pos := D.length, len := L, capacity := C } st
              (t - 1) ((narr2 + nrec2) - (narr + nrec))
            = .ok ({ data := P, pos := D.length + (b2.data.length - b.pos),
                     len := L, capacity := C }, st') ∧
          Inv H br2 st' ((r, done ++ (k, v) :: rest) :: pend) ∧ BrExt br br2 ∧
          st.dheap.length ≤ st'.dheap.length ∧ narr ≤ narr2 ∧ nrec ≤ nrec2 := by
      intro c1 c2 bk bv brk brv hsk hsv heqk heqv hrec hcsum hc1le hc2le
      -- well-formedness of the entry
      have hne : H.getD r [] ≠ [] := by
        rw [hsplit]
        simp
      obtain ⟨hWFe, hNodup⟩ := hWF _ (heap_getD_mem H r hne)
      have hkvmem : (k, v) ∈ filtSup (H.getD r []) := by
        rw [hsplit, filtSup_append, filtSup_cons_sup _ hsk hsv]
        exact List.mem_append.mpr (Or.inr (List.mem_cons_self _ _))
      have hWFk := (hWFe _ hkvmem).1
      have hWFv := (hWFe _ hkvmem).2
      -- extension facts for the three encoding steps
      obtain ⟨hk1, hk2, hk3, hk4, hk5, Wk0, hk7⟩ :=
        encodeVal_ext fuel H _ _ _ _ _ heqk hbinv
      obtain ⟨hv1, hv2, hv3, hv4, hv5, Wv0, hv7⟩ :=
        encodeVal_ext fuel H _ _ _ _ _ heqv hk1
      obtain ⟨hr1e, hr2e, hr3e, hr4e, hr5e, hr6e, hr7e, Wr0, hr9⟩ :=
        encodePairs_ext fuel (encodeVal_ext fuel) _ _ _ _ _ _ _ _ _ _ hrec hv1
      -- the emitted bytes decompose
      have hb2data : b2.data = b.data ++ (Wk0 ++ (Wv0 ++ Wr0)) := by
        rw [hr9, hv7, hk7]
        simp
      have hWsplit : b2.data.drop b.pos = Wk0 ++ (Wv0 ++ Wr0) := by
        rw [hb2data, ← hbinv, List.drop_left]
      have hcount : (narr2 + nrec2) - (narr + nrec)
          = ((narr2 + nrec2) - (c1 + c2)) + 1 := by
        omega
      -- length bookkeeping
      have e1 : bk.data.length = b.data.length + Wk0.length := by
        rw [hk7]
        simp
      have e3 : bv.data.length = b.data.length + Wk0.length + Wv0.length := by
        rw [hv7, hk7]
        simp [List.length_append, Nat.add_assoc]
      have e2 : b2.data.length = b.data.length + Wk0.length + Wv0.length
          + Wr0.length := by
        rw [hb2data]
        simp [List.length_append, Nat.add_assoc]
      -- decode the key
      have hPk : P = D ++ bk.data.drop b.pos ++ (Wv0 ++ Wr0 ++ S) := by
        rw [hP, hWsplit, show bk.data.drop b.pos = Wk0 from by
          rw [hk7, ← hbinv, List.drop_left]]
        simp
      obtain ⟨k', st1, hdk, hRk, hInv1, hBrk, hdlen1⟩ :=
        ihVal H b br k bk brk st ((r, done) :: pend) hWF hWFk heqk hInv hbinv
          P D (Wv0 ++ Wr0 ++ S) L C hPk (by omega) hLS
      -- decode the value
      have hPv : P = (D ++ Wk0) ++ bv.data.drop bk.pos ++ (Wr0 ++ S) := by
        rw [hP, hWsplit, show bv.data.drop bk.pos = Wv0 from by
          rw [hv7, ← hk1, List.drop_left]]
        simp
      obtain ⟨v', st2, hdv, hRv, hInv2, hBrv, hdlen2⟩ :=
        ihVal H bk brk v bv brv st1 ((r, done) :: pend) hWF hWFv heqv hInv1 hk1
          P (D ++ Wk0) (Wr0 ++ S) L C hPv
          (by
            simp only [List.length_append]
            omega) hLS
      -- invariant components after the value decode
      obtain ⟨hdbr2, hlen2e, hcnt2, hnd2, hbounds2, hinj2, hpend2, hcontent2⟩ := hInv2
      have hlkk : brLookup brk r = some t := hBrk.1 _ _ hlk
      have hlkv : brLookup brv r = some t := hBrv.1 _ _ hlkk
      obtain ⟨ht1, ht2⟩ := hbounds2 _ _ hlkv
      obtain ⟨Dr, hDr, hErel⟩ := hcontent2 r t hlkv
      rw [srcEntries_head] at hErel
      -- the decoded key is fresh in the decoded table
      have hmono12 : ∀ i d, st1.dbr.get? i = some d → st2.dbr.get? i = some d :=
        dbr_mono hInv1.1 hdbr2 hdlen2
      have hRk2 : RelVal brv st2.dbr k k' := RelVal_mono hBrv.1 hmono12 hRk
      have hkeys : ∀ q ∈ Dr, q.1 ≠ k' := by
        intro q hq hkq
        obtain ⟨p, hpmem, hpR⟩ := forall₂_mem_right hErel q hq
        have hpR1 : RelVal brv st2.dbr p.1 k' := by
          rw [← hkq]
          exact hpR.1
        have hkeq : k = p.1 := by
          rw [hdbr2] at hRk2 hpR1
          exact RelVal_inj hinj2 (fun r' t' hl => (hbounds2 r' t' hl).1) hRk2 hpR1
        have hknotin : k ∉ (filtSup done).map Prod.fst := by
          intro hkin
          rw [hsplit, filtSup_append, filtSup_cons_sup _ hsk hsv] at hNodup
          simp only [List.map_append, List.map_cons] at hNodup
          rcases List.nodup_append.mp hNodup with ⟨-, -, hdisj⟩
          exact hdisj hkin (List.mem_cons_self k _)
        exact hknotin (hkeq ▸ List.mem_map_of_mem Prod.fst hpmem)
      have hgetD : st2.dheap.getD (t - 1) [] = Dr := getD_of_get? hDr
      have hstep : rawset (st2.dheap.getD (t - 1) []) k' v' = Dr ++ [(k', v')] := by
        rw [hgetD]
        exact rawset_append Dr k' v' hkeys
      -- the invariant after the rawset
      have hInvR : Inv H brv
          { st2 with dheap :=
              st2.dheap.set (t - 1) (rawset (st2.dheap.getD (t - 1) []) k' v') }
          ((r, done ++ [(k, v)]) :: pend) := by
        refine ⟨?_, ?_, hcnt2, hnd2, hbounds2, hinj2, ?_, ?_⟩
        · dsimp only
          rw [List.length_set]
          exact hdbr2
        · dsimp only
          rw [List.length_set]
          exact hlen2e
        · intro p hp
          rcases List.mem_cons.mp hp with he | hm
          · exact ⟨t, by rw [he]; exact hlkv⟩
          · exact hpend2 p (List.mem_cons_of_mem _ hm)
        · intro r3 t3 hl3
          by_cases hr3 : r3 = r
          · subst hr3
            have ht3 : t3 = t := by
              rw [hl3] at hlkv
              exact Option.some.inj hlkv
            subst ht3
            refine ⟨Dr ++ [(k', v')], ?_, ?_⟩
            · dsimp only
              rw [hstep, get?_set_self _ _ _ (get?_some_lt hDr)]
            · rw [srcEntries_head, filtSup_append, filtSup_cons_sup _ hsk hsv,
                show filtSup [] = [] from rfl]
              exact List.rel_append hErel (List.Forall₂.cons ⟨hRk2, hRv⟩ List.Forall₂.nil)
          · obtain ⟨D3, hD3, hE3⟩ := hcontent2 r3 t3 hl3
            have htne : t3 ≠ t := fun he => hr3 (hinj2 _ _ _ hl3 (he ▸ hlkv))
            have ht3ge := (hbounds2 _ _ hl3).1
            refine ⟨D3, ?_, ?_⟩
            · dsimp only
              rw [get?_set_ne _ _ _ _ (by omega)]
              exact hD3
            · rw [srcEntries_tail _ _ _ _ _ (fun he => hr3 he.symm)] at hE3 ⊢
              exact hE3
      -- apply the induction hypothesis to the remaining entries
      have hsplit2 : H.getD r [] = (done ++ [(k, v)]) ++ rest := by
        rw [hsplit]
        simp
      have hPr : P = (D ++ Wk0 ++ Wv0) ++ b2.data.drop bv.pos ++ S := by
        rw [hP, hWsplit, show b2.data.drop bv.pos = Wr0 from by
          rw [hr9, ← hv1, List.drop_left]]
        simp
      obtain ⟨st3, hdr, hInv3, hBrr, hdlen3, hm1, hm2⟩ :=
        ih bv brv c1 c2 b2 br2 narr2 nrec2
          { st2 with dheap :=
              st2.dheap.set (t - 1) (rawset (st2.dheap.getD (t - 1) []) k' v') }
          pend r t (done ++ [(k, v)]) hWF hrec hInvR hlkv hsplit2 hv1
          P (D ++ Wk0 ++ Wv0) S L C hPr
          (by
            simp only [List.length_append]
            omega) hLS
      refine ⟨st3, ?_, ?_, BrExt_trans hBrk (BrExt_trans hBrv hBrr), ?_,
        by omega, by omega⟩
      · rw [hcount]
        simp only [decodePairs, decodePairsGo]
        rw [hdk]
        dsimp only
        rw [show D.length + (bk.data.length - b.pos) = (D ++ Wk0).length from by
          simp only [List.length_append]
          omega]
        rw [hdv]
        dsimp only
        rw [show (D ++ Wk0).length + (bv.data.length - bk.pos)
            = (D ++ Wk0 ++ Wv0).length from by
          simp only [List.length_append]
          omega]
        rw [show D.length + (b2.data.length - b.pos)
            = (D ++ Wk0 ++ Wv0).length + (b2.data.length - bv.pos) from by
          simp only [List.length_append]
          omega]
        exact hdr
      · rw [show done ++ (k, v) :: rest = (done ++ [(k, v)]) ++ rest from by simp]
        exact hInv3
      · have h3 := hdlen3
        dsimp only at h3
        rw [List.length_set] at h3
        omega
    unfold encodePairs encodePairsGo at h
    split at h
    · rename_i hsup
      split at h
      · split at h
        · exact absurd h (by simp)
        · split at h
          · exact absurd h (by simp)
          · rename_i bk brk heqk
            split at h
            · exact absurd h (by simp)
            · rename_i bv brv heqv
              exact main (narr + 1) nrec bk bv brk brv hsup.1 hsup.2 heqk heqv h
                (by omega) (by omega) (by omega)
      · split at h
        · exact absurd h (by simp)
        · split at h
          · exact absurd h (by simp)
          · rename_i bk brk heqk
            split at h
            · exact absurd h (by simp)
            · rename_i bv brv heqv
              exact main narr (nrec + 1) bk bv brk brv hsup.1 hsup.2 heqk heqv h
                (by omega) (by omega) (by omega)
    · rename_i hnsup
      obtain ⟨hdbr0, hlen0, hcnt0, hnd0, hbounds0, hinj0, hpend0, hcontent0⟩ := hInv
      have hInv' : Inv H br st ((r, done ++ [(k, v)]) :: pend) := by
        refine ⟨hdbr0, hlen0, hcnt0, hnd0, hbounds0, hinj0, ?_, ?_⟩
        · intro p hp
          rcases List.mem_cons.mp hp with he | hm
          · exact ⟨t, by rw [he]; exact hlk⟩
          · exact hpend0 p (List.mem_cons_of_mem _ hm)
        · intro r3 t3 hl3
          obtain ⟨D3, hD3, hE3⟩ := hcontent0 r3 t3 hl3
          by_cases hr3 : r3 = r
          · subst hr3
            refine ⟨D3, hD3, ?_⟩
            rw [srcEntries_head] at hE3
            rw [srcEntries_head, filtSup_append, filtSup_cons_unsup _ hnsup,
              show filtSup [] = [] from rfl, List.append_nil]
            exact hE3
          · rw [srcEntries_tail _ _ _ _ _ (fun he => hr3 he.symm)] at hE3 ⊢
            exact ⟨D3, hD3, hE3⟩
      have hsplit' : H.getD r [] = (done ++ [(k, v)]) ++ rest := by
        rw [hsplit]
        simp
      obtain ⟨st', hdr, hInv3, hBrr, hdlen3, hm1, hm2⟩ :=
        ih b br narr nrec b2 br2 narr2 nrec2 st pend r t (done ++ [(k, v)]) hWF h
          hInv' hlk hsplit' hbinv P D S L C hP hL hLS
      refine ⟨st', hdr, ?_, hBrr, hdlen3, hm1, hm2⟩
      rw [show done ++ (k, v) :: rest = (done ++ [(k, v)]) ++ rest from by simp]
      exact hInv3

theorem simVal_all : ∀ fuel, SimVal fuel := by
  intro fuel
  induction fuel with
  | zero =>
    intro H b br v b2 br2 st pend hWF hWFv henc hInv hbinv P D S L C hP hL hLS
    exact absurd henc (by simp [encodeVal])
  | succ f ihVal =>
    have ihPairs := simPairs_of f ihVal
    intro H b br v b2 br2 st pend hWF hWFv henc hInv hbinv P D S L C hP hL hLS
    cases v with
    | lnil => exact absurd henc (by simp [encodeVal, encodeValGo])
    | other id => exact absurd henc (by simp [encodeVal, encodeValGo])
    | boolean bo =>
      unfold encodeVal encodeValGo at henc
      dsimp only at henc
      split at henc
      · exact absurd henc (by simp)
      · rename_i b1 hreq
        obtain ⟨hd, hp, hl, hmax, hcap⟩ := buffer_require_ok _ _ _ hreq
        simp only [Except.ok.injEq, Prod.mk.injEq] at henc
        obtain ⟨hb2, hbr2⟩ := henc
        subst hbr2
        have hdata2 : b2.data
            = b.data ++ [if bo then MEMCACHED_TYPE_BOOLEANTRRUE else LUA_TBOOLEAN] := by
          rw [← hb2, writeBytes_of_append _ _ (by rw [hd, hp, ← hbinv])]
          dsimp only
          rw [hd]
        have hlen2 : b2.data.length = b.pos + 1 := by
          rw [hdata2]
          simp only [List.length_append, List.length_cons, List.length_nil]
          omega
        have hdrop : b2.data.drop b.pos
            = [if bo then MEMCACHED_TYPE_BOOLEANTRRUE else LUA_TBOOLEAN] := by
          rw [hdata2, ← hbinv, List.drop_left]
        subst hP
        rw [hdrop, show b2.data.length - b.pos = 1 from by omega]
        cases bo
        · refine ⟨.boolean false, st, ?_, rfl, hInv, BrExt_refl br, Nat.le_refl _⟩
          unfold decodeVal decodeValGo
          rw [show D ++ [if (false : Bool) then MEMCACHED_TYPE_BOOLEANTRRUE
                else LUA_TBOOLEAN] ++ S = D ++ LUA_TBOOLEAN :: S from by simp]
          rw [readByte_front D LUA_TBOOLEAN S L C (by omega) hLS]
          dsimp only
          rw [if_pos rfl]
        · refine ⟨.boolean true, st, ?_, rfl, hInv, BrExt_refl br, Nat.le_refl _⟩
          unfold decodeVal decodeValGo
          rw [show D ++ [if (true : Bool) then MEMCACHED_TYPE_BOOLEANTRRUE
                else LUA_TBOOLEAN] ++ S = D ++ MEMCACHED_TYPE_BOOLEANTRRUE :: S from by
            simp]
          rw [readByte_front D MEMCACHED_TYPE_BOOLEANTRRUE S L C (by omega) hLS]
          dsimp only
          rw [if_neg (by decide), if_pos rfl]
    | integer i =>
      unfold encodeVal encodeValGo at henc
      dsimp only at henc
      split at henc
      · exact absurd henc (by simp)
      · rename_i b1 hreq
        obtain ⟨hd, hp, hl, hmax, hcap⟩ := buffer_require_ok _ _ _ hreq
        simp only [Except.ok.injEq, Prod.mk.injEq] at henc
        obtain ⟨hb2, hbr2⟩ := henc
        subst hbr2
        have hdata2 : b2.data
            = b.data ++ (MEMCACHED_TYPE_INTEGER :: beBytes 8 (int64ToUInt64 i)) := by
          rw [← hb2, writeBytes_of_append _ _ (by rw [hd, hp, ← hbinv])]
          dsimp only
          rw [hd]
        have hlen2 : b2.data.length = b.pos + 9 := by
          rw [hdata2]
          simp only [List.length_append, List.length_cons, beBytes_length]
          omega
        have hdrop : b2.data.drop b.pos
            = MEMCACHED_TYPE_INTEGER :: beBytes 8 (int64ToUInt64 i) := by
          rw [hdata2, ← hbinv, List.drop_left]
        subst hP
        rw [hdrop, show b2.data.length - b.pos = 9 from by omega]
        refine ⟨.integer i, st, ?_, rfl, hInv, BrExt_refl br, Nat.le_refl _⟩
        unfold decodeVal decodeValGo
        rw [show D ++ (MEMCACHED_TYPE_INTEGER :: beBytes 8 (int64ToUInt64 i)) ++ S
            = D ++ MEMCACHED_TYPE_INTEGER :: (beBytes 8 (int64ToUInt64 i) ++ S) from by
          simp]
        rw [readByte_front D MEMCACHED_TYPE_INTEGER (beBytes 8 (int64ToUInt64 i) ++ S)
          L C (by omega) hLS]
        dsimp only
        rw [if_neg (by decide), if_neg (by decide), if_neg (by decide), if_pos rfl]
        rw [show D ++ MEMCACHED_TYPE_INTEGER :: (beBytes 8 (int64ToUInt64 i) ++ S)
            = (D ++ [MEMCACHED_TYPE_INTEGER]) ++ beBytes 8 (int64ToUInt64 i) ++ S from by
          simp]
        rw [show D.length + 1 = (D ++ [MEMCACHED_TYPE_INTEGER]).length from by simp]
        rw [readBytes_front_n (D ++ [MEMCACHED_TYPE_INTEGER])
          (beBytes 8 (int64ToUInt64 i)) S 8 L C (beBytes_length _ _)
          (by simp only [List.length_append, List.length_cons, List.length_nil]; omega)
          hLS]
        dsimp only
        rw [beVal_beBytes_of_lt (by
          have := int64ToUInt64_lt i
          norm_num
          omega)]
        rw [int64_roundtrip i hWFv.1 hWFv.2]
        rw [show (D ++ [MEMCACHED_TYPE_INTEGER]).length + 8 = D.length + 9 from by
          simp]
    | number bits =>
      unfold encodeVal encodeValGo at henc
      dsimp only at henc
      split at henc
      · exact absurd henc (by simp)
      · rename_i b1 hreq
        obtain ⟨hd, hp, hl, hmax, hcap⟩ := buffer_require_ok _ _ _ hreq
        simp only [Except.ok.injEq, Prod.mk.injEq] at henc
        obtain ⟨hb2, hbr2⟩ := henc
        subst hbr2
        have hdata2 : b2.data = b.data ++ (LUA_TNUMBER :: leBytes 8 bits) := by
          rw [← hb2, writeBytes_of_append _ _ (by rw [hd, hp, ← hbinv])]
          dsimp only
          rw [hd]
        have hlen2 : b2.data.length = b.pos + 9 := by
          rw [hdata2]
          simp only [List.length_append, List.length_cons, leBytes_length]
          omega
        have hdrop : b2.data.drop b.pos = LUA_TNUMBER :: leBytes 8 bits := by
          rw [hdata2, ← hbinv, List.drop_left]
        subst hP
        rw [hdrop, show b2.data.length - b.pos = 9 from by omega]
        refine ⟨.number bits, st, ?_, rfl, hInv, BrExt_refl br, Nat.le_refl _⟩
        unfold decodeVal decodeValGo
        rw [show D ++ (LUA_TNUMBER :: leBytes 8 bits) ++ S
            = D ++ LUA_TNUMBER :: (leBytes 8 bits ++ S) from by simp]
        rw [readByte_front D LUA_TNUMBER (leBytes 8 bits ++ S) L C (by omega) hLS]
        dsimp only
        rw [if_neg (by decide), if_neg (by decide), if_pos rfl]
        rw [show D ++ LUA_TNUMBER :: (leBytes 8 bits ++ S)
            = (D ++ [LUA_TNUMBER]) ++ leBytes 8 bits ++ S from by simp]
        rw [show D.length + 1 = (D ++ [LUA_TNUMBER]).length from by simp]
        rw [readBytes_front_n (D ++ [LUA_TNUMBER]) (leBytes 8 bits) S 8 L C
          (leBytes_length _ _)
          (by simp only [List.length_append, List.length_cons, List.length_nil]; omega)
          hLS]
        dsimp only
        rw [leVal_leBytes, Nat.mod_eq_of_lt (by
          have := hWFv
          unfold WFVal at this
          norm_num
          omega)]
        rw [show (D ++ [LUA_TNUMBER]).length + 8 = D.length + 9 from by simp]
    | str s =>
      unfold encodeVal encodeValGo at henc
      dsimp only at henc
      split at henc
      · exact absurd henc (by simp)
      · rename_i hlong
        split at henc
        · -- short string
          rename_i hshort
          split at henc
          · exact absurd henc (by simp)
          · rename_i b1 hreq
            obtain ⟨hd, hp, hl, hmax, hcap⟩ := buffer_require_ok _ _ _ hreq
            simp only [Except.ok.injEq, Prod.mk.injEq] at henc
            obtain ⟨hb2, hbr2⟩ := henc
            subst hbr2
            have hdata2 : b2.data
                = b.data ++ (MEMCACHED_TYPE_STRINGSHORT :: s.length :: s) := by
              rw [← hb2, writeBytes_of_append _ _ (by rw [hd, hp, ← hbinv])]
              dsimp only
              rw [hd]
            have hlen2 : b2.data.length = b.pos + 2 + s.length := by
              rw [hdata2]
              simp only [List.length_append, List.length_cons]
              omega
            have hdrop : b2.data.drop b.pos
                = MEMCACHED_TYPE_STRINGSHORT :: s.length :: s := by
              rw [hdata2, ← hbinv, List.drop_left]
            subst hP
            rw [hdrop, show b2.data.length - b.pos = 2 + s.length from by omega]
            refine ⟨.str s, st, ?_, rfl, hInv, BrExt_refl br, Nat.le_refl _⟩
            unfold decodeVal decodeValGo
            rw [show D ++ (MEMCACHED_TYPE_STRINGSHORT :: s.length :: s) ++ S
                = D ++ MEMCACHED_TYPE_STRINGSHORT :: (s.length :: (s ++ S)) from by
              simp]
            rw [readByte_front D MEMCACHED_TYPE_STRINGSHORT (s.length :: (s ++ S))
              L C (by omega) hLS]
            dsimp only
            rw [if_neg (by decide), if_neg (by decide), if_neg (by decide),
              if_neg (by decide), if_neg (by decide), if_pos rfl]
            rw [show D ++ MEMCACHED_TYPE_STRINGSHORT :: (s.length :: (s ++ S))
                = (D ++ [MEMCACHED_TYPE_STRINGSHORT]) ++ s.length :: (s ++ S) from by
              simp]
            rw [show D.length + 1 = (D ++ [MEMCACHED_TYPE_STRINGSHORT]).length from by
              simp]
            rw [readByte_front (D ++ [MEMCACHED_TYPE_STRINGSHORT]) s.length (s ++ S)
              L C (by simp only [List.length_append, List.length_cons,
                List.length_nil]; omega) hLS]
            dsimp only
            rw [show (D ++ [MEMCACHED_TYPE_STRINGSHORT]) ++ s.length :: (s ++ S)
                = (D ++ [MEMCACHED_TYPE_STRINGSHORT, s.length]) ++ s ++ S from by simp]
            rw [show (D ++ [MEMCACHED_TYPE_STRINGSHORT]).length + 1
                = (D ++ [MEMCACHED_TYPE_STRINGSHORT, s.length]).length from by simp]
            rw [readBytes_front_n (D ++ [MEMCACHED_TYPE_STRINGSHORT, s.length]) s S
              s.length L C rfl
              (by simp only [List.length_append, List.length_cons,
                List.length_nil]; omega) hLS]
            dsimp only
            rw [show (D ++ [MEMCACHED_TYPE_STRINGSHORT, s.length]).length + s.length
                = D.length + (2 + s.length) from by
              simp only [List.length_append, List.length_cons, List.length_nil]
              omega]
        · -- long string
          rename_i hshort
          split at henc
          · exact absurd henc (by simp)
          · rename_i b1 hreq
            obtain ⟨hd, hp, hl, hmax, hcap⟩ := buffer_require_ok _ _ _ hreq
            simp only [Except.ok.injEq, Prod.mk.injEq] at henc
            obtain ⟨hb2, hbr2⟩ := henc
            subst hbr2
            have hdata2 : b2.data
                = b.data ++ (LUA_TSTRING :: (beBytes 8 s.length ++ s)) := by
              rw [← hb2, writeBytes_of_append _ _ (by rw [hd, hp, ← hbinv])]
              dsimp only
              rw [hd]
            have hlen2 : b2.data.length = b.pos + 9 + s.length := by
              rw [hdata2]
              simp only [List.length_append, List.length_cons, beBytes_length]
              omega
            have hdrop : b2.data.drop b.pos
                = LUA_TSTRING :: (beBytes 8 s.length ++ s) := by
              rw [hdata2, ← hbinv, List.drop_left]
            have hslt : s.length < 256 ^ 8 := by
              simp only [not_lt] at hlong
              unfold UINT64_MAX at hlong
              norm_num at hlong ⊢
              omega
            subst hP
            rw [hdrop, show b2.data.length - b.pos = 9 + s.length from by omega]
            refine ⟨.str s, st, ?_, rfl, hInv, BrExt_refl br, Nat.le_refl _⟩
            unfold decodeVal decodeValGo
            rw [show D ++ (LUA_TSTRING :: (beBytes 8 s.length ++ s)) ++ S
                = D ++ LUA_TSTRING :: (beBytes 8 s.length ++ (s ++ S)) from by simp]
            rw [readByte_front D LUA_TSTRING (beBytes 8 s.length ++ (s ++ S))
              L C (by omega) hLS]
            dsimp only
            rw [if_neg (by decide), if_neg (by decide), if_neg (by decide),
              if_neg (by decide), if_pos rfl]
            rw [show D ++ LUA_TSTRING :: (beBytes 8 s.length ++ (s ++ S))
                = (D ++ [LUA_TSTRING]) ++ beBytes 8 s.length ++ (s ++ S) from by simp]
            rw [show D.length + 1 = (D ++ [LUA_TSTRING]).length from by simp]
            rw [readBytes_front_n (D ++ [LUA_TSTRING]) (beBytes 8 s.length) (s ++ S)
              8 L C (beBytes_length _ _)
              (by simp only [List.length_append, List.length_cons,
                List.length_nil]; omega) hLS]
            dsimp only
            rw [beVal_beBytes_of_lt hslt]
            rw [show (D ++ [LUA_TSTRING]) ++ beBytes 8 s.length ++ (s ++ S)
                = (D ++ [LUA_TSTRING] ++ beBytes 8 s.length) ++ s ++ S from by simp]
            rw [show (D ++ [LUA_TSTRING]).length + 8
                = (D ++ [LUA_TSTRING] ++ beBytes 8 s.length).length from by
              simp [beBytes_length]]
            rw [readBytes_front_n (D ++ [LUA_TSTRING] ++ beBytes 8 s.length) s S
              s.length L C rfl
              (by simp only [List.length_append, List.length_cons, List.length_nil,
                beBytes_length]; omega) hLS]
            dsimp only
            rw [show (D ++ [LUA_TSTRING] ++ beBytes 8 s.length).length + s.length
                = D.length + (9 + s.length) from by
              simp only [List.length_append, List.length_cons, List.length_nil,
                beBytes_length]
              omega]
    | table r =>
      unfold encodeVal encodeValGo at henc
      dsimp only at henc
      split at henc
      · -- back-reference hit
        rename_i tt hbrk
        split at henc
        · exact absurd henc (by simp)
        · rename_i b1 hreq
          obtain ⟨hd, hp, hl, hmax, hcap⟩ := buffer_require_ok _ _ _ hreq
          simp only [Except.ok.injEq, Prod.mk.injEq] at henc
          obtain ⟨hb2, hbr2⟩ := henc
          subst hbr2
          obtain ⟨hdbr0, hlen0, hcnt0, hnd0, hbounds0, hinj0, hpend0, hcontent0⟩ := hInv
          obtain ⟨htt1, htt2⟩ := hbounds0 _ _ hbrk
          have httlt : tt < 2 ^ 63 := by
            unfold LUA_MAXINTEGER at hcnt0
            omega
          have hdata2 : b2.data
              = b.data ++ (MEMCACHED_TYPE_TABLEREF :: beBytes 8 tt) := by
            rw [← hb2, writeBytes_of_append _ _ (by rw [hd, hp, ← hbinv])]
            dsimp only
            rw [hd]
          have hlen2 : b2.data.length = b.pos + 9 := by
            rw [hdata2]
            simp only [List.length_append, List.length_cons, beBytes_length]
            omega
          have hdrop : b2.data.drop b.pos
              = MEMCACHED_TYPE_TABLEREF :: beBytes 8 tt := by
            rw [hdata2, ← hbinv, List.drop_left]
          subst hP
          rw [hdrop, show b2.data.length - b.pos = 9 from by omega]
          refine ⟨.table (tt - 1), st, ?_, ?_,
            ⟨hdbr0, hlen0, hcnt0, hnd0, hbounds0, hinj0, hpend0, hcontent0⟩,
            BrExt_refl br, Nat.le_refl _⟩
          · unfold decodeVal decodeValGo
            rw [show D ++ (MEMCACHED_TYPE_TABLEREF :: beBytes 8 tt) ++ S
                = D ++ MEMCACHED_TYPE_TABLEREF :: (beBytes 8 tt ++ S) from by simp]
            rw [readByte_front D MEMCACHED_TYPE_TABLEREF (beBytes 8 tt ++ S)
              L C (by omega) hLS]
            dsimp only
            rw [if_neg (by decide), if_neg (by decide), if_neg (by decide),
              if_neg (by decide), if_neg (by decide), if_neg (by decide),
              if_neg (by decide), if_neg (by decide), if_neg (by decide),
              if_neg (by decide), if_pos rfl]
            rw [show D ++ MEMCACHED_TYPE_TABLEREF :: (beBytes 8 tt ++ S)
                = (D ++ [MEMCACHED_TYPE_TABLEREF]) ++ beBytes 8 tt ++ S from by simp]
            rw [show D.length + 1 = (D ++ [MEMCACHED_TYPE_TABLEREF]).length from by
              simp]
            rw [readBytes_front_n (D ++ [MEMCACHED_TYPE_TABLEREF]) (beBytes 8 tt) S
              8 L C (beBytes_length _ _)
              (by simp only [List.length_append, List.length_cons,
                List.length_nil]; omega) hLS]
            dsimp only
            rw [uint64_ord_roundtrip httlt]
            rw [if_pos ⟨by exact_mod_cast htt1, by
              rw [hdbr0]
              simp only [List.length_range]
              exact_mod_cast htt2.trans (le_of_eq hlen0.symm)⟩]
            rw [show ((tt : Int)).toNat - 1 = tt - 1 from by
              simp [Int.toNat_natCast]]
            rw [hdbr0, range_get?_of_lt (by omega)]
            rw [show (D ++ [MEMCACHED_TYPE_TABLEREF]).length + 8 = D.length + 9 from by
              simp]
          · exact ⟨tt, hbrk, by
              rw [hdbr0]
              exact range_get?_of_lt (by omega)⟩
      · -- fresh table
        rename_i hbrk
        split at henc
        · exact absurd henc (by simp)
        · rename_i hcnt
          split at henc
          · exact absurd henc (by simp)
          · rename_i b1 hreq
            obtain ⟨hd, hp, hl, hmax, hcap⟩ := buffer_require_ok _ _ _ hreq
            split at henc
            · exact absurd henc (by simp)
            · rename_i bp brp narr nrec heqp
              split at henc
              · exact absurd henc (by simp)
              · rename_i b3 heqf
                simp only [Except.ok.injEq, Prod.mk.injEq] at henc
                obtain ⟨hb3, hbr2⟩ := henc
                subst hb3
                subst hbr2
                have hbl1 : b1.data.length = b1.pos := by
                  rw [hd, hp, ← hbinv]
                have hinv1 : (writeBytes b1 [MEMCACHED_TYPE_TABLE8, 0, 0]).data.length
                    = (writeBytes b1 [MEMCACHED_TYPE_TABLE8, 0, 0]).pos := by
                  rw [writeBytes_of_append _ _ (by rw [hd, hp, ← hbinv])]
                  simp [hd, hp, hbinv]
                have hcle : narr ≤ LUA_MAXINTEGER ∧ nrec ≤ LUA_MAXINTEGER :=
                  encodePairs_le_max H f _ _ _ _ _ _ _ _ _ heqp
                    (by omega) (by omega)
                obtain ⟨hp1, hp2, -, -, hp5, -, -, Wp, hp6⟩ :=
                  encodePairs_ext f (encodeVal_ext f) _ _ _ _ _ _ _ _ _ _ heqp hinv1
                rw [writeBytes_of_append _ _ (by rw [hd, hp, ← hbinv])] at hp2 hp5 hp6
                obtain ⟨dp, pp, lp, cp⟩ := bp
                dsimp only at hp1 hp2 hp5 hp6 heqf heqp
                have hdp : dp = b1.data ++ MEMCACHED_TYPE_TABLE8 :: 0 :: 0 :: Wp := by
                  rw [hp6]
                  simp
                have hpp : pp = b1.data.length + 3 + Wp.length := by
                  rw [← hp1, hdp]
                  simp only [List.length_append, List.length_cons]
                  omega
                rw [hdp, hpp,
                  show b1.pos + 1 = b1.data.length + 1 from by rw [hbl1]] at heqf
                have hW14 : ¬(narr ≤ 255 ∧ nrec ≤ 255) → 14 ≤ Wp.length := by
                  intro hc
                  simp only [List.length_cons, List.length_nil] at hp5
                  omega
                obtain ⟨hf1, hf2, hf3, -, -⟩ := finishTable_spec _ _ _ _ _ _ _ hW14 heqf
                have hdata2 : b3.data
                    = b.data ++ (tagFor narr nrec :: (sizeBytes narr nrec ++ Wp)) := by
                  rw [hf1, hd]
                have hdrop : b3.data.drop b.pos
                    = tagFor narr nrec :: (sizeBytes narr nrec ++ Wp) := by
                  rw [hdata2, ← hbinv, List.drop_left]
                have hlen2 : b3.data.length
                    = b.pos + 1 + (sizeBytes narr nrec).length + Wp.length := by
                  rw [hdata2]
                  simp only [List.length_append, List.length_cons]
                  omega
                -- invariant bookkeeping for the new table
                obtain ⟨hdbr0, hlen0, hcnt0, hnd0, hbounds0, hinj0, hpend0, hcontent0⟩ :=
                  hInv
                have hrnotpend : ∀ p ∈ pend, p.1 ≠ r := by
                  intro p hp2m hpr
                  obtain ⟨tp, htp⟩ := hpend0 p hp2m
                  rw [hpr, hbrk] at htp
                  simp at htp
                have hsrcr : srcEntries H pend r = H.getD r [] := by
                  unfold srcEntries
                  have hfn : pend.find? (fun p => p.1 = r) = none := by
                    rw [List.find?_eq_none]
                    intro p hp2m
                    simp only [decide_eq_true_eq]
                    exact hrnotpend p hp2m
                  rw [hfn]
                  rfl
                have hlkNr : brLookup ⟨(r, br.cnt + 1) :: br.assoc, br.cnt + 1⟩ r
                    = some (br.cnt + 1) := by
                  rw [brLookup_cons br.assoc _ br.cnt, if_pos rfl]
                have hlkNo : ∀ r2, r2 ≠ r →
                    brLookup ⟨(r, br.cnt + 1) :: br.assoc, br.cnt + 1⟩ r2
                      = brLookup ⟨br.assoc, br.cnt⟩ r2 := by
                  intro r2 hne
                  rw [brLookup_cons br.assoc _ br.cnt,
                    if_neg (fun he => hne he.symm)]
                have hbrfull : br = ⟨br.assoc, br.cnt⟩ := rfl
                have hBrN : BrExt br ⟨(r, br.cnt + 1) :: br.assoc, br.cnt + 1⟩ := by
                  refine ⟨?_, by dsimp only; omega⟩
                  intro r2 t2 hl2
                  have hne : r2 ≠ r := by
                    intro he
                    rw [he, hbrk] at hl2
                    simp at hl2
                  rw [hlkNo r2 hne]
                  exact hl2
                have hdmonoN : ∀ i d, st.dbr.get? i = some d →
                    (st.dbr ++ [st.dheap.length]).get? i = some d := by
                  intro i d hdm
                  rw [get?_append_left (get?_some_lt hdm)]
                  exact hdm
                have hInvN : Inv H ⟨(r, br.cnt + 1) :: br.assoc, br.cnt + 1⟩
                    ⟨st.dheap ++ [[]], st.dbr ++ [st.dheap.length]⟩ ((r, []) :: pend) := by
                  refine ⟨?_, ?_, ?_, ?_, ?_, ?_, ?_, ?_⟩
                  · dsimp only
                    rw [hdbr0]
                    have hlennew : (st.dheap ++ ([[]] : List TableData)).length
                        = st.dheap.length + 1 := by simp
                    rw [hlennew, ← List.range_succ]
                  · dsimp only
                    simp only [List.length_append, List.length_cons, List.length_nil]
                    omega
                  · dsimp only
                    unfold LUA_MAXINTEGER at *
                    omega
                  · dsimp only
                    simp only [List.map_cons, List.nodup_cons]
                    refine ⟨?_, hnd0⟩
                    intro hmem
                    obtain ⟨pq, hpmem, hpfst⟩ := List.mem_map.mp hmem
                    obtain ⟨p1, p2⟩ := pq
                    dsimp only at hpfst
                    subst hpfst
                    exact brLookup_none hbrk p2 hpmem
                  · intro r2 t2 hl2
                    by_cases he : r2 = r
                    · subst he
                      rw [hlkNr] at hl2
                      have : t2 = br.cnt + 1 := (Option.some.inj hl2).symm
                      subst this
                      dsimp only
                      omega
                    · rw [hlkNo r2 he] at hl2
                      have := hbounds0 r2 t2 hl2
                      dsimp only
                      omega
                  · intro r1 r2 t2 hl1 hl2
                    by_cases he1 : r1 = r
                    · by_cases he2 : r2 = r
                      · rw [he1, he2]
                      · subst he1
                        rw [hlkNr] at hl1
                        rw [hlkNo r2 he2] at hl2
                        have hb2 := (hbounds0 r2 t2 hl2).2
                        have : t2 = br.cnt + 1 := (Option.some.inj hl1).symm
                        omega
                    · by_cases he2 : r2 = r
                      · subst he2
                        rw [hlkNr] at hl2
                        rw [hlkNo r1 he1] at hl1
                        have hb1 := (hbounds0 r1 t2 hl1).2
                        have : t2 = br.cnt + 1 := (Option.some.inj hl2).symm
                        omega
                      · rw [hlkNo r1 he1] at hl1
                        rw [hlkNo r2 he2] at hl2
                        exact hinj0 r1 r2 t2 hl1 hl2
                  · intro pq hpq
                    rcases List.mem_cons.mp hpq with he | hm
                    · exact ⟨br.cnt + 1, by rw [he]; exact hlkNr⟩
                    · obtain ⟨tp, htp⟩ := hpend0 pq hm
                      exact ⟨tp, by
                        rw [hlkNo pq.1 (hrnotpend pq hm)]
                        exact htp⟩
                  · intro r2 t2 hl2
                    by_cases he : r2 = r
                    · subst he
                      rw [hlkNr] at hl2
                      have : t2 = br.cnt + 1 := (Option.some.inj hl2).symm
                      subst this
                      refine ⟨[], ?_, ?_⟩
                      · dsimp only
                        rw [show br.cnt + 1 - 1 = st.dheap.length from by omega]
                        rw [List.get?_eq_getElem?,
                          List.getElem?_append_right (Nat.le_refl _)]
                        simp
                      · rw [srcEntries_head]
                        exact List.Forall₂.nil
                    · rw [hlkNo r2 he] at hl2
                      obtain ⟨D2, hD2, hE2⟩ := hcontent0 r2 t2 hl2
                      obtain ⟨hb21, hb22⟩ := hbounds0 r2 t2 hl2
                      refine ⟨D2, ?_, ?_⟩
                      · dsimp only
                        rw [get?_append_left (by
                          have := get?_some_lt hD2
                          omega)]
                        exact hD2
                      · rw [srcEntries_tail _ _ _ _ _ (fun hee => he hee.symm)]
                        refine EntriesRel_mono ?_ ?_ hE2
                        · exact hBrN.1
                        · exact hdmonoN
                -- the pair-loop simulation over the whole table
                have hbwpos : (writeBytes b1 [MEMCACHED_TYPE_TABLE8, 0, 0]).pos
                    = b1.pos + 3 := by
                  simp [writeBytes]
                have hdp2 : dp = (b1.data ++ [MEMCACHED_TYPE_TABLE8, 0, 0]) ++ Wp := by
                  rw [hdp]
                  simp
                have hdplen : dp.length = b1.data.length + 3 + Wp.length := by
                  rw [hdp]
                  simp only [List.length_append, List.length_cons]
                  omega
                have hdropP : (MBuffer.mk dp pp lp cp).data.drop
                    (writeBytes b1 [MEMCACHED_TYPE_TABLE8, 0, 0]).pos = Wp := by
                  dsimp only
                  rw [hbwpos, hdp2,
                    show b1.pos + 3
                      = (b1.data ++ [MEMCACHED_TYPE_TABLE8, 0, 0]).length from by
                    simp only [List.length_append, List.length_cons, List.length_nil]
                    omega]
                  rw [List.drop_left]
                have hP2 : P = (D ++ tagFor narr nrec :: sizeBytes narr nrec)
                    ++ (MBuffer.mk dp pp lp cp).data.drop
                        (writeBytes b1 [MEMCACHED_TYPE_TABLE8, 0, 0]).pos ++ S := by
                  rw [hdropP, hP, hdrop]
                  simp
                obtain ⟨stF, hdpairs, hInvF, hBrPairs, hdlenF, -, -⟩ :=
                  ihPairs H (H.getD r []) (writeBytes b1 [MEMCACHED_TYPE_TABLE8, 0, 0])
                    ⟨(r, br.cnt + 1) :: br.assoc, br.cnt + 1⟩ 0 0
                    (MBuffer.mk dp pp lp cp) brp narr nrec
                    ⟨st.dheap ++ [[]], st.dbr ++ [st.dheap.length]⟩ pend r (br.cnt + 1)
                    [] hWF heqp hInvN hlkNr (by simp) hinv1
                    P (D ++ tagFor narr nrec :: sizeBytes narr nrec) S L C hP2
                    (by
                      dsimp only
                      rw [hbwpos]
                      simp only [List.length_append, List.length_cons]
                      omega) hLS
                dsimp only at hdpairs
                rw [hbwpos] at hdpairs
                rw [show br.cnt + 1 - 1 = st.dheap.length from by omega] at hdpairs
                rw [show narr + nrec - (0 + 0) = narr + nrec from by omega] at hdpairs
                rw [List.nil_append] at hInvF
                -- the final invariant, with the completed table folded back into the heap
                have hInvFinal : Inv H brp stF pend := by
                  obtain ⟨f1, f2, f3, f4, f5, f6, f7, f8⟩ := hInvF
                  refine ⟨f1, f2, f3, f4, f5, f6, ?_, ?_⟩
                  · intro pq hpq
                    exact f7 pq (List.mem_cons_of_mem _ hpq)
                  · intro r2 t2 hl2
                    obtain ⟨D2, hD2, hE2⟩ := f8 r2 t2 hl2
                    by_cases he : r2 = r
                    · subst he
                      refine ⟨D2, hD2, ?_⟩
                      rw [srcEntries_head] at hE2
                      rw [hsrcr]
                      exact hE2
                    · rw [srcEntries_tail _ _ _ _ _ (fun hee => he hee.symm)] at hE2
                      exact ⟨D2, hD2, hE2⟩
                have hlkF : brLookup brp r = some (br.cnt + 1) :=
                  hBrPairs.1 _ _ hlkNr
                have hst1len : (DecSt.mk (st.dheap ++ [[]])
                    (st.dbr ++ [st.dheap.length])).dheap.length
                    = st.dheap.length + 1 := by
                  simp
                have hRfinal : RelVal brp stF.dbr (.table r) (.table st.dheap.length) := by
                  refine ⟨br.cnt + 1, hlkF, ?_⟩
                  rw [hInvF.1]
                  rw [show br.cnt + 1 - 1 = st.dheap.length from by omega]
                  refine range_get?_of_lt ?_
                  have := hdlenF
                  rw [hst1len] at this
                  omega
                have hdlenfin : st.dheap.length ≤ stF.dheap.length := by
                  have := hdlenF
                  rw [hst1len] at this
                  omega
                have hBrFinal : BrExt br brp := BrExt_trans hBrN hBrPairs
                subst hP
                rw [hdrop] at hdpairs ⊢
                by_cases hc8 : narr ≤ 255 ∧ nrec ≤ 255
                · have ht : tagFor narr nrec = MEMCACHED_TYPE_TABLE8 := by
                    unfold tagFor
                    rw [if_pos hc8]
                  have hs : sizeBytes narr nrec = [narr, nrec] := by
                    unfold sizeBytes
                    rw [if_pos hc8]
                  have hszlen : (sizeBytes narr nrec).length = 2 := by
                    rw [hs]
                    rfl
                  rw [ht, hs] at hdpairs ⊢
                  refine ⟨.table st.dheap.length, stF, ?_, hRfinal, hInvFinal,
                    hBrFinal, hdlenfin⟩
                  unfold decodeVal decodeValGo
                  rw [show D ++ (MEMCACHED_TYPE_TABLE8 :: ([narr, nrec] ++ Wp)) ++ S
                      = D ++ MEMCACHED_TYPE_TABLE8 :: (narr :: nrec :: (Wp ++ S)) from by
                    simp]
                  rw [readByte_front D MEMCACHED_TYPE_TABLE8 (narr :: nrec :: (Wp ++ S))
                    L C (by omega) hLS]
                  dsimp only
                  rw [if_neg (by decide), if_neg (by decide), if_neg (by decide),
                    if_neg (by decide), if_neg (by decide), if_neg (by decide),
                    if_pos rfl]
                  rw [buffer_avail_ok_of _ (1 + 1) (by dsimp only; omega) hLS]
                  dsimp only
                  rw [show D ++ MEMCACHED_TYPE_TABLE8 :: (narr :: nrec :: (Wp ++ S))
                      = (D ++ [MEMCACHED_TYPE_TABLE8]) ++ narr :: (nrec :: (Wp ++ S))
                      from by simp]
                  rw [show D.length + 1 = (D ++ [MEMCACHED_TYPE_TABLE8]).length from by
                    simp]
                  rw [readByte_front (D ++ [MEMCACHED_TYPE_TABLE8]) narr
                    (nrec :: (Wp ++ S)) L C
                    (by simp only [List.length_append, List.length_cons,
                      List.length_nil]; omega) hLS]
                  dsimp only
                  rw [show (D ++ [MEMCACHED_TYPE_TABLE8]) ++ narr :: (nrec :: (Wp ++ S))
                      = (D ++ [MEMCACHED_TYPE_TABLE8, narr]) ++ nrec :: (Wp ++ S)
                      from by simp]
                  rw [show (D ++ [MEMCACHED_TYPE_TABLE8]).length + 1
                      = (D ++ [MEMCACHED_TYPE_TABLE8, narr]).length from by simp]
                  rw [readByte_front (D ++ [MEMCACHED_TYPE_TABLE8, narr]) nrec
                    (Wp ++ S) L C
                    (by simp only [List.length_append, List.length_cons,
                      List.length_nil]; omega) hLS]
                  dsimp only
                  rw [show (D ++ [MEMCACHED_TYPE_TABLE8, narr]) ++ nrec :: (Wp ++ S)
                      = D ++ (MEMCACHED_TYPE_TABLE8 :: (narr :: nrec :: Wp)) ++ S
                      from by simp]
                  rw [show (D ++ [MEMCACHED_TYPE_TABLE8, narr]).length + 1
                      = (D ++ MEMCACHED_TYPE_TABLE8 :: [narr, nrec]).length from by
                    simp]
                  rw [show D ++ (MEMCACHED_TYPE_TABLE8 :: (narr :: nrec :: Wp)) ++ S
                      = D ++ (MEMCACHED_TYPE_TABLE8 :: ([narr, nrec] ++ Wp)) ++ S
                      from by simp]
                  unfold decodePairs at hdpairs
                  rw [decodePairsGo_add (decodeVal f) st.dheap.length narr nrec]
                    at hdpairs
                  split at hdpairs
                  · exact absurd hdpairs (by simp)
                  · rename_i bs1 bm stm hA
                    unfold decodetableGo
                    rw [hA]
                    dsimp only
                    rw [hdpairs]
                    dsimp only
                    rw [show D.length + (b3.data.length - b.pos)
                        = (D ++ MEMCACHED_TYPE_TABLE8 :: [narr, nrec]).length
                          + (dp.length - (b1.pos + 3)) from by
                      simp only [List.length_append, List.length_cons, List.length_nil]
                      omega]
                · by_cases hc16 : narr ≤ 65535 ∧ nrec ≤ 65535
                  · have ht : tagFor narr nrec = MEMCACHED_TYPE_TABLE16 := by
                      unfold tagFor
                      rw [if_neg hc8, if_pos hc16]
                    have hs : sizeBytes narr nrec
                        = beBytes 2 narr ++ beBytes 2 nrec := by
                      unfold sizeBytes
                      rw [if_neg hc8, if_pos hc16]
                    have hszlen : (sizeBytes narr nrec).length = 4 := by
                      rw [hs]
                      simp [beBytes_length]
                    rw [ht, hs] at hdpairs ⊢
                    refine ⟨.table st.dheap.length, stF, ?_, hRfinal, hInvFinal,
                      hBrFinal, hdlenfin⟩
                    unfold decodeVal decodeValGo
                    rw [show D ++ (MEMCACHED_TYPE_TABLE16
                          :: ((beBytes 2 narr ++ beBytes 2 nrec) ++ Wp)) ++ S
                        = D ++ MEMCACHED_TYPE_TABLE16
                          :: (beBytes 2 narr ++ (beBytes 2 nrec ++ (Wp ++ S)))
                        from by simp]
                    rw [readByte_front D MEMCACHED_TYPE_TABLE16
                      (beBytes 2 narr ++ (beBytes 2 nrec ++ (Wp ++ S))) L C
                      (by omega) hLS]
                    dsimp only
                    rw [if_neg (by decide), if_neg (by decide), if_neg (by decide),
                      if_neg (by decide), if_neg (by decide), if_neg (by decide),
                      if_neg (by decide), if_pos rfl]
                    rw [buffer_avail_ok_of _ (2 + 2) (by dsimp only; omega) hLS]
                    dsimp only
                    rw [show D ++ MEMCACHED_TYPE_TABLE16
                          :: (beBytes 2 narr ++ (beBytes 2 nrec ++ (Wp ++ S)))
                        = (D ++ [MEMCACHED_TYPE_TABLE16]) ++ beBytes 2 narr
                          ++ (beBytes 2 nrec ++ (Wp ++ S)) from by simp]
                    rw [show D.length + 1
                        = (D ++ [MEMCACHED_TYPE_TABLE16]).length from by simp]
                    rw [readBytes_front_n (D ++ [MEMCACHED_TYPE_TABLE16])
                      (beBytes 2 narr) (beBytes 2 nrec ++ (Wp ++ S)) 2 L C
                      (beBytes_length _ _)
                      (by simp only [List.length_append, List.length_cons,
                        List.length_nil]; omega) hLS]
                    dsimp only
                    rw [show (D ++ [MEMCACHED_TYPE_TABLE16]) ++ beBytes 2 narr
                          ++ (beBytes 2 nrec ++ (Wp ++ S))
                        = (D ++ [MEMCACHED_TYPE_TABLE16] ++ beBytes 2 narr)
                          ++ beBytes 2 nrec ++ (Wp ++ S) from by simp]
                    rw [show (D ++ [MEMCACHED_TYPE_TABLE16]).length + 2
                        = (D ++ [MEMCACHED_TYPE_TABLE16] ++ beBytes 2 narr).length
                        from by simp [beBytes_length]]
                    rw [readBytes_front_n
                      (D ++ [MEMCACHED_TYPE_TABLE16] ++ beBytes 2 narr)
                      (beBytes 2 nrec) (Wp ++ S) 2 L C (beBytes_length _ _)
                      (by simp only [List.length_append, List.length_cons,
                        List.length_nil, beBytes_length]; omega) hLS]
                    dsimp only
                    rw [beVal_beBytes_of_lt (show narr < 256 ^ 2 from by
                        norm_num; omega),
                      beVal_beBytes_of_lt (show nrec < 256 ^ 2 from by
                        norm_num; omega)]
                    rw [show (D ++ [MEMCACHED_TYPE_TABLE16] ++ beBytes 2 narr)
                          ++ beBytes 2 nrec ++ (Wp ++ S)
                        = D ++ (MEMCACHED_TYPE_TABLE16
                          :: ((beBytes 2 narr ++ beBytes 2 nrec) ++ Wp)) ++ S
                        from by simp]
                    rw [show (D ++ [MEMCACHED_TYPE_TABLE16] ++ beBytes 2 narr).length + 2
                        = (D ++ MEMCACHED_TYPE_TABLE16
                          :: (beBytes 2 narr ++ beBytes 2 nrec)).length
                        from by simp [beBytes_length]]
                    unfold decodePairs at hdpairs
                    rw [decodePairsGo_add (decodeVal f) st.dheap.length narr nrec]
                      at hdpairs
                    split at hdpairs
                    · exact absurd hdpairs (by simp)
                    · rename_i bs1 bm stm hA
                      unfold decodetableGo
                      rw [hA]
                      dsimp only
                      rw [hdpairs]
                      dsimp only
                      rw [show D.length + (b3.data.length - b.pos)
                          = (D ++ MEMCACHED_TYPE_TABLE16
                            :: (beBytes 2 narr ++ beBytes 2 nrec)).length
                            + (dp.length - (b1.pos + 3)) from by
                        simp only [List.length_append, List.length_cons,
                          List.length_nil, beBytes_length]
                        omega]
                  · by_cases hc32 : narr ≤ 4294967295 ∧ nrec ≤ 4294967295
                    · have ht : tagFor narr nrec = MEMCACHED_TYPE_TABLE32 := by
                        unfold tagFor
                        rw [if_neg hc8, if_neg hc16, if_pos hc32]
                      have hs : sizeBytes narr nrec
                          = beBytes 4 narr ++ beBytes 4 nrec := by
                        unfold sizeBytes
                        rw [if_neg hc8, if_neg hc16, if_pos hc32]
                      have hszlen : (sizeBytes narr nrec).length = 8 := by
                        rw [hs]
                        simp [beBytes_length]
                      rw [ht, hs] at hdpairs ⊢
                      refine ⟨.table st.dheap.length, stF, ?_, hRfinal, hInvFinal,
                        hBrFinal, hdlenfin⟩
                      unfold decodeVal decodeValGo
                      rw [show D ++ (MEMCACHED_TYPE_TABLE32
                            :: ((beBytes 4 narr ++ beBytes 4 nrec) ++ Wp)) ++ S
                          = D ++ MEMCACHED_TYPE_TABLE32
                            :: (beBytes 4 narr ++ (beBytes 4 nrec ++ (Wp ++ S)))
                          from by simp]
                      rw [readByte_front D MEMCACHED_TYPE_TABLE32
                        (beBytes 4 narr ++ (beBytes 4 nrec ++ (Wp ++ S))) L C
                        (by omega) hLS]
                      dsimp only
                      rw [if_neg (by decide), if_neg (by decide), if_neg (by decide),
                        if_neg (by decide), if_neg (by decide), if_neg (by decide),
                        if_neg (by decide), if_neg (by decide), if_pos rfl]
                      rw [buffer_avail_ok_of _ (4 + 4) (by dsimp only; omega) hLS]
                      dsimp only
                      rw [show D ++ MEMCACHED_TYPE_TABLE32
                            :: (beBytes 4 narr ++ (beBytes 4 nrec ++ (Wp ++ S)))
                          = (D ++ [MEMCACHED_TYPE_TABLE32]) ++ beBytes 4 narr
                            ++ (beBytes 4 nrec ++ (Wp ++ S)) from by simp]
                      rw [show D.length + 1
                          = (D ++ [MEMCACHED_TYPE_TABLE32]).length from by simp]
                      rw [readBytes_front_n (D ++ [MEMCACHED_TYPE_TABLE32])
                        (beBytes 4 narr) (beBytes 4 nrec ++ (Wp ++ S)) 4 L C
                        (beBytes_length _ _)
                        (by simp only [List.length_append, List.length_cons,
                          List.length_nil]; omega) hLS]
                      dsimp only
                      rw [show (D ++ [MEMCACHED_TYPE_TABLE32]) ++ beBytes 4 narr
                            ++ (beBytes 4 nrec ++ (Wp ++ S))
                          = (D ++ [MEMCACHED_TYPE_TABLE32] ++ beBytes 4 narr)
                            ++ beBytes 4 nrec ++ (Wp ++ S) from by simp]
                      rw [show (D ++ [MEMCACHED_TYPE_TABLE32]).length + 4
                          = (D ++ [MEMCACHED_TYPE_TABLE32] ++ beBytes 4 narr).length
                          from by simp [beBytes_length]]
                      rw [readBytes_front_n
                        (D ++ [MEMCACHED_TYPE_TABLE32] ++ beBytes 4 narr)
                        (beBytes 4 nrec) (Wp ++ S) 4 L C (beBytes_length _ _)
                        (by simp only [List.length_append, List.length_cons,
                          List.length_nil, beBytes_length]; omega) hLS]
                      dsimp only
                      rw [beVal_beBytes_of_lt (show narr < 256 ^ 4 from by
                          norm_num; omega),
                        beVal_beBytes_of_lt (show nrec < 256 ^ 4 from by
                          norm_num; omega)]
                      rw [show (D ++ [MEMCACHED_TYPE_TABLE32] ++ beBytes 4 narr)
                            ++ beBytes 4 nrec ++ (Wp ++ S)
                          = D ++ (MEMCACHED_TYPE_TABLE32
                            :: ((beBytes 4 narr ++ beBytes 4 nrec) ++ Wp)) ++ S
                          from by simp]
                      rw [show (D ++ [MEMCACHED_TYPE_TABLE32]
                            ++ beBytes 4 narr).length + 4
                          = (D ++ MEMCACHED_TYPE_TABLE32
                            :: (beBytes 4 narr ++ beBytes 4 nrec)).length
                          from by simp [beBytes_length]]
                      unfold decodePairs at hdpairs
                      rw [decodePairsGo_add (decodeVal f) st.dheap.length narr nrec]
                        at hdpairs
                      split at hdpairs
                      · exact absurd hdpairs (by simp)
                      · rename_i bs1 bm stm hA
                        unfold decodetableGo
                        rw [hA]
                        dsimp only
                        rw [hdpairs]
                        dsimp only
                        rw [show D.length + (b3.data.length - b.pos)
                            = (D ++ MEMCACHED_TYPE_TABLE32
                              :: (beBytes 4 narr ++ beBytes 4 nrec)).length
                              + (dp.length - (b1.pos + 3)) from by
                          simp only [List.length_append, List.length_cons,
                            List.length_nil, beBytes_length]
                          omega]
                    · have ht : tagFor narr nrec = MEMCACHED_TYPE_TABLE64 := by
                        unfold tagFor
                        rw [if_neg hc8, if_neg hc16, if_neg hc32]
                      have hs : sizeBytes narr nrec
                          = beBytes 8 narr ++ beBytes 8 nrec := by
                        unfold sizeBytes
                        rw [if_neg hc8, if_neg hc16, if_neg hc32]
                      have hszlen : (sizeBytes narr nrec).length = 16 := by
                        rw [hs]
                        simp [beBytes_length]
                      have hnarrlt : narr < 2 ^ 63 := by
                        have h1 := hcle.1
                        unfold LUA_MAXINTEGER at h1
                        norm_num at h1 ⊢
                        omega
                      have hnreclt : nrec < 2 ^ 63 := by
                        have h1 := hcle.2
                        unfold LUA_MAXINTEGER at h1
                        norm_num at h1 ⊢
                        omega
                      rw [ht, hs] at hdpairs ⊢
                      refine ⟨.table st.dheap.length, stF, ?_, hRfinal, hInvFinal,
                        hBrFinal, hdlenfin⟩
                      unfold decodeVal decodeValGo
                      rw [show D ++ (MEMCACHED_TYPE_TABLE64
                            :: ((beBytes 8 narr ++ beBytes 8 nrec) ++ Wp)) ++ S
                          = D ++ MEMCACHED_TYPE_TABLE64
                            :: (beBytes 8 narr ++ (beBytes 8 nrec ++ (Wp ++ S)))
                          from by simp]
                      rw [readByte_front D MEMCACHED_TYPE_TABLE64
                        (beBytes 8 narr ++ (beBytes 8 nrec ++ (Wp ++ S))) L C
                        (by omega) hLS]
                      dsimp only
                      rw [if_neg (by decide), if_neg (by decide), if_neg (by decide),
                        if_neg (by decide), if_neg (by decide), if_neg (by decide),
                        if_neg (by decide), if_neg (by decide), if_neg (by decide),
                        if_pos rfl]
                      rw [buffer_avail_ok_of _ (8 + 8) (by dsimp only; omega) hLS]
                      dsimp only
                      rw [show D ++ MEMCACHED_TYPE_TABLE64
                            :: (beBytes 8 narr ++ (beBytes 8 nrec ++ (Wp ++ S)))
                          = (D ++ [MEMCACHED_TYPE_TABLE64]) ++ beBytes 8 narr
                            ++ (beBytes 8 nrec ++ (Wp ++ S)) from by simp]
                      rw [show D.length + 1
                          = (D ++ [MEMCACHED_TYPE_TABLE64]).length from by simp]
                      rw [readBytes_front_n (D ++ [MEMCACHED_TYPE_TABLE64])
                        (beBytes 8 narr) (beBytes 8 nrec ++ (Wp ++ S)) 8 L C
                        (beBytes_length _ _)
                        (by simp only [List.length_append, List.length_cons,
                          List.length_nil]; omega) hLS]
                      dsimp only
                      rw [show (D ++ [MEMCACHED_TYPE_TABLE64]) ++ beBytes 8 narr
                            ++ (beBytes 8 nrec ++ (Wp ++ S))
                          = (D ++ [MEMCACHED_TYPE_TABLE64] ++ beBytes 8 narr)
                            ++ beBytes 8 nrec ++ (Wp ++ S) from by simp]
                      rw [show (D ++ [MEMCACHED_TYPE_TABLE64]).length + 8
                          = (D ++ [MEMCACHED_TYPE_TABLE64] ++ beBytes 8 narr).length
                          from by simp [beBytes_length]]
                      rw [readBytes_front_n
                        (D ++ [MEMCACHED_TYPE_TABLE64] ++ beBytes 8 narr)
                        (beBytes 8 nrec) (Wp ++ S) 8 L C (beBytes_length _ _)
                        (by simp only [List.length_append, List.length_cons,
                          List.length_nil, beBytes_length]; omega) hLS]
                      dsimp only
                      rw [uint64_ord_roundtrip hnarrlt, uint64_ord_roundtrip hnreclt]
                      rw [if_neg (by simp)]
                      rw [Int.toNat_natCast, Int.toNat_natCast]
                      rw [show (D ++ [MEMCACHED_TYPE_TABLE64] ++ beBytes 8 narr)
                            ++ beBytes 8 nrec ++ (Wp ++ S)
                          = D ++ (MEMCACHED_TYPE_TABLE64
                            :: ((beBytes 8 narr ++ beBytes 8 nrec) ++ Wp)) ++ S
                          from by simp]
                      rw [show (D ++ [MEMCACHED_TYPE_TABLE64]
                            ++ beBytes 8 narr).length + 8
                          = (D ++ MEMCACHED_TYPE_TABLE64
                            :: (beBytes 8 narr ++ beBytes 8 nrec)).length
                          from by simp [beBytes_length]]
                      unfold decodePairs at hdpairs
                      rw [decodePairsGo_add (decodeVal f) st.dheap.length narr nrec]
                        at hdpairs
                      split at hdpairs
                      · exact absurd hdpairs (by simp)
                      · rename_i bs1 bm stm hA
                        unfold decodetableGo
                        rw [hA]
                        dsimp only
                        rw [hdpairs]
                        dsimp only
                        rw [show D.length + (b3.data.length - b.pos)
                            = (D ++ MEMCACHED_TYPE_TABLE64
                              :: (beBytes 8 narr ++ beBytes 8 nrec)).length
                              + (dp.length - (b1.pos + 3)) from by
                          simp only [List.length_append, List.length_cons,
                            List.length_nil, beBytes_length]
                          omega]

theorem filtSup_eq_self {t : TableData}
    (h : ∀ kv ∈ t, supported kv.1 = true ∧ supported kv.2 = true) :
    filtSup t = t := by
  unfold filtSup
  rw [List.filter_eq_self]
  intro kv hkv
  simp [(h kv hkv).1, (h kv hkv).2]

theorem mval_of_rel {br : Backrefs} {st : DecSt}
    (hdbr : st.dbr = List.range st.dheap.length)
    {x y : LValue} (h : RelVal br st.dbr x y) :
    MVal (br.assoc.map (fun p => (p.1, p.2 - 1))) x y := by
  cases x <;> cases y <;> simp only [RelVal, MVal] at h ⊢ <;> try exact h
  obtain ⟨t, hl, hg⟩ := h
  rw [hdbr] at hg
  obtain ⟨he, -⟩ := range_get?_eq hg
  refine List.mem_map.mpr ⟨(_, t), brLookup_mem hl, ?_⟩
  simp [he]

theorem filtEquiv_of_rel {H : Heap} {v v' : LValue} {br : Backrefs} {st : DecSt}
    (hR : RelVal br st.dbr v v') (hI : Inv H br st []) :
    FiltEquiv H v st.dheap v' := by
  obtain ⟨hdbr, hlen, hcnt, hnd, hbounds, hinj, -, hcontent⟩ := hI
  refine ⟨br.assoc.map (fun p => (p.1, p.2 - 1)), ?_, mval_of_rel hdbr hR, ?_⟩
  · intro p hp q hq
    obtain ⟨p0, hp0, hpe⟩ := List.mem_map.mp hp
    obtain ⟨q0, hq0, hqe⟩ := List.mem_map.mp hq
    obtain ⟨p1, p2⟩ := p0
    obtain ⟨q1, q2⟩ := q0
    subst hpe
    subst hqe
    dsimp only
    have hlp : brLookup br p1 = some p2 := brLookup_of_mem br.assoc br.cnt hnd _ _ hp0
    have hlq : brLookup br q1 = some q2 := brLookup_of_mem br.assoc br.cnt hnd _ _ hq0
    have hbp := hbounds _ _ hlp
    have hbq := hbounds _ _ hlq
    constructor
    · intro he
      subst he
      rw [hlp] at hlq
      have := Option.some.inj hlq
      omega
    · intro he
      have hpq : p2 = q2 := by omega
      subst hpq
      exact hinj _ _ _ hlp hlq
  · intro p hp
    obtain ⟨p0, hp0, hpe⟩ := List.mem_map.mp hp
    obtain ⟨p1, p2⟩ := p0
    subst hpe
    dsimp only
    have hlp : brLookup br p1 = some p2 := brLookup_of_mem br.assoc br.cnt hnd _ _ hp0
    obtain ⟨Dt, hDt, hE⟩ := hcontent _ _ hlp
    rw [show srcEntries H [] p1 = H.getD p1 [] from by unfold srcEntries; rfl] at hE
    rw [getD_of_get? hDt]
    exact List.Forall₂.imp
      (fun a c hac => ⟨mval_of_rel hdbr hac.1, mval_of_rel hdbr hac.2⟩) hE

theorem heapEquiv_of_filt {H : Heap} {v : LValue} {G : Heap} {w : LValue}
    (hall : ∀ td ∈ H, ∀ kv ∈ td, supported kv.1 = true ∧ supported kv.2 = true)
    (h : FiltEquiv H v G w) : HeapEquiv H v G w := by
  obtain ⟨m, h1, h2, h3⟩ := h
  refine ⟨m, h1, h2, ?_⟩
  intro p hp
  have hme := h3 p hp
  have hfs : filtSup (H.getD p.1 []) = H.getD p.1 [] := by
    by_cases hr : H.getD p.1 [] = []
    · rw [hr]
      rfl
    · exact filtSup_eq_self (hall _ (heap_getD_mem H _ hr))
  rw [hfs] at hme
  exact hme

theorem mencode_roundtrip (H : Heap) (fuel : Nat) (v : LValue) (b : MBuffer)
    (hWF : WFHeap H) (hWFv : WFVal v)
    (henc : mencodeModel H fuel v = .ok b) :
    ∃ v' b1 st, mdecodeModel fuel b = .ok (v', b1, st) ∧
      ∃ br, RelVal br st.dbr v v' ∧ Inv H br st [] := by
  unfold mencodeModel at henc
  rw [show buffer_require (MBuffer.mk [] 0 0 MEMCACHED_BUFFER_SIZE)
      MEMCACHED_CODEC_VERSION.length
      = .ok (MBuffer.mk [] 0 0 MEMCACHED_BUFFER_SIZE) from rfl] at henc
  dsimp only at henc
  rw [show writeBytes (MBuffer.mk [] 0 0 MEMCACHED_BUFFER_SIZE) MEMCACHED_CODEC_VERSION
      = MBuffer.mk MEMCACHED_CODEC_VERSION 4 0 MEMCACHED_BUFFER_SIZE from rfl] at henc
  split at henc
  · exact absurd henc (by simp)
  · rename_i be brf heqe
    simp only [Except.ok.injEq] at henc
    obtain ⟨de, pe, le, ce⟩ := be
    dsimp only at henc
    subst henc
    obtain ⟨hp1, hp2, hp3, hp4, hp5, W0, hp7⟩ :=
      encodeVal_ext fuel H _ _ _ _ _ heqe (by rfl)
    dsimp only at hp1 hp2 hp3 hp4 hp5 hp7
    have hInv0 : Inv H ⟨[], 0⟩ ⟨[], []⟩ [] := by
      refine ⟨rfl, rfl, by norm_num [LUA_MAXINTEGER], List.nodup_nil, ?_, ?_, ?_, ?_⟩
      · intro r t hl
        simp [brLookup] at hl
      · intro r1 r2 t hl hl2
        simp [brLookup] at hl
      · intro p hp
        simp at hp
      · intro r t hl
        simp [brLookup] at hl
    have hLS : pe ≤ SIZE_MAX := by
      unfold MEMCACHED_BUFFER_MAX at hp5
      unfold SIZE_MAX
      norm_num at hp5 ⊢
      omega
    obtain ⟨v', st', hdec, hR, hI, -, -⟩ :=
      simVal_all fuel H (MBuffer.mk MEMCACHED_CODEC_VERSION 4 0 MEMCACHED_BUFFER_SIZE)
        ⟨[], 0⟩ v (MBuffer.mk de pe le ce) brf ⟨[], []⟩ [] hWF hWFv heqe hInv0 (by rfl)
        de MEMCACHED_CODEC_VERSION [] pe ce
        (by
          dsimp only
          rw [hp7, show (MEMCACHED_CODEC_VERSION ++ W0).drop 4 = W0 from by
            rw [show (4 : Nat) = MEMCACHED_CODEC_VERSION.length from rfl,
              List.drop_left]]
          simp)
        (by
          dsimp only
          rw [show MEMCACHED_CODEC_VERSION.length = 4 from rfl]
          omega)
        hLS
    dsimp only at hdec
    refine ⟨v',
      MBuffer.mk de (MEMCACHED_CODEC_VERSION.length + (de.length - 4)) pe ce,
      st', ?_, brf, hR, hI⟩
    show mdecodeModel fuel (MBuffer.mk de pe pe ce) = _
    unfold mdecodeModel
    dsimp only
    rw [buffer_avail_ok_of (MBuffer.mk de 0 pe ce) MEMCACHED_CODEC_VERSION.length
      (by
        dsimp only
        rw [show MEMCACHED_CODEC_VERSION.length = 4 from rfl]
        omega)
      hLS]
    dsimp only
    rw [if_neg (by
      simp only [ne_eq, not_not]
      rw [hp7, seg_prefix_eq _ _ (by simp), List.take_left])]
    rw [hdec]
    dsimp only
    rw [if_neg (by
      have hvl : MEMCACHED_CODEC_VERSION.length = 4 := rfl
      omega)]

/-! ### Claim C6: buffer require/avail contract -/

/-- C6: buffer_require establishes capacity − pos ≥ n and fails with
"buffer overflow" exactly when pos + n exceeds the 256 MiB ceiling; growth
starts from the current capacity (1024 if zero) and repeats the hybrid step —
doubling below 64 KiB, times 1.5 at or above, clamped to the exact
requirement when the multiplication would overflow size_t; buffer_avail
fails with "buffer underflow" exactly when pos + n > len. -/
theorem C6_buffer_require_avail :
    (∀ b n, b.pos + n ≤ MEMCACHED_BUFFER_MAX →
      ∃ b', buffer_require b n = .ok b' ∧ b.pos + n ≤ b'.capacity ∧
        b'.data = b.data ∧ b'.pos = b.pos ∧ b'.len = b.len) ∧
    (∀ b n, b.pos + n > MEMCACHED_BUFFER_MAX →
      buffer_require b n = .error "buffer overflow") ∧
    (∀ b n b', buffer_require b n = .ok b' → b.capacity < b.pos + n →
      b'.capacity = growLoop (b.pos + n) (b.pos + n)
        (if b.capacity = 0 then MEMCACHED_BUFFER_SIZE else b.capacity)) ∧
    (∀ req fuel cap, growLoop req (fuel + 1) cap =
      if cap < req then growLoop req fuel (growStep req cap) else cap) ∧
    (∀ req cap, cap < 64 * 1024 → cap ≤ SIZE_MAX / 2 → growStep req cap = cap * 2) ∧
    (∀ req cap, 64 * 1024 ≤ cap → cap ≤ SIZE_MAX / 3 * 2 →
      growStep req cap = cap + cap / 2) ∧
    (∀ req cap, (cap < 64 * 1024 ∧ ¬cap ≤ SIZE_MAX / 2) ∨
      (64 * 1024 ≤ cap ∧ ¬cap ≤ SIZE_MAX / 3 * 2) → growStep req cap = req) ∧
    (∀ b n, b.len ≤ SIZE_MAX → (buffer_avail b n = .ok () ↔ b.pos + n ≤ b.len)) ∧
    (∀ b n, b.pos + n > b.len → buffer_avail b n = .error "buffer underflow") := by
  refine ⟨?_, buffer_require_error, ?_, ?_, ?_, ?_, ?_, buffer_avail_ok, buffer_avail_error⟩
  · intro b n hle
    obtain ⟨b', hb'⟩ := buffer_require_of_le b n hle
    obtain ⟨h1, h2, h3, -, h5⟩ := buffer_require_ok _ _ _ hb'
    exact ⟨b', hb', h5, h1, h2, h3⟩
  · intro b n b' h hlt
    unfold buffer_require at h
    split at h
    · exact absurd h (by simp)
    · split at h
      · omega
      · simp only [Except.ok.injEq] at h
        rw [← h]
  · intro req fuel cap
    rw [growLoop]
  · intro req cap h1 h2
    unfold growStep
    rw [if_pos h1, if_pos h2]
  · intro req cap h1 h2
    unfold growStep
    rw [if_neg (by omega), if_pos h2]
  · intro req cap h
    unfold growStep
    rcases h with ⟨h1, h2⟩ | ⟨h1, h2⟩
    · rw [if_pos h1, if_neg h2]
    · rw [if_neg (by omega), if_neg h2]

/-- Witness for C6 at concrete inputs. -/
theorem C6_buffer_require_avail_witness :
    (∃ b', buffer_require { data := [], pos := 0, len := 0, capacity := 0 } 5 = .ok b' ∧
      0 + 5 ≤ b'.capacity ∧ b'.data = [] ∧ b'.pos = 0 ∧ b'.len = 0) ∧
    buffer_avail { data := [], pos := 2, len := 3, capacity := 3 } 4
      = .error "buffer underflow" := by
  constructor
  · obtain ⟨b', h1, h2, h3, h4, h5⟩ :=
      C6_buffer_require_avail.1 { data := [], pos := 0, len := 0, capacity := 0 } 5 (by decide)
    exact ⟨b', h1, h2, h3, h4, h5⟩
  · exact C6_buffer_require_avail.2.2.2.2.2.2.2.2
      { data := [], pos := 2, len := 3, capacity := 3 } 4 (by decide)

/-! ### Claim C3: the buffer invariant -/

/-- C3 counterexample: the invariant pos ≤ len does not hold during
encoding — after mencode writes the four version bytes the buffer has
pos = 4 and len = 0, and encoding the boolean true into it returns a buffer
with pos = 5 and len still 0; moreover capacity ≤ 256 MiB does not hold
either — growing a 1024-byte buffer to meet a request of exactly
MEMCACHED_BUFFER_MAX = 268435456 bytes overshoots to capacity 326886031. -/
theorem C3_counterexample :
    (encodeVal [] 1 { data := MEMCACHED_CODEC_VERSION, pos := 4, len := 0, capacity := 1024 }
        { assoc := [], cnt := 0 } (.boolean true)
      = .ok ({ data := [76, 77, 246, 2, 65], pos := 5, len := 0, capacity := 1024 },
             { assoc := [], cnt := 0 }) ∧
      ¬ (MBuffer.mk [76, 77, 246, 2, 65] 5 0 1024).pos
          ≤ (MBuffer.mk [76, 77, 246, 2, 65] 5 0 1024).len) ∧
    (buffer_require { data := [], pos := 0, len := 0, capacity := 1024 } MEMCACHED_BUFFER_MAX
      = .ok { data := [], pos := 0, len := 0, capacity := 326886031 } ∧
      ¬ (MBuffer.mk [] 0 0 326886031).capacity ≤ MEMCACHED_BUFFER_MAX) := by
  exact ⟨⟨by rfl, by decide⟩, ⟨by rfl, by decide⟩⟩

/-- C3 (amended): pos ≤ capacity is maintained by the encoder (each write
is preceded by a successful buffer_require, whose grown capacity covers
pos + n but may exceed the 256 MiB ceiling), len is left untouched during
encoding and only set to the final pos when mencode completes — so the
returned buffer has pos = len = number of data bytes — and during decoding
pos ≤ len is maintained at every step with data and len unchanged. -/
theorem C3_buffer_invariant :
    (∀ H fuel b br v b1 br1, encodeVal H fuel b br v = .ok (b1, br1) →
      b.data.length = b.pos →
      b1.data.length = b1.pos ∧ b1.pos ≤ b1.capacity ∧ b1.len = b.len) ∧
    (∀ H fuel v b, mencodeModel H fuel v = .ok b →
      b.pos = b.len ∧ b.data.length = b.len) ∧
    (∀ fuel b st v b1 st1, decodeVal fuel b st = .ok (v, b1, st1) →
      b.pos ≤ b.len → b1.pos ≤ b1.len ∧ b1.len = b.len ∧ b1.data = b.data) ∧
    (∀ b n b1, buffer_require b n = .ok b1 → b.pos + n ≤ b1.capacity) := by
  refine ⟨?_, ?_, ?_, ?_⟩
  · intro H fuel b br v b1 br1 h hinv
    obtain ⟨h1, h2, -, h4, -, -⟩ := encodeVal_ext fuel H _ _ _ _ _ h hinv
    exact ⟨h1, h4, h2⟩
  · intro H fuel v b h
    unfold mencodeModel at h
    split at h
    · exact absurd h (by simp)
    · rename_i b0 hreq
      have hcomp : buffer_require
          { data := [], pos := 0, len := 0, capacity := MEMCACHED_BUFFER_SIZE }
          MEMCACHED_CODEC_VERSION.length
          = .ok { data := [], pos := 0, len := 0, capacity := MEMCACHED_BUFFER_SIZE } := by
        rfl
      rw [hcomp] at hreq
      simp only [Except.ok.injEq] at hreq
      split at h
      · exact absurd h (by simp)
      · rename_i b2 br2 heqe
        obtain ⟨h1, -, -, -, -, -⟩ := encodeVal_ext fuel H _ _ _ _ _ heqe
          (by rw [← hreq]; rfl)
        simp only [Except.ok.injEq] at h
        rw [← h]
        exact ⟨rfl, h1⟩
  · intro fuel b st v b1 st1 h hle
    obtain ⟨h1, h2, -, -, h5⟩ := decodeVal_pres fuel _ _ _ _ _ h
    exact ⟨h5 hle, h2, h1⟩
  · intro b n b1 h
    exact (buffer_require_ok _ _ _ h).2.2.2.2

/-- Witness for the amended C3 at concrete inputs: encoding true into the
version-only buffer, a complete mencode of true, decoding true, and a
require of 4 bytes on the fresh buffer. -/
theorem C3_buffer_invariant_witness :
    ((MBuffer.mk [76, 77, 246, 2, 65] 5 0 1024).data.length
        = (MBuffer.mk [76, 77, 246, 2, 65] 5 0 1024).pos ∧
      (MBuffer.mk [76, 77, 246, 2, 65] 5 0 1024).pos
        ≤ (MBuffer.mk [76, 77, 246, 2, 65] 5 0 1024).capacity ∧
      (MBuffer.mk [76, 77, 246, 2, 65] 5 0 1024).len
        = (MBuffer.mk [76, 77, 246, 2] 4 0 1024).len) ∧
    ((MBuffer.mk [76, 77, 246, 2, 65] 5 5 1024).pos
        = (MBuffer.mk [76, 77, 246, 2, 65] 5 5 1024).len ∧
      (MBuffer.mk [76, 77, 246, 2, 65] 5 5 1024).data.length
        = (MBuffer.mk [76, 77, 246, 2, 65] 5 5 1024).len) ∧
    ((MBuffer.mk [76, 77, 246, 2, 65] 5 5 1024).pos
        ≤ (MBuffer.mk [76, 77, 246, 2, 65] 5 5 1024).len ∧
      (MBuffer.mk [76, 77, 246, 2, 65] 5 5 1024).len
        = (MBuffer.mk [76, 77, 246, 2, 65] 4 5 1024).len ∧
      (MBuffer.mk [76, 77, 246, 2, 65] 5 5 1024).data
        = (MBuffer.mk [76, 77, 246, 2, 65] 4 5 1024).data) ∧
    (MBuffer.mk [] 0 0 1024).pos + 4 ≤ (MBuffer.mk [] 0 0 1024).capacity := by
  refine ⟨?_, ?_, ?_, ?_⟩
  · exact C3_buffer_invariant.1 [] 1 (MBuffer.mk [76, 77, 246, 2] 4 0 1024)
      { assoc := [], cnt := 0 } (.boolean true)
      (MBuffer.mk [76, 77, 246, 2, 65] 5 0 1024) { assoc := [], cnt := 0 }
      (by rfl) (by rfl)
  · exact C3_buffer_invariant.2.1 [] 2 (.boolean true)
      (MBuffer.mk [76, 77, 246, 2, 65] 5 5 1024) (by rfl)
  · exact C3_buffer_invariant.2.2.1 1 (MBuffer.mk [76, 77, 246, 2, 65] 4 5 1024)
      { dheap := [], dbr := [] } (.boolean true)
      (MBuffer.mk [76, 77, 246, 2, 65] 5 5 1024) { dheap := [], dbr := [] }
      (by rfl) (by decide)
  · exact C3_buffer_invariant.2.2.2 (MBuffer.mk [] 0 0 1024) 4
      (MBuffer.mk [] 0 0 1024) (by rfl)

/-! ### Claim C5: table size classes -/

/-- C5: the table tag left on the wire is the smallest size class whose
unsigned maximum accommodates both the array count and the record count —
tag 5 iff both fit in 8 bits, tag 21 iff not but both fit in 16 bits,
tag 37 iff not but both fit in 32 bits, tag 53 otherwise, with the
thresholds 255/256/65536 as concrete instances — and a fresh table is
encoded by writing the pairs first and then patching tag and size header
in place: the final bytes are the prefix, then tagFor narr nrec, then the
size field, then the pairs payload. -/
theorem C5_size_class_tags :
    (∀ narr nrec, tagFor narr nrec = MEMCACHED_TYPE_TABLE8 ↔
      narr ≤ 255 ∧ nrec ≤ 255) ∧
    (∀ narr nrec, tagFor narr nrec = MEMCACHED_TYPE_TABLE16 ↔
      ¬(narr ≤ 255 ∧ nrec ≤ 255) ∧ (narr ≤ 65535 ∧ nrec ≤ 65535)) ∧
    (∀ narr nrec, tagFor narr nrec = MEMCACHED_TYPE_TABLE32 ↔
      ¬(narr ≤ 65535 ∧ nrec ≤ 65535) ∧ (narr ≤ 4294967295 ∧ nrec ≤ 4294967295)) ∧
    (∀ narr nrec, tagFor narr nrec = MEMCACHED_TYPE_TABLE64 ↔
      ¬(narr ≤ 4294967295 ∧ nrec ≤ 4294967295)) ∧
    (tagFor 255 255 = MEMCACHED_TYPE_TABLE8 ∧ tagFor 256 0 = MEMCACHED_TYPE_TABLE16 ∧
      tagFor 0 256 = MEMCACHED_TYPE_TABLE16 ∧ tagFor 65536 0 = MEMCACHED_TYPE_TABLE32 ∧
      tagFor 0 65536 = MEMCACHED_TYPE_TABLE32 ∧ tagFor 4294967296 0 = MEMCACHED_TYPE_TABLE64) ∧
    (∀ H fuel b br r b1 br1,
      encodeVal H (fuel + 1) b br (.table r) = .ok (b1, br1) →
      brLookup br r = none →
      br.cnt ≠ LUA_MAXINTEGER →
      b.data.length = b.pos →
      ∃ breq b2 br2 narr nrec W,
        buffer_require b (1 + 2) = .ok breq ∧
        encodePairs H fuel (writeBytes breq [MEMCACHED_TYPE_TABLE8, 0, 0])
            { assoc := (r, br.cnt + 1) :: br.assoc, cnt := br.cnt + 1 }
            (H.getD r []) 0 0 = .ok (b2, br2, narr, nrec) ∧
        b1.data = b.data ++ tagFor narr nrec :: (sizeBytes narr nrec ++ W)) := by
  refine ⟨?_, ?_, ?_, ?_, by decide, ?_⟩
  · intro narr nrec
    unfold tagFor
    by_cases h1 : narr ≤ 255 ∧ nrec ≤ 255
    · rw [if_pos h1]
      simp [h1]
    · rw [if_neg h1]
      by_cases h2 : narr ≤ 65535 ∧ nrec ≤ 65535
      · rw [if_pos h2]
        simp [MEMCACHED_TYPE_TABLE16, MEMCACHED_TYPE_TABLE8, LUA_TTABLE, h1]
      · rw [if_neg h2]
        by_cases h3 : narr ≤ 4294967295 ∧ nrec ≤ 4294967295
        · rw [if_pos h3]
          simp [MEMCACHED_TYPE_TABLE32, MEMCACHED_TYPE_TABLE8, LUA_TTABLE, h1]
        · rw [if_neg h3]
          simp [MEMCACHED_TYPE_TABLE64, MEMCACHED_TYPE_TABLE8, LUA_TTABLE, h1]
  · intro narr nrec
    unfold tagFor
    by_cases h1 : narr ≤ 255 ∧ nrec ≤ 255
    · rw [if_pos h1]
      simp [MEMCACHED_TYPE_TABLE16, MEMCACHED_TYPE_TABLE8, LUA_TTABLE, h1]
    · rw [if_neg h1]
      by_cases h2 : narr ≤ 65535 ∧ nrec ≤ 65535
      · rw [if_pos h2]
        simp [h1, h2]
      · rw [if_neg h2]
        by_cases h3 : narr ≤ 4294967295 ∧ nrec ≤ 4294967295
        · rw [if_pos h3]
          simp [MEMCACHED_TYPE_TABLE32, MEMCACHED_TYPE_TABLE16, LUA_TTABLE, h2]
        · rw [if_neg h3]
          simp [MEMCACHED_TYPE_TABLE64, MEMCACHED_TYPE_TABLE16, LUA_TTABLE, h2]
  · intro narr nrec
    unfold tagFor
    by_cases h1 : narr ≤ 255 ∧ nrec ≤ 255
    · rw [if_pos h1]
      simp [MEMCACHED_TYPE_TABLE32, MEMCACHED_TYPE_TABLE8, LUA_TTABLE, h1]
      omega
    · rw [if_neg h1]
      by_cases h2 : narr ≤ 65535 ∧ nrec ≤ 65535
      · rw [if_pos h2]
        simp [MEMCACHED_TYPE_TABLE32, MEMCACHED_TYPE_TABLE16, LUA_TTABLE, h2]
      · rw [if_neg h2]
        by_cases h3 : narr ≤ 4294967295 ∧ nrec ≤ 4294967295
        · rw [if_pos h3]
          simp [h2, h3]
        · rw [if_neg h3]
          simp [MEMCACHED_TYPE_TABLE64, MEMCACHED_TYPE_TABLE32, LUA_TTABLE, h3]
  · intro narr nrec
    unfold tagFor
    by_cases h1 : narr ≤ 255 ∧ nrec ≤ 255
    · rw [if_pos h1]
      simp [MEMCACHED_TYPE_TABLE64, MEMCACHED_TYPE_TABLE8, LUA_TTABLE]
      omega
    · rw [if_neg h1]
      by_cases h2 : narr ≤ 65535 ∧ nrec ≤ 65535
      · rw [if_pos h2]
        simp [MEMCACHED_TYPE_TABLE64, MEMCACHED_TYPE_TABLE16, LUA_TTABLE]
        omega
      · rw [if_neg h2]
        by_cases h3 : narr ≤ 4294967295 ∧ nrec ≤ 4294967295
        · rw [if_pos h3]
          simp [MEMCACHED_TYPE_TABLE64, MEMCACHED_TYPE_TABLE32, LUA_TTABLE, h3]
        · rw [if_neg h3]
          simp [h3]
  · intro H fuel b br r b1 br1 h hbr hcnt hinv
    unfold encodeVal encodeValGo at h
    dsimp only at h
    rw [hbr] at h
    dsimp only at h
    rw [if_neg hcnt] at h
    split at h
    · exact absurd h (by simp)
    · rename_i b2 hreq
      obtain ⟨hd, hp, hl, -, hcap⟩ := buffer_require_ok _ _ _ hreq
      split at h
      · exact absurd h (by simp)
      · rename_i b3 br3 narr nrec heqp
        have hinv1 : (writeBytes b2 [MEMCACHED_TYPE_TABLE8, 0, 0]).data.length
            = (writeBytes b2 [MEMCACHED_TYPE_TABLE8, 0, 0]).pos := by
          rw [writeBytes_of_append _ _ (by rw [hd, hp, ← hinv])]
          simp [hd, hp, hinv]
        obtain ⟨hp1, hp2, -, -, hp5, -, -, Wp, hp6⟩ :=
          encodePairs_ext fuel (encodeVal_ext fuel) _ _ _ _ _ _ _ _ _ _ heqp hinv1
        rw [writeBytes_of_append _ _ (by rw [hd, hp, ← hinv])] at hp5 hp6
        split at h
        · exact absurd h (by simp)
        · rename_i b4 heqf
          simp only [Except.ok.injEq, Prod.mk.injEq] at h
          obtain ⟨hb', -⟩ := h
          obtain ⟨d3, p3, l3, c3⟩ := b3
          dsimp only at hp1 hp5 hp6 heqf
          have hd3 : d3 = b2.data ++ MEMCACHED_TYPE_TABLE8 :: 0 :: 0 :: Wp := by
            rw [hp6]
            simp
          have hpp : p3 = b2.data.length + 3 + Wp.length := by
            rw [← hp1, hd3]
            simp only [List.length_append, List.length_cons]
            omega
          rw [hd3, hpp,
            show b2.pos + 1 = b2.data.length + 1 from by rw [hd, hp, ← hinv]] at heqf
          have hW14 : ¬(narr ≤ 255 ∧ nrec ≤ 255) → 14 ≤ Wp.length := by
            intro hc
            have hbl : b2.data.length = b2.pos := by rw [hd, hp, ← hinv]
            simp only [List.length_cons, List.length_nil] at hp5
            omega
          obtain ⟨hf1, -, -, -, -⟩ := finishTable_spec _ _ _ _ _ _ _ hW14 heqf
          refine ⟨b2, ⟨d3, p3, l3, c3⟩, br3, narr, nrec, Wp, hreq, heqp, ?_⟩
          rw [← hb', hf1, hd]

/-- Witness for C5 at a concrete table: encoding the one-entry table
containing the pair (1, 7) through a buffer holding the codec version
produces the 8-bit tag 5 with size field [1, 0] followed by the two
encoded integers. -/
theorem C5_size_class_tags_witness :
    ∃ breq b2 br2 narr nrec W,
      buffer_require { data := [76, 77, 246, 2], pos := 4, len := 0, capacity := 1024 }
        (1 + 2) = .ok breq ∧
      encodePairs [[(.integer 1, .integer 7)]] 1
          (writeBytes breq [MEMCACHED_TYPE_TABLE8, 0, 0])
          { assoc := (0, (Backrefs.mk [] 0).cnt + 1) :: (Backrefs.mk [] 0).assoc,
            cnt := (Backrefs.mk [] 0).cnt + 1 }
          ([[(.integer 1, .integer 7)]].getD 0 []) 0 0 = .ok (b2, br2, narr, nrec) ∧
      (MBuffer.mk [76, 77, 246, 2, 5, 1, 0, 67, 0, 0, 0, 0, 0, 0, 0, 1,
          67, 0, 0, 0, 0, 0, 0, 0, 7] 25 0 1024).data
        = (MBuffer.mk [76, 77, 246, 2] 4 0 1024).data
          ++ tagFor narr nrec :: (sizeBytes narr nrec ++ W) := by
  exact C5_size_class_tags.2.2.2.2.2 [[(.integer 1, .integer 7)]] 1
    (MBuffer.mk [76, 77, 246, 2] 4 0 1024) (Backrefs.mk [] 0) 0
    (MBuffer.mk [76, 77, 246, 2, 5, 1, 0, 67, 0, 0, 0, 0, 0, 0, 0, 1,
      67, 0, 0, 0, 0, 0, 0, 0, 7] 25 0 1024)
    (Backrefs.mk [(0, 1)] 1) (by rfl) (by rfl) (by decide) (by rfl)

/-! ### Claim C2: the stats receive loop -/

/-- C2 counterexample: a SUCCESS frame with an empty key but a non-empty
value terminates the stats stream normally (the value is popped and the
mapping so far is returned); it is not reported as a protocol error. -/
theorem C2_counterexample :
    statsLoop [{ status := 0, extras := [], key := [], value := [97] }] [] = .ok [] ∧
    statsLoop [{ status := 0, extras := [], key := [], value := [97] }] []
      ≠ .error "protocol error" := by
  have h1 : statsLoop [{ status := 0, extras := [], key := [], value := [97] }] []
      = .ok [] := rfl
  refine ⟨h1, ?_⟩
  rw [h1]
  simp

/-- C2 as amended: SUCCESS frames with a non-empty key are assembled into
the mapping; the stream terminates at the first frame with an empty key,
whatever its value; a non-SUCCESS frame raises a memcached error; and the
loop's protocol-error branch is unreachable, because recvresponse always
returns a value (possibly empty) alongside an optional key. -/
theorem C2_stats_loop :
    (∀ fr rest acc, fr.status = PROTOCOL_BINARY_RESPONSE_SUCCESS → fr.key ≠ [] →
      statsLoop (fr :: rest) acc = statsLoop rest (tblset acc fr.key fr.value)) ∧
    (∀ fr rest acc, fr.status = PROTOCOL_BINARY_RESPONSE_SUCCESS → fr.key = [] →
      statsLoop (fr :: rest) acc = .ok acc) ∧
    (∀ fr rest acc, fr.status ≠ PROTOCOL_BINARY_RESPONSE_SUCCESS →
      statsLoop (fr :: rest) acc = .error "memcached error") ∧
    (∀ frames acc, statsLoop frames acc ≠ .error "protocol error") := by
  have hcnt : ∀ fr : Frame, fr.key ≠ [] → recvKVCount fr = 2 := by
    intro fr hk
    unfold recvKVCount
    rw [if_pos (by cases hf : fr.key with
      | nil => exact absurd hf hk
      | cons a l => simp [hf])]
  have hcnt0 : ∀ fr : Frame, fr.key = [] → recvKVCount fr = 1 := by
    intro fr hk
    unfold recvKVCount
    rw [if_neg (by simp [hk])]
  have hcons : ∀ (fr : Frame) rest acc, statsLoop (fr :: rest) acc =
      if fr.status = PROTOCOL_BINARY_RESPONSE_SUCCESS then
        (match recvKVCount fr with
          | 1 => Except.ok acc
          | 2 => statsLoop rest (tblset acc fr.key fr.value)
          | _ => Except.error "protocol error")
      else Except.error "memcached error" := by
    intro fr rest acc
    rw [statsLoop]
  refine ⟨?_, ?_, ?_, ?_⟩
  · intro fr rest acc hs hk
    rw [hcons, if_pos hs, hcnt fr hk]
  · intro fr rest acc hs hk
    rw [hcons, if_pos hs, hcnt0 fr hk]
  · intro fr rest acc hs
    rw [hcons, if_neg hs]
  · intro frames
    induction frames with
    | nil =>
      intro acc
      simp [statsLoop]
    | cons fr rest ih =>
      intro acc
      rw [hcons]
      split
      · rename_i hs
        by_cases hk : fr.key = []
        · rw [hcnt0 fr hk]
          simp
        · rw [hcnt fr hk]
          exact ih _
      · simp

/-- Witness for C2's amended theorem at concrete frames. -/
theorem C2_stats_loop_witness :
    statsLoop [{ status := 0, extras := [], key := [107], value := [118] }] []
        = statsLoop [] (tblset [] [107] [118]) ∧
    statsLoop [{ status := 0, extras := [], key := [], value := [] }] [([107], [118])]
        = .ok [([107], [118])] ∧
    statsLoop [{ status := 1, extras := [], key := [107], value := [118] }] []
        = .error "memcached error" := by
  refine ⟨C2_stats_loop.1 _ [] [] rfl (by decide), C2_stats_loop.2.1 _ [] _ rfl rfl,
    C2_stats_loop.2.2.1 _ [] [] (by decide)⟩

/-! ### Claim C4: nil value rewrites set to DELETE -/

/-- C4: set(key, nil, expiration, cas) is rewritten as a DELETE request with
the same key and the CAS argument in the DELETE header; for add and replace
a missing or nil value is rejected with "value required" before any request
is built or sent. -/
theorem C4_set_nil_delete :
    (∀ m key e c (enc : LValue → Except String (List Nat)),
      key.length > 0 → key.length ≤ 65535 →
      e.getD 0 ≥ 0 → e.getD 0 ≤ 4294967295 →
      m.closed = false →
      ∃ m', setOp PROTOCOL_BINARY_CMD_SET enc m key (some .lnil) e c
        = .ok (m', .deleteReq key (int64ToUInt64 (c.getD 0)))) ∧
    (∀ opcode m key value e c enc,
      opcode = PROTOCOL_BINARY_CMD_ADD ∨ opcode = PROTOCOL_BINARY_CMD_REPLACE →
      key.length > 0 → key.length ≤ 65535 →
      value = none ∨ value = some .lnil →
      setOp opcode enc m key value e c = .error "value required") := by
  constructor
  · intro m key e c enc hk1 hk2 he1 he2 hcl
    unfold setOp
    rw [if_neg (by simp only [not_and, not_not]; omega)]
    rw [if_neg (by simp)]
    rw [if_neg (by simp)]
    rw [if_neg (by simp only [not_not, ge_iff_le, not_and, not_le]; omega)]
    dsimp only
    rw [if_neg (by simp)]
    unfold getsocketModel
    rw [if_neg (by simp [hcl])]
    by_cases hfd : m.fd.isSome
    · rw [if_pos hfd]
      exact ⟨m, rfl⟩
    · rw [if_neg hfd]
      exact ⟨{ m with fd := some 0 }, rfl⟩
  · intro opcode m key value e c enc hop hk1 hk2 hval
    unfold setOp
    rw [if_neg (by simp only [not_and, not_not]; omega)]
    rw [if_neg (by
      rcases hop with h | h <;> rw [h] <;>
        simp [PROTOCOL_BINARY_CMD_ADD, PROTOCOL_BINARY_CMD_REPLACE, PROTOCOL_BINARY_CMD_SET])]
    rw [if_pos (by
      constructor
      · rcases hop with h | h <;> rw [h] <;>
          simp [PROTOCOL_BINARY_CMD_ADD, PROTOCOL_BINARY_CMD_REPLACE, PROTOCOL_BINARY_CMD_SET]
      · exact hval)]

/-- Witness for C4 at concrete inputs. -/
theorem C4_set_nil_delete_witness :
    (∃ m', setOp PROTOCOL_BINARY_CMD_SET (fun _ => .ok []) mopenModel [107] (some .lnil)
        (some 60) (some 7) = .ok (m', .deleteReq [107] (int64ToUInt64 7))) ∧
    setOp PROTOCOL_BINARY_CMD_ADD (fun _ => .ok []) mopenModel [107] (some .lnil)
        none none = .error "value required" := by
  constructor
  · obtain ⟨m', hm'⟩ := C4_set_nil_delete.1 mopenModel [107] (some 60) (some 7)
      (fun _ => .ok []) (by decide) (by decide) (by decide) (by decide) rfl
    exact ⟨m', hm'⟩
  · exact C4_set_nil_delete.2 PROTOCOL_BINARY_CMD_ADD mopenModel [107] (some .lnil)
      none none (fun _ => .ok []) (Or.inl rfl) (by decide) (by decide) (Or.inr rfl)

/-! ### Claim C9: connection lifecycle -/

/-- C9: a freshly opened client is disconnected (no socket, not closed);
close transitions any client to closed and is idempotent; and on a closed
client every operation among get, set, add, replace, inc, dec, flush and
stats fails with the "closed" error from getsocket, before any request is
sent. -/
theorem C9_lifecycle :
    (mopenModel.closed = false ∧ mopenModel.fd = none ∧
      tostringState mopenModel = "disconnected") ∧
    (∀ m, (mcloseModel m).closed = true ∧ tostringState (mcloseModel m) = "closed" ∧
      mcloseModel (mcloseModel m) = mcloseModel m) ∧
    (∀ m key, m.closed = true → key.length > 0 → key.length ≤ 65535 →
      getOp m key = .error "closed") ∧
    (∀ opcode m key v e c enc bytes, m.closed = true →
      opcode = PROTOCOL_BINARY_CMD_SET ∨ opcode = PROTOCOL_BINARY_CMD_ADD ∨
        opcode = PROTOCOL_BINARY_CMD_REPLACE →
      key.length > 0 → key.length ≤ 65535 →
      e.getD 0 ≥ 0 → e.getD 0 ≤ 4294967295 →
      v ≠ .lnil → enc v = .ok bytes →
      ¬(bytes.length > 4294967295 - (8 + key.length)) →
      setOp opcode enc m key (some v) e c = .error "closed") ∧
    (∀ m key e c enc, m.closed = true →
      key.length > 0 → key.length ≤ 65535 →
      e.getD 0 ≥ 0 → e.getD 0 ≤ 4294967295 →
      setOp PROTOCOL_BINARY_CMD_SET enc m key (some .lnil) e c = .error "closed") ∧
    (∀ opcode m key d i e, m.closed = true →
      opcode = PROTOCOL_BINARY_CMD_INCREMENT ∨ opcode = PROTOCOL_BINARY_CMD_DECREMENT →
      key.length > 0 → key.length ≤ 65535 →
      d.getD 1 ≥ 0 → d.getD 1 ≤ (LUA_MAXINTEGER : Int) →
      i.getD 1 ≥ 0 → i.getD 1 ≤ (LUA_MAXINTEGER : Int) →
      e.getD 0 ≥ 0 → e.getD 0 ≤ 4294967295 →
      incrOp opcode m key d i e = .error "closed") ∧
    (∀ m e, m.closed = true → e.getD 0 ≥ 0 → e.getD 0 ≤ 4294967295 →
      flushOp m e = .error "closed") ∧
    (∀ m key, m.closed = true → (∀ k ∈ key, k.length > 0 ∧ k.length ≤ 65535) →
      statsOp m key = .error "closed") := by
  have hgs : ∀ m : MClient, m.closed = true → getsocketModel m = .error "closed" := by
    intro m hm
    unfold getsocketModel
    rw [if_pos hm]
  refine ⟨⟨rfl, rfl, rfl⟩, fun m => ⟨rfl, rfl, rfl⟩, ?_, ?_, ?_, ?_, ?_, ?_⟩
  · intro m key hm hk1 hk2
    unfold getOp
    rw [if_neg (by simp only [not_and, not_not]; omega), hgs m hm]
  · intro opcode m key v e c enc bytes hm hop hk1 hk2 he1 he2 hv henc hbl
    unfold setOp
    rw [if_neg (by simp only [not_and, not_not]; omega)]
    rw [if_neg (by simp)]
    rw [if_neg (by simp [hv])]
    rw [if_neg (by simp only [not_not, ge_iff_le, not_and, not_le]; omega)]
    dsimp only
    rw [if_pos hv, henc]
    dsimp only
    rw [if_neg hbl, hgs m hm]
  · intro m key e c enc hm hk1 hk2 he1 he2
    unfold setOp
    rw [if_neg (by simp only [not_and, not_not]; omega)]
    rw [if_neg (by simp)]
    rw [if_neg (by simp)]
    rw [if_neg (by simp only [not_not, ge_iff_le, not_and, not_le]; omega)]
    dsimp only
    rw [if_neg (by simp), hgs m hm]
  · intro opcode m key d i e hm hop hk1 hk2 hd1 hd2 hi1 hi2 he1 he2
    unfold incrOp
    rw [if_neg (by simp only [not_and, not_not]; omega)]
    rw [if_neg (by simp only [not_not, ge_iff_le, not_and, not_le]; intro h1; omega)]
    rw [if_neg (by simp only [not_not, ge_iff_le, not_and, not_le]; intro h1; omega)]
    rw [if_neg (by simp only [not_not, ge_iff_le, not_and, not_le]; intro h1; omega)]
    rw [hgs m hm]
  · intro m e hm he1 he2
    unfold flushOp
    rw [if_neg (by simp only [not_not, ge_iff_le, not_and, not_le]; intro h1; omega)]
    rw [hgs m hm]
  · intro m key hm hkey
    unfold statsOp
    rw [if_neg (by simpa using hkey), hgs m hm]

/-- Witness for C9's hypotheses at a concretely closed client. -/
theorem C9_lifecycle_witness :
    getOp (mcloseModel mopenModel) [107] = .error "closed" ∧
    setOp PROTOCOL_BINARY_CMD_SET (fun _ => .ok [1]) (mcloseModel mopenModel) [107]
      (some (.boolean true)) none none = .error "closed" ∧
    setOp PROTOCOL_BINARY_CMD_SET (fun _ => .ok [1]) (mcloseModel mopenModel) [107]
      (some .lnil) none none = .error "closed" ∧
    incrOp PROTOCOL_BINARY_CMD_INCREMENT (mcloseModel mopenModel) [107] none none none
      = .error "closed" ∧
    flushOp (mcloseModel mopenModel) none = .error "closed" ∧
    statsOp (mcloseModel mopenModel) none = .error "closed" := by
  refine ⟨C9_lifecycle.2.2.1 _ [107] rfl (by decide) (by decide),
    C9_lifecycle.2.2.2.1 PROTOCOL_BINARY_CMD_SET _ [107] (.boolean true) none none _ [1]
      rfl (Or.inl rfl) (by decide) (by decide) (by decide) (by decide) (by decide) rfl
      (by decide),
    C9_lifecycle.2.2.2.2.1 _ [107] none none _ rfl (by decide) (by decide) (by decide)
      (by decide),
    C9_lifecycle.2.2.2.2.2.1 PROTOCOL_BINARY_CMD_INCREMENT _ [107] none none none rfl
      (Or.inl rfl) (by decide) (by decide) (by decide) (by decide) (by decide) (by decide)
      (by decide) (by decide),
    C9_lifecycle.2.2.2.2.2.2.1 _ none rfl (by decide) (by decide),
    C9_lifecycle.2.2.2.2.2.2.2 _ none rfl (by simp)⟩

/-! ### Claim C10: mdecode is independent of the buffer position -/

/-- C10: mdecode resets pos to 0 before the version check, so its result
does not depend on the pos field at the time of the call; decoding the same
unmodified buffer twice in succession yields the same (structurally equal)
result, because decoding never writes into the buffer. -/
theorem C10_mdecode_pos_independent :
    (∀ fuel b p, mdecodeModel fuel { b with pos := p } = mdecodeModel fuel b) ∧
    (∀ fuel b v b1 st, mdecodeModel fuel b = .ok (v, b1, st) →
      mdecodeModel fuel b1 = .ok (v, b1, st)) := by
  have hpos : ∀ fuel (d : List Nat) p p' l c,
      mdecodeModel fuel { data := d, pos := p, len := l, capacity := c }
        = mdecodeModel fuel { data := d, pos := p', len := l, capacity := c } :=
    fun _ _ _ _ _ _ => rfl
  constructor
  · intro fuel b p
    obtain ⟨d, p0, l, c⟩ := b
    exact hpos fuel d p p0 l c
  · intro fuel b v b1 st h
    have hsame : mdecodeModel fuel b1 = mdecodeModel fuel b := by
      unfold mdecodeModel at h
      split at h
      · exact absurd h (by simp)
      · split at h
        · exact absurd h (by simp)
        · split at h
          · exact absurd h (by simp)
          · rename_i v2 b2 st2 heqd
            have hpres := decodeVal_pres fuel _ _ _ _ _ heqd
            obtain ⟨hdata, hlen, hcap, -⟩ := hpres
            split at h
            · exact absurd h (by simp)
            · simp only [Except.ok.injEq, Prod.mk.injEq] at h
              obtain ⟨-, hb1, -⟩ := h
              rw [← hb1]
              obtain ⟨d2, p2, l2, c2⟩ := b2
              obtain ⟨d0, p0, l0, c0⟩ := b
              simp only at hdata hlen hcap
              rw [hdata, hlen, hcap]
              exact hpos fuel d0 p2 p0 l0 c0
    rw [hsame, h]

/-- Witness for C10 at a concrete buffer: the five bytes 4C 4D F6 02 41
decode to the boolean true independently of the starting position, and the
returned buffer decodes to the same result again. -/
theorem C10_mdecode_pos_independent_witness :
    mdecodeModel 2 { data := [76, 77, 246, 2, 65], pos := 3, len := 5, capacity := 1024 }
      = mdecodeModel 2 { data := [76, 77, 246, 2, 65], pos := 0, len := 5, capacity := 1024 } ∧
    mdecodeModel 2 { data := [76, 77, 246, 2, 65], pos := 5, len := 5, capacity := 1024 }
      = .ok (.boolean true,
          { data := [76, 77, 246, 2, 65], pos := 5, len := 5, capacity := 1024 },
          { dheap := [], dbr := [] }) := by
  constructor
  · exact C10_mdecode_pos_independent.1 2
      { data := [76, 77, 246, 2, 65], pos := 0, len := 5, capacity := 1024 } 3
  · exact C10_mdecode_pos_independent.2 2
      { data := [76, 77, 246, 2, 65], pos := 0, len := 5, capacity := 1024 }
      (.boolean true)
      { data := [76, 77, 246, 2, 65], pos := 5, len := 5, capacity := 1024 }
      { dheap := [], dbr := [] } (by rfl)

/-! ### Claim C8: version tag gating -/

/-- C8: decoding any buffer of at least four bytes whose first four bytes
are not 4C 4D F6 02 fails with "bad codec version" (before any value or
table is decoded), and every buffer produced by encode begins with exactly
those four bytes. -/
theorem C8_version_tag :
    (∀ fuel b, 4 ≤ b.len → seg b.data 0 4 ≠ MEMCACHED_CODEC_VERSION →
      mdecodeModel fuel b = .error "bad codec version") ∧
    (∀ H fuel v b, mencodeModel H fuel v = .ok b →
      b.data.take 4 = MEMCACHED_CODEC_VERSION) := by
  constructor
  · intro fuel b h4 hseg
    unfold mdecodeModel
    have havail : buffer_avail { b with pos := 0 } MEMCACHED_CODEC_VERSION.length
        = .ok () := by
      unfold buffer_avail
      rw [if_neg]
      dsimp only
      simp only [not_or, not_lt, MEMCACHED_CODEC_VERSION, SIZE_MAX, List.length_cons,
        List.length_nil]
      omega
    rw [havail]
    rw [show MEMCACHED_CODEC_VERSION.length = 4 from rfl, if_pos hseg]
  · intro H fuel v b h
    unfold mencodeModel at h
    split at h
    · exact absurd h (by simp)
    · rename_i b1 hreq
      have hcomp : buffer_require
          { data := [], pos := 0, len := 0, capacity := MEMCACHED_BUFFER_SIZE }
          MEMCACHED_CODEC_VERSION.length
          = .ok { data := [], pos := 0, len := 0, capacity := MEMCACHED_BUFFER_SIZE } := by
        rfl
      rw [hcomp] at hreq
      simp only [Except.ok.injEq] at hreq
      subst hreq
      split at h
      · exact absurd h (by simp)
      · rename_i b2 br2 heqe
        have hw : writeBytes (MBuffer.mk [] 0 0 MEMCACHED_BUFFER_SIZE) MEMCACHED_CODEC_VERSION
            = MBuffer.mk MEMCACHED_CODEC_VERSION 4 0 MEMCACHED_BUFFER_SIZE := by
          rfl
        rw [hw] at heqe
        obtain ⟨-, -, -, -, -, W, hW⟩ := encodeVal_ext fuel H _ _ _ _ _ heqe (by rfl)
        simp only [Except.ok.injEq] at h
        rw [← h]
        dsimp only at hW ⊢
        rw [hW]
        rw [show (4 : Nat) = MEMCACHED_CODEC_VERSION.length from rfl, List.take_left]

/-- Witness for C8 at concrete inputs: a five-byte buffer with a wrong tag,
and the encoding of the boolean true. -/
theorem C8_version_tag_witness :
    mdecodeModel 2 { data := [1, 2, 3, 4, 5], pos := 3, len := 5, capacity := 5 }
      = .error "bad codec version" ∧
    ∃ b, mencodeModel [] 2 (.boolean true) = .ok b ∧ b.data.take 4 = MEMCACHED_CODEC_VERSION := by
  constructor
  · exact C8_version_tag.1 2 { data := [1, 2, 3, 4, 5], pos := 3, len := 5, capacity := 5 }
      (by decide) (by decide)
  · refine ⟨{ data := [76, 77, 246, 2, 65], pos := 5, len := 5, capacity := 1024 }, rfl, ?_⟩
    exact C8_version_tag.2 [] 2 (.boolean true) _ rfl

/-! ### Claim C1: the codec round-trip -/

/-- C1 counterexample: a value of the supported universe whose round-trip
fails outright.  A byte string of 2^28 bytes is supported, yet mencode
rejects it with "buffer overflow" (the required buffer would exceed the
256 MiB ceiling MEMCACHED_BUFFER_MAX), so decode(encode(v)) is not v for
every supported v: the claim needs the proviso that encoding succeeds. -/
theorem C1_counterexample :
    supported (.str (List.replicate (2 ^ 28) 0)) = true ∧
    mencodeModel [] 1 (.str (List.replicate (2 ^ 28) 0)) = .error "buffer overflow" := by
  refine ⟨rfl, ?_⟩
  have key : ∀ s : List Nat, s.length = 2 ^ 28 →
      mencodeModel [] 1 (.str s) = .error "buffer overflow" := by
    intro s hs
    unfold mencodeModel
    rw [show buffer_require (MBuffer.mk [] 0 0 MEMCACHED_BUFFER_SIZE)
        MEMCACHED_CODEC_VERSION.length
        = .ok (MBuffer.mk [] 0 0 MEMCACHED_BUFFER_SIZE) from rfl]
    dsimp only
    rw [show writeBytes (MBuffer.mk [] 0 0 MEMCACHED_BUFFER_SIZE) MEMCACHED_CODEC_VERSION
        = MBuffer.mk MEMCACHED_CODEC_VERSION 4 0 MEMCACHED_BUFFER_SIZE from rfl]
    simp only [encodeVal, encodeValGo]
    rw [hs]
    rw [if_neg (show ¬(2 ^ 28 > UINT64_MAX - (1 + 8)) from by norm_num [UINT64_MAX])]
    rw [if_neg (show ¬(2 ^ 28 ≤ 255) from by norm_num)]
    rw [show buffer_require (MBuffer.mk MEMCACHED_CODEC_VERSION 4 0 MEMCACHED_BUFFER_SIZE)
        (1 + 8 + 2 ^ 28) = (.error "buffer overflow" : Except String MBuffer) from by
      unfold buffer_require
      dsimp only
      rw [if_pos (Or.inr (show 4 + (1 + 8 + 2 ^ 28) > MEMCACHED_BUFFER_MAX from by
        norm_num [MEMCACHED_BUFFER_MAX]))]]
  exact key _ (by rw [List.length_replicate])

/-- C1 (amended): for every well-formed value over a well-formed heap all
of whose table entries are supported — including tables with shared or
cyclic references — if mencode succeeds, then mdecode of the produced
buffer succeeds and yields a value structurally equal to the input with
floats compared bitwise and with the same sharing: the table
correspondence is functional and injective, so whenever two paths in the
input reach one table, the corresponding paths in the decoding reach one
table, and conversely.  The success proviso is necessary: encoding fails
on supported values whose wire image exceeds the 256 MiB ceiling. -/
theorem C1_roundtrip (H : Heap) (fuel : Nat) (v : LValue) (b : MBuffer)
    (hWF : WFHeap H) (hWFv : WFVal v)
    (hall : ∀ td ∈ H, ∀ kv ∈ td, supported kv.1 = true ∧ supported kv.2 = true)
    (henc : mencodeModel H fuel v = .ok b) :
    ∃ v' b1 st, mdecodeModel fuel b = .ok (v', b1, st) ∧ HeapEquiv H v st.dheap v' := by
  obtain ⟨v', b1, st, hdec, br, hR, hI⟩ := mencode_roundtrip H fuel v b hWF hWFv henc
  exact ⟨v', b1, st, hdec, heapEquiv_of_filt hall (filtEquiv_of_rel hR hI)⟩

/-- The amended C1 theorem at a concrete cyclic value: a table whose single
entry maps 1 to the table itself round-trips with its sharing intact. -/
theorem C1_roundtrip_witness :
    ∃ v' b1 st,
      mdecodeModel 2 (MBuffer.mk
        [76, 77, 246, 2, 5, 1, 0, 67, 0, 0, 0, 0, 0, 0, 0, 1,
          69, 0, 0, 0, 0, 0, 0, 0, 1] 25 25 1024) = .ok (v', b1, st) ∧
      HeapEquiv [[(.integer 1, .table 0)]] (.table 0) st.dheap v' :=
  C1_roundtrip [[(.integer 1, .table 0)]] 2 (.table 0)
    (MBuffer.mk [76, 77, 246, 2, 5, 1, 0, 67, 0, 0, 0, 0, 0, 0, 0, 1,
      69, 0, 0, 0, 0, 0, 0, 0, 1] 25 25 1024)
    (by
      intro td htd
      rw [List.mem_singleton] at htd
      subst htd
      constructor
      · intro kv hkv
        rw [show filtSup [((LValue.integer 1), (LValue.table 0))]
            = [((LValue.integer 1), (LValue.table 0))] from rfl] at hkv
        rw [List.mem_singleton] at hkv
        subst hkv
        exact ⟨⟨by norm_num, by norm_num⟩, trivial⟩
      · rw [show filtSup [((LValue.integer 1), (LValue.table 0))]
            = [((LValue.integer 1), (LValue.table 0))] from rfl]
        simp)
    trivial
    (by decide)
    (by rfl)

/-! ### Claim C7: unsupported entries are silently dropped -/

/-- C7: within a table, entries whose key or value is unsupported are
silently dropped by the encoder: the pair loop of encode produces on any
entry list exactly what it produces on the sublist of supported entries —
in particular no error is raised for the dropped entries — and whenever
mencode succeeds on a well-formed value, mdecode of the encoding succeeds
and the decoded graph corresponds to the source with each table
contributing exactly its supported entries in order (FiltEquiv): an entry
with unsupported key or value is absent from the decoded result, and all
entries with supported key and value are preserved. -/
theorem C7_unsupported_skipped :
    (∀ (encV : MBuffer → Backrefs → LValue → Except String (MBuffer × Backrefs))
        (l : TableData) (b : MBuffer) (br : Backrefs) (narr nrec : Nat),
      encodePairsGo encV b br l narr nrec
        = encodePairsGo encV b br (filtSup l) narr nrec) ∧
    (∀ (H : Heap) (fuel : Nat) (v : LValue) (b : MBuffer), WFHeap H → WFVal v →
      mencodeModel H fuel v = .ok b →
      ∃ v' b1 st, mdecodeModel fuel b = .ok (v', b1, st) ∧
        FiltEquiv H v st.dheap v') := by
  constructor
  · intro encV l
    induction l with
    | nil =>
      intro b br narr nrec
      rfl
    | cons kv rest ih =>
      intro b br narr nrec
      obtain ⟨k, v⟩ := kv
      by_cases hs : supported k = true ∧ supported v = true
      · rw [filtSup_cons_sup rest hs.1 hs.2]
        simp only [encodePairsGo]
        rw [if_pos hs, if_pos hs]
        by_cases harr : nrec = 0 ∧ luaToInteger k = (narr : Int) + 1
        · rw [if_pos harr, if_pos harr]
          by_cases hm : narr = LUA_MAXINTEGER
          · rw [if_pos hm, if_pos hm]
          · rw [if_neg hm, if_neg hm]
            cases hek : encV b br k with
            | error e => rfl
            | ok p =>
              obtain ⟨b1, br1⟩ := p
              dsimp only
              cases hev : encV b1 br1 v with
              | error e => rfl
              | ok q =>
                obtain ⟨b2, br2⟩ := q
                dsimp only
                exact ih b2 br2 (narr + 1) nrec
        · rw [if_neg harr, if_neg harr]
          by_cases hm : nrec = LUA_MAXINTEGER
          · rw [if_pos hm, if_pos hm]
          · rw [if_neg hm, if_neg hm]
            cases hek : encV b br k with
            | error e => rfl
            | ok p =>
              obtain ⟨b1, br1⟩ := p
              dsimp only
              cases hev : encV b1 br1 v with
              | error e => rfl
              | ok q =>
                obtain ⟨b2, br2⟩ := q
                dsimp only
                exact ih b2 br2 narr (nrec + 1)
      · rw [filtSup_cons_unsup rest hs]
        simp only [encodePairsGo]
        rw [if_neg hs]
        exact ih b br narr nrec
  · intro H fuel v b hWF hWFv henc
    obtain ⟨v', b1, st, hdec, br, hR, hI⟩ := mencode_roundtrip H fuel v b hWF hWFv henc
    exact ⟨v', b1, st, hdec, filtEquiv_of_rel hR hI⟩

/-- The C7 theorem at a concrete table with an unsupported entry: the pair
loop on a two-entry list whose first entry has an unsupported value equals
the loop on the supported sublist, and the encoding of a heap holding that
table decodes to a table corresponding to the supported sublist alone. -/
theorem C7_unsupported_skipped_witness :
    (encodePairsGo (encodeVal [] 1) (MBuffer.mk [] 0 0 1024) ⟨[], 0⟩
        [(.integer 1, .other 7), (.integer 1, .integer 5)] 0 0
      = encodePairsGo (encodeVal [] 1) (MBuffer.mk [] 0 0 1024) ⟨[], 0⟩
          (filtSup [(.integer 1, .other 7), (.integer 1, .integer 5)]) 0 0) ∧
    ∃ v' b1 st,
      mdecodeModel 2 (MBuffer.mk
        [76, 77, 246, 2, 5, 1, 0, 67, 0, 0, 0, 0, 0, 0, 0, 1,
          67, 0, 0, 0, 0, 0, 0, 0, 5] 25 25 1024) = .ok (v', b1, st) ∧
      FiltEquiv [[(.integer 1, .other 7), (.integer 1, .integer 5)]]
        (.table 0) st.dheap v' := by
  constructor
  · exact C7_unsupported_skipped.1 (encodeVal [] 1)
      [(.integer 1, .other 7), (.integer 1, .integer 5)]
      (MBuffer.mk [] 0 0 1024) ⟨[], 0⟩ 0 0
  · exact C7_unsupported_skipped.2 [[(.integer 1, .other 7), (.integer 1, .integer 5)]] 2
      (.table 0)
      (MBuffer.mk [76, 77, 246, 2, 5, 1, 0, 67, 0, 0, 0, 0, 0, 0, 0, 1,
        67, 0, 0, 0, 0, 0, 0, 0, 5] 25 25 1024)
      (by
        intro td htd
        rw [List.mem_singleton] at htd
        subst htd
        constructor
        · intro kv hkv
          rw [show filtSup [((LValue.integer 1), (LValue.other 7)),
                ((LValue.integer 1), (LValue.integer 5))]
              = [((LValue.integer 1), (LValue.integer 5))] from rfl] at hkv
          rw [List.mem_singleton] at hkv
          subst hkv
          exact ⟨⟨by norm_num, by norm_num⟩, ⟨by norm_num, by norm_num⟩⟩
        · rw [show filtSup [((LValue.integer 1), (LValue.other 7)),
                ((LValue.integer 1), (LValue.integer 5))]
              = [((LValue.integer 1), (LValue.integer 5))] from rfl]
          simp)
      trivial
      (by rfl)

end LuaMemcached
